import Mathlib

/-!
Verification of the byte-array engine of qtbase (src/corelib/text/qbytearray.cpp).

Bytes are modelled as `Nat` values below 256, byte sequences as `List Nat`.
C pointers that may be null are modelled as `Option (List Nat)`; `none` is the
null pointer.  Machine `int` values are modelled as `Int`/`Nat` with explicit
bounds where overflow matters.
-/

set_option maxHeartbeats 1600000


/-- Byte predicate: every element of the list is a byte value. -/
def IsBytes (s : List Nat) : Prop := ∀ b ∈ s, b < 256

instance : DecidablePred IsBytes := fun s =>
  inferInstanceAs (Decidable (∀ b ∈ s, b < 256))

/-! ## Case-insensitive comparison engine (qbytearray.cpp lines 73-411) -/

/-- ASCII lowercasing used by the case-insensitive comparisons
(qbytearray.cpp `asciiLower`): bytes in `A`-`Z` get bit 0x20 set,
all other bytes pass through unchanged. -/

def asciiLower (c : Nat) : Nat :=
  if 65 ≤ c ∧ c ≤ 90 then c ||| 0x20 else c

/-- Scalar comparison loop of `qstricmp` (the `innerCompare` lambda in the
unlimited mode, which the SIMD fast path must agree with).  The current byte of
a C string is the list head, or 0 (the terminator) once the list is exhausted. -/

def qstricmpGo : List Nat → List Nat → Int
  | [], l2 =>
    let res : Int := (asciiLower 0 : Int) - (asciiLower (l2.headD 0) : Int)
    if res ≠ 0 then res else 0
  | c1 :: t1, l2 =>
    let res : Int := (asciiLower c1 : Int) - (asciiLower (l2.headD 0) : Int)
    if res ≠ 0 then res
    else if c1 = 0 then 0
    else qstricmpGo t1 l2.tail

/-- Embedding of `qstricmp(const char *, const char *)`:
null checks first, then the scalar comparison loop. -/

def qstricmp (s1 s2 : Option (List Nat)) : Int :=
  match s1 with
  | none => match s2 with
    | some _ => -1
    | none => 0
  | some l1 => match s2 with
    | none => 1
    | some l2 => qstricmpGo l1 l2

/-- Comparison loop of the three-argument `qstrnicmp(str1, str2, len)`. -/

def qstrnicmpGo : Nat → List Nat → List Nat → Int
  | 0, _, _ => 0
  | len + 1, l1, l2 =>
    let c := l1.headD 0
    let res : Int := (asciiLower c : Int) - (asciiLower (l2.headD 0) : Int)
    if res ≠ 0 then res
    else if c = 0 then 0
    else qstrnicmpGo len l1.tail l2.tail

/-- Embedding of `qstrnicmp(const char *str1, const char *str2, uint len)`. -/

def qstrnicmp3 (s1 s2 : Option (List Nat)) (len : Nat) : Int :=
  match s1, s2 with
  | none, none => 0
  | none, some _ => -1
  | some _, none => 1
  | some l1, some l2 => qstrnicmpGo len l1 l2

/-- Loop of the four-argument `qstrnicmp` for `len2 == -1`
(`str2` is NUL-terminated): walk `len1` bytes of `l1` against `l2`. -/

def qstrnicmp4GoNul : Nat → List Nat → List Nat → Int
  | 0, _, l2 => if l2.headD 0 ≠ 0 then -1 else 0
  | len1 + 1, l1, l2 =>
    let c := l2.headD 0
    if c = 0 then 1
    else
      let res : Int := (asciiLower (l1.headD 0) : Int) - (asciiLower c : Int)
      if res ≠ 0 then res
      else qstrnicmp4GoNul len1 l1.tail l2.tail

/-- Loop of the four-argument `qstrnicmp` for `len2 >= 0`:
compare `min len1 len2` bytes, then order by length. -/

def qstrnicmp4GoLen : Nat → List Nat → List Nat → Int
  | 0, _, _ => 0
  | len + 1, l1, l2 =>
    let res : Int := (asciiLower (l1.headD 0) : Int) - (asciiLower (l2.headD 0) : Int)
    if res ≠ 0 then res
    else qstrnicmp4GoLen len l1.tail l2.tail

/-- Embedding of the internal four-argument
`qstrnicmp(const char *str1, qsizetype len1, const char *str2, qsizetype len2)`.
`len2 = -1` means `str2` is NUL-terminated.  The source asserts `len1 >= 0`,
so `len1` is a `Nat`. -/

def qstrnicmp4 (s1 : Option (List Nat)) (len1 : Nat)
    (s2 : Option (List Nat)) (len2 : Int) : Int :=
  if s1 = none ∨ len1 = 0 then
    if len2 = 0 then 0
    else if len2 = -1 then
      (if s2 = none ∨ (s2.getD []).headD 0 = 0 then 0 else -1)
    else -1
  else if s2 = none then
    if len1 = 0 then 0 else 1
  else
    let l1 := s1.getD []
    let l2 := s2.getD []
    if len2 = -1 then qstrnicmp4GoNul len1 l1 l2
    else qstrnicmp4GoLen (min len1 len2.toNat) l1 l2 +
      (if qstrnicmp4GoLen (min len1 len2.toNat) l1 l2 = 0 then
        (if (len1 : Int) = len2 then 0 else if (len1 : Int) < len2 then -1 else 1)
      else 0)

/-! ## Hex codec (qbytearray.cpp `toHex` / `fromHex`, lines 4393-4446) -/

/-- Hex digit classifier used by the decoder (`QtMiscUtils::fromHex`).
Modelled from the spec: the helper lives in a header outside `src/`;
the spec says decoding is case-insensitive on `0-9`, `a-f`, `A-F`, and any
other byte is not a hex digit.  Returns the digit value, or `none` for the
source's `-1`. -/

def hexDigitValue (c : Nat) : Option Nat :=
  if 48 ≤ c ∧ c ≤ 57 then some (c - 48)
  else if 97 ≤ c ∧ c ≤ 102 then some (c - 97 + 10)
  else if 65 ≤ c ∧ c ≤ 70 then some (c - 65 + 10)
  else none

/-- Lowercase hex digit emitter (`QtMiscUtils::toHexLower`).
Modelled from the spec: encode uses the lowercase alphabet `0-9a-f`. -/

def toHexLower (n : Nat) : Nat :=
  if n < 10 then 48 + n else 97 + (n - 10)

/-- Loop of `QByteArray::toHex(char separator)`: each byte becomes the pair
`toHexLower (b >> 4)`, `toHexLower (b & 0xf)`; a nonzero separator byte is
emitted between pairs (the source condition `o < length` holds exactly while
more bytes follow). -/

def toHexGo (sep : Nat) : List Nat → List Nat
  | [] => []
  | b :: rest =>
    toHexLower (b >>> 4) :: toHexLower (b &&& 0xf) ::
      (if sep ≠ 0 ∧ rest ≠ [] then sep :: toHexGo sep rest else toHexGo sep rest)

/-- Embedding of `QByteArray::toHex(char separator)`; an empty input returns
the null byte array. -/

def toHex (s : List Nat) (sep : Nat) : List Nat :=
  if s = [] then [] else toHexGo sep s

/-- Decoder loop of `QByteArray::fromHex`.  The source walks the input from its
last byte to its first, writing decoded bytes backward from the end of a
scratch buffer; the state is the `odd_digit` flag and the bytes written so far
(most recently written byte first).  `*result = tmp` is pushing a byte,
`*result |= tmp << 4` is updating the most recent byte.  The `(false, [])`
state cannot be reached from the entry state `(true, [])`. -/

def fromHexGo : List Nat → Bool × List Nat → Bool × List Nat
  | [], st => st
  | ch :: rest, (odd, acc) =>
    match hexDigitValue ch with
    | none => fromHexGo rest (odd, acc)
    | some t =>
      if odd then fromHexGo rest (false, t :: acc)
      else
        match acc with
        | a :: as => fromHexGo rest (true, (a ||| (t <<< 4)) :: as)
        | [] => fromHexGo rest (true, [t <<< 4])

/-- Embedding of `QByteArray::fromHex`: iterate from the end of the input
(`for i = size-1 downTo 0`), starting with `odd_digit = true`; the final
`res.remove(0, ...)` discards the unused scratch prefix, so the decoded value
is exactly the accumulated byte list. -/

def fromHex (input : List Nat) : List Nat :=
  (fromHexGo input.reverse (true, [])).2

/-! ## C8: null-vs-non-null ordering in case-insensitive comparison -/

/-- C8 counterexample: the four-argument `qstrnicmp` compares a null pointer
(with length 0) EQUAL to a non-null empty string (length 0), returning 0, not
a strictly negative value as the claim requires. -/

def hexPairsGo : List Nat → Bool × List Nat → Bool × List Nat
  | [], st => st
  | t :: rest, (odd, acc) =>
    if odd then hexPairsGo rest (false, t :: acc)
    else match acc with
      | a :: as => hexPairsGo rest (true, (a ||| (t <<< 4)) :: as)
      | [] => hexPairsGo rest (true, [t <<< 4])

/-- Pairing-up of a digit-value sequence, two at a time from the front,
accumulating combined bytes in reverse. -/

def revBytes : List Nat → List Nat
  | [] => []
  | [a] => [a]
  | a :: b :: rest => revBytes rest ++ [a ||| (b <<< 4)]

/-- The decoder only looks at the valid hex digits of its input. -/

def alphabet_base64 : List Nat :=
  (List.range 26).map (fun n => 65 + n) ++ (List.range 26).map (fun n => 97 + n) ++
    (List.range 10).map (fun n => 48 + n) ++ [43, 47]

def alphabet_base64url : List Nat :=
  (List.range 26).map (fun n => 65 + n) ++ (List.range 26).map (fun n => 97 + n) ++
    (List.range 10).map (fun n => 48 + n) ++ [45, 95]

def b64Char (url : Bool) (n : Nat) : Nat :=
  (if url then alphabet_base64url else alphabet_base64).getD n 0

def toBase64Go (url omitEq : Bool) : List Nat → List Nat
  | [] => []
  | [b1] =>
    let chunk := b1 <<< 16
    b64Char url ((chunk &&& 0xfc0000) >>> 18) :: b64Char url ((chunk &&& 0x3f000) >>> 12) ::
      (if omitEq then [] else [61, 61])
  | [b1, b2] =>
    let chunk := (b1 <<< 16) ||| (b2 <<< 8)
    b64Char url ((chunk &&& 0xfc0000) >>> 18) :: b64Char url ((chunk &&& 0x3f000) >>> 12) ::
      b64Char url ((chunk &&& 0xfc0) >>> 6) :: (if omitEq then [] else [61])
  | b1 :: b2 :: b3 :: rest =>
    let chunk := (b1 <<< 16) ||| (b2 <<< 8) ||| b3
    b64Char url ((chunk &&& 0xfc0000) >>> 18) :: b64Char url ((chunk &&& 0x3f000) >>> 12) ::
      b64Char url ((chunk &&& 0xfc0) >>> 6) :: b64Char url (chunk &&& 0x3f) ::
        toBase64Go url omitEq rest

def toBase64 (url omitEq : Bool) (s : List Nat) : List Nat := toBase64Go url omitEq s

def b64Digit (url : Bool) (ch : Nat) : Option Nat :=
  if 65 ≤ ch ∧ ch ≤ 90 then some (ch - 65)
  else if 97 ≤ ch ∧ ch ≤ 122 then some (ch - 97 + 26)
  else if 48 ≤ ch ∧ ch ≤ 57 then some (ch - 48 + 52)
  else if ch = 43 ∧ url = false then some 62
  else if ch = 45 ∧ url = true then some 62
  else if ch = 47 ∧ url = false then some 63
  else if ch = 95 ∧ url = true then some 63
  else none

inductive B64Status
  | Ok
  | IllegalInputLength
  | IllegalPadding
  | IllegalCharacter
deriving DecidableEq

def fromBase64Go (url abort : Bool) (total : Nat) :
    List Nat → Nat → Nat → Nat → List Nat → B64Status × List Nat
  | [], _, _, _, acc => (.Ok, acc)
  | ch :: rest, i, buf, nbits, acc =>
    match b64Digit url ch with
    | some d =>
      let buf2 := (buf <<< 6) ||| d
      if 8 ≤ nbits + 6 then
        fromBase64Go url abort total rest (i + 1) (buf2 &&& ((1 <<< (nbits + 6 - 8)) - 1))
          (nbits + 6 - 8) (acc ++ [buf2 >>> (nbits + 6 - 8)])
      else
        fromBase64Go url abort total rest (i + 1) buf2 (nbits + 6) acc
    | none =>
      if abort then
        if ch = 61 then
          if total % 4 ≠ 0 then (.IllegalInputLength, [])
          else if i = total - 1 then fromBase64Go url abort total rest (i + 1) buf nbits acc
          else
            match rest with
            | r2 :: rrest =>
              if i = total - 2 ∧ r2 = 61 then
                fromBase64Go url abort total rrest (i + 2) buf nbits acc
              else (.IllegalPadding, [])
            | [] => (.IllegalPadding, [])
        else (.IllegalCharacter, [])
      else fromBase64Go url abort total rest (i + 1) buf nbits acc

def fromBase64 (url abort : Bool) (input : List Nat) : List Nat :=
  match fromBase64Go url abort input.length input 0 0 0 [] with
  | (B64Status.Ok, decoded) => decoded
  | _ => []

set_option maxRecDepth 8000 in

def deflateModel (s : List Nat) : List Nat := s

/-- Modelled from the spec: zlib `compress2` writing into a buffer of
`destLen` bytes; fails (Z_BUF_ERROR) when the deflated payload does not fit. -/

def compress2Model (destLen : Nat) (src : List Nat) : Option (List Nat) :=
  if (deflateModel src).length ≤ destLen then some (deflateModel src) else none

/-- Outcomes of zlib `uncompress` relevant to `qUncompress`. -/

inductive ZRes
  | ok
  | bufError
  | dataError
deriving DecidableEq

/-- Modelled from the spec: zlib `uncompress` into a buffer of `destLen`
bytes; restores the deflated payload when it fits, else Z_BUF_ERROR. -/

def uncompressModel (destLen : Nat) (src : List Nat) : ZRes × List Nat :=
  if (deflateModel src).length ≤ destLen then (ZRes.ok, src) else (ZRes.bufError, [])

/-- The 4-byte big-endian original-length header qCompress prepends
(`bazip[0] = (nbytes & 0xff000000) >> 24` and so on). -/

def lengthHeader (n : Nat) : List Nat :=
  [(n &&& 0xff000000) >>> 24, (n &&& 0xff0000) >>> 16, (n &&& 0xff00) >>> 8, n &&& 0xff]

/-- Modelled from the spec: `MaxAllocSize - sizeof(QByteArray::Data)`, the
allocation limit checked by `qUncompress`; the header constants live outside
`src/`.  `MaxAllocSize` is the maximum `qsizetype` value. -/

def maxPossibleSize : Nat := 2 ^ 63 - 1 - 24

/-- The do-while loop of `qCompress`: try `compress2` with the current
destination size, doubling `len` on Z_BUF_ERROR.  The loop is modelled with a
fuel bound; with the modelled codec the first iteration always succeeds, so
any positive fuel is sufficient. -/

def qCompressLoop (src : List Nat) (nbytes : Nat) : Nat → Nat → List Nat
  | 0, _ => []
  | fuel + 1, len =>
    match compress2Model len src with
    | some z => lengthHeader nbytes ++ z
    | none => qCompressLoop src nbytes fuel (len * 2)

/-- Embedding of `qCompress(const uchar *data, int nbytes, int level)`:
zero-length input yields the bare zero header; a null pointer yields the null
array; otherwise the compression loop starts at
`len = nbytes + nbytes/100 + 13`. -/

def qCompress (data : Option (List Nat)) (nbytes : Nat) : List Nat :=
  if nbytes = 0 then [0, 0, 0, 0]
  else match data with
    | none => []
    | some d => qCompressLoop d nbytes (nbytes + 1) (nbytes + nbytes / 100 + 13)

/-- The `forever` retry loop of `qUncompress`: inflate into the current
buffer, doubling it on Z_BUF_ERROR (rejecting sizes at or beyond
`maxPossibleSize`), failing to the empty array on corrupt data.  Modelled
with a fuel bound, sufficient for any input that ever leaves the loop. -/

def qUncompressLoop (src : List Nat) : Nat → Nat → List Nat
  | 0, _ => []
  | fuel + 1, len =>
    match uncompressModel len src with
    | (ZRes.ok, out) => out
    | (ZRes.bufError, _) =>
      if maxPossibleSize ≤ len * 2 then [] else qUncompressLoop src fuel (len * 2)
    | (ZRes.dataError, _) => []

/-- Embedding of `qUncompress(const uchar *data, int nbytes)`: null data or
`nbytes <= 4` give the empty array; otherwise the big-endian expected size is
read from the first four bytes, clamped below by 1, bounds-checked, and the
inflate loop runs over the remaining bytes. -/

def qUncompress (data : Option (List Nat)) (nbytes : Nat) : List Nat :=
  match data with
  | none => []
  | some d =>
    if nbytes ≤ 4 then []
    else
      let expectedSize := ((d.getD 0 0) <<< 24) ||| ((d.getD 1 0) <<< 16) |||
        ((d.getD 2 0) <<< 8) ||| (d.getD 3 0)
      let len := max expectedSize 1
      if maxPossibleSize ≤ len then []
      else qUncompressLoop ((d.drop 4).take (nbytes - 4)) (len + 1) len

/-- Reassembling four bytes big-endian is plain arithmetic. -/

def digitValue36 (c : Nat) : Option Nat :=
  if 48 ≤ c ∧ c ≤ 57 then some (c - 48)
  else if 97 ≤ c ∧ c ≤ 122 then some (c - 97 + 10)
  else if 65 ≤ c ∧ c ≤ 90 then some (c - 65 + 10)
  else none

/-- Modelled from the spec: accumulate digits of the given base; any
non-digit (or out-of-base digit) makes the parse fail, and at least one digit
is required (`none` accumulator = nothing parsed yet). -/

def parseDigits (base : Nat) : List Nat → Option Nat → Option Nat
  | [], acc => acc
  | c :: rest, acc =>
    match digitValue36 c with
    | some d => if d < base then parseDigits base rest (some ((acc.getD 0) * base + d)) else none
    | none => none

/-- Modelled from the spec: base 0 auto-detects `0x`/`0X` as hexadecimal, a
leading `0` as octal, else decimal. -/

def detectBase (base : Nat) (s : List Nat) : Nat × List Nat :=
  if base = 0 then
    match s with
    | 48 :: 120 :: r => (16, r)
    | 48 :: 88 :: r => (16, r)
    | 48 :: r => (8, 48 :: r)
    | _ => (10, s)
  else (base, s)

/-- Modelled from the spec: optional leading sign for the signed parse. -/

def splitSign (s : List Nat) : Bool × List Nat :=
  match s with
  | 45 :: r => (true, r)
  | 43 :: r => (false, r)
  | _ => (false, s)

/-- Modelled from the spec: `QLocaleData::bytearrayToLongLong`
(qlocale.cpp, outside `src/`): locale-independent signed parse; any failure,
including a magnitude outside the `long long` range, reports failure with
value 0. -/

def bytearrayToLongLong (s : List Nat) (base : Nat) : Bool × Int :=
  match parseDigits (detectBase base (splitSign s).2).1 (detectBase base (splitSign s).2).2
      none with
  | none => (false, 0)
  | some m =>
    if (splitSign s).1 then
      if m ≤ 2 ^ 63 then (true, -(m : Int)) else (false, 0)
    else
      if m ≤ 2 ^ 63 - 1 then (true, (m : Int)) else (false, 0)

/-- Modelled from the spec: optional leading `+` for the unsigned parse. -/

def stripPlus (s : List Nat) : List Nat :=
  match s with
  | 43 :: r => r
  | _ => s

/-- Modelled from the spec: `QLocaleData::bytearrayToUnsLongLong`
(qlocale.cpp, outside `src/`): unsigned parse, failing with value 0 past the
`unsigned long long` range. -/

def bytearrayToUnsLongLong (s : List Nat) (base : Nat) : Bool × Nat :=
  match parseDigits (detectBase base (stripPlus s)).1 (detectBase base (stripPlus s)).2
      none with
  | none => (false, 0)
  | some m =>
    if m ≤ 2 ^ 64 - 1 then (true, m) else (false, 0)

/-- Embedding of the templated `toIntegral_helper<T>` for a signed `T` of
bit width `w` (`toInt` is `w = 32`, `toShort` `w = 16`, `toLong` and
`toLongLong` `w = 64` on LP64): null data fails with 0; after the parse, the
narrowing check `T(val) != val` (value outside the two's-complement range of
`T`) forces `*ok = false` and `val = 0`. -/

def toIntegral_helper_signed (w : Nat) (data : Option (List Nat)) (base : Nat) : Bool × Int :=
  match data with
  | none => (false, 0)
  | some s =>
    if -(2 ^ (w - 1) : Int) ≤ (bytearrayToLongLong s base).2 ∧
        (bytearrayToLongLong s base).2 < 2 ^ (w - 1) then
      ((bytearrayToLongLong s base).1, (bytearrayToLongLong s base).2)
    else (false, 0)

/-- Embedding of `toIntegral_helper<T>` for an unsigned `T` of bit width
`w` (`toUInt` is `w = 32`, `toUShort` `w = 16`, `toULongLong` `w = 64`). -/

def toIntegral_helper_unsigned (w : Nat) (data : Option (List Nat)) (base : Nat) : Bool × Nat :=
  match data with
  | none => (false, 0)
  | some s =>
    if (bytearrayToUnsLongLong s base).2 < 2 ^ w then
      ((bytearrayToUnsLongLong s base).1, (bytearrayToUnsLongLong s base).2)
    else (false, 0)

/-- The modelled signed parse never fails with a nonzero value. -/

structure Store where
  bytes : List Nat
  alloc : Nat
  isMut : Bool
  refcnt : Nat
deriving Repr, DecidableEq

structure Buffer where
  sid : Nat
  size : Nat
deriving Repr, DecidableEq

abbrev Heap := List Store

def dummyStore : Store := ⟨[], 0, false, 0⟩

def storeAt (h : Heap) (sid : Nat) : Store := h.getD sid dummyStore

def storeOf (h : Heap) (b : Buffer) : Store := storeAt h b.sid

def readBuf (h : Heap) (b : Buffer) : List Nat := (storeOf h b).bytes.take b.size

/-- Modelled from the spec: `QArrayData::needsDetach` (qarraydata.h is outside
src/) — detach when the store is shared (refcount above 1) or not mutable
(raw external data). -/

def needsDetach (st : Store) : Bool := decide (1 < st.refcnt) || !st.isMut

/-- Modelled from the spec: `capacity()` returns one less than the allocation,
reserving the terminator slot (the header lives outside src/). -/

def capacityB (h : Heap) (b : Buffer) : Nat := (storeOf h b).alloc - 1

def junkByte : Nat := 85

def readBytes (src : List Nat) (n : Nat) : List Nat :=
  src.take n ++ List.replicate (n - src.length) junkByte

def writeRange (l : List Nat) (i : Nat) (vs : List Nat) : List Nat :=
  l.take i ++ vs ++ l.drop (i + vs.length)

def updBytes (h : Heap) (sid : Nat) (nb : List Nat) : Heap :=
  h.set sid { storeAt h sid with bytes := nb }

def increfH (h : Heap) (sid : Nat) : Heap :=
  h.set sid { storeAt h sid with refcnt := (storeAt h sid).refcnt + 1 }

def decrefH (h : Heap) (sid : Nat) : Heap :=
  h.set sid { storeAt h sid with refcnt := (storeAt h sid).refcnt - 1 }

def copyBuf (h : Heap) (b : Buffer) : Heap × Buffer := (increfH h b.sid, b)

/-- `QByteArray::reallocData` (qbytearray.cpp:1647): when the store is shared
or raw, allocate a fresh store of `alloc` bytes, copy `min (alloc-1) size`
bytes, 0-terminate, and drop one reference on the old store; otherwise
realloc in place.  Allocation sizes are modelled as exact (the growth
policy lives in qarraydata.cpp outside src/); uninitialised memory is the
junk byte. -/

def reallocData (h : Heap) (b : Buffer) (alloc : Nat) : Heap × Buffer :=
  if needsDetach (storeOf h b) then
    (decrefH h b.sid ++
      [⟨(readBytes (storeOf h b).bytes (min (alloc - 1) b.size) ++
          List.replicate (alloc - min (alloc - 1) b.size) junkByte).set
            (min (alloc - 1) b.size) 0,
        alloc, true, 1⟩],
     ⟨h.length, min (alloc - 1) b.size⟩)
  else
    (h.set b.sid
      { storeOf h b with bytes := readBytes (storeOf h b).bytes alloc, alloc := alloc }, b)

def detachB (h : Heap) (b : Buffer) : Heap × Buffer :=
  if needsDetach (storeOf h b) then reallocData h b (b.size + 1) else (h, b)

def sizeClamp (n : Int) : Nat := if n < 0 then 0 else n.toNat

def terminate (r : Heap × Buffer) (sz : Nat) : Heap × Buffer :=
  if (storeOf r.1 r.2).alloc ≠ 0 then
    (updBytes r.1 r.2.sid ((storeOf r.1 r.2).bytes.set sz 0), ⟨r.2.sid, sz⟩)
  else (r.1, ⟨r.2.sid, sz⟩)

def resizeB (h : Heap) (b : Buffer) (size : Int) : Heap × Buffer :=
  terminate
    (if needsDetach (storeOf h b) ∨ capacityB h b < sizeClamp size then
      reallocData h b (sizeClamp size + 1)
    else (h, b))
    (sizeClamp size)

def appendFinish (r : Heap × Buffer) (sdata : List Nat) (l : Nat) : Heap × Buffer :=
  (updBytes r.1 r.2.sid
    ((writeRange (storeOf r.1 r.2).bytes r.2.size (readBytes sdata l)).set (r.2.size + l) 0),
   ⟨r.2.sid, r.2.size + l⟩)

def appendB2 (h : Heap) (b : Buffer) (str : Option (List Nat)) (l : Nat) : Heap × Buffer :=
  match str with
  | none => (h, b)
  | some sdata =>
    if l = 0 then (h, b)
    else
      appendFinish
        (if needsDetach (storeOf h b) ∨ capacityB h b < b.size + l then
          reallocData h b (b.size + l + 1)
        else (h, b))
        sdata l

def appendB (h : Heap) (b : Buffer) (str : Option (List Nat)) (len : Int) : Heap × Buffer :=
  appendB2 h b str (if len < 0 then (str.getD []).length else len.toNat)

def prependFinish (r : Heap × Buffer) (sdata : List Nat) (l : Nat) : Heap × Buffer :=
  (updBytes r.1 r.2.sid
    ((writeRange
        (writeRange (storeOf r.1 r.2).bytes l (readBytes (storeOf r.1 r.2).bytes r.2.size))
        0 (readBytes sdata l)).set (r.2.size + l) 0),
   ⟨r.2.sid, r.2.size + l⟩)

def prependB (h : Heap) (b : Buffer) (str : Option (List Nat)) (len : Nat) : Heap × Buffer :=
  match str with
  | none => (h, b)
  | some sdata =>
    prependFinish
      (if needsDetach (storeOf h b) ∨ capacityB h b < b.size + len then
        reallocData h b (b.size + len + 1)
      else (h, b))
      sdata len

def insertFinish (r : Heap × Buffer) (oldsize p : Nat) (arr : List Nat) (l : Nat) :
    Heap × Buffer :=
  (updBytes r.1 r.2.sid
    (writeRange
      (if oldsize < p then
        writeRange (storeOf r.1 r.2).bytes oldsize (List.replicate (p - oldsize) 0x20)
      else
        writeRange (storeOf r.1 r.2).bytes (p + l)
          (readBytes ((storeOf r.1 r.2).bytes.drop p) (oldsize - p)))
      p (readBytes arr l)),
   r.2)

def insertB (h : Heap) (b : Buffer) (pos : Int) (arr : Option (List Nat)) (len : Int) :
    Heap × Buffer :=
  if pos < 0 ∨ len ≤ 0 ∨ arr = none then (h, b)
  else
    insertFinish (resizeB h b ((max pos.toNat b.size + len.toNat : Nat) : Int))
      b.size pos.toNat (arr.getD []) len.toNat

def insertCountFinish (r : Heap × Buffer) (oldsize p count ch : Nat) : Heap × Buffer :=
  (updBytes r.1 r.2.sid
    (writeRange
      (if oldsize < p then
        writeRange (storeOf r.1 r.2).bytes oldsize (List.replicate (p - oldsize) 0x20)
      else if p < oldsize then
        writeRange (storeOf r.1 r.2).bytes (p + count)
          (readBytes ((storeOf r.1 r.2).bytes.drop p) (oldsize - p))
      else (storeOf r.1 r.2).bytes)
      p (List.replicate count ch)),
   r.2)

def insertCountB (h : Heap) (b : Buffer) (i count : Int) (ch : Nat) : Heap × Buffer :=
  if i < 0 ∨ count ≤ 0 then (h, b)
  else
    insertCountFinish (resizeB h b ((max i.toNat b.size + count.toNat : Nat) : Int))
      b.size i.toNat count.toNat ch

def removeShift (r : Heap × Buffer) (p l : Nat) : Heap × Buffer :=
  (updBytes r.1 r.2.sid
    (writeRange (storeOf r.1 r.2).bytes p (readBytes ((storeOf r.1 r.2).bytes.drop (p + l))
      (r.2.size - p - l))),
   r.2)

def removeB (h : Heap) (b : Buffer) (pos len : Int) : Heap × Buffer :=
  if len ≤ 0 ∨ pos < 0 ∨ (b.size : Int) ≤ pos then (h, b)
  else
    if (b.size : Int) - pos ≤ len then
      resizeB (detachB h b).1 (detachB h b).2 pos
    else
      resizeB (removeShift (detachB h b) pos.toNat len.toNat).1
        (removeShift (detachB h b) pos.toNat len.toNat).2
        ((b.size - len.toNat : Nat) : Int)

def replaceFastB (h : Heap) (b : Buffer) (p l : Nat) (after : List Nat) : Heap × Buffer :=
  (updBytes (detachB h b).1 (detachB h b).2.sid
    (writeRange (storeOf (detachB h b).1 (detachB h b).2).bytes p (readBytes after l)),
   (detachB h b).2)

def replaceB (h : Heap) (b : Buffer) (pos len : Int) (after : Option (List Nat))
    (alen : Int) : Heap × Buffer :=
  if len = alen ∧ pos + len ≤ (b.size : Int) ∧ 0 ≤ pos then
    replaceFastB h b pos.toNat len.toNat (after.getD [])
  else
    insertB (removeB h b pos len).1 (removeB h b pos len).2 pos after alen

def fillB (h : Heap) (b : Buffer) (ch : Nat) (size : Int) : Heap × Buffer :=
  if (resizeB h b (if size < 0 then (b.size : Int) else size)).2.size ≠ 0 then
    (updBytes (resizeB h b (if size < 0 then (b.size : Int) else size)).1
      (resizeB h b (if size < 0 then (b.size : Int) else size)).2.sid
      (writeRange
        (storeOf (resizeB h b (if size < 0 then (b.size : Int) else size)).1
          (resizeB h b (if size < 0 then (b.size : Int) else size)).2).bytes
        0
        (List.replicate
          (resizeB h b (if size < 0 then (b.size : Int) else size)).2.size ch)),
     (resizeB h b (if size < 0 then (b.size : Int) else size)).2)
  else resizeB h b (if size < 0 then (b.size : Int) else size)

def pokeB (h : Heap) (b : Buffer) (j v : Nat) : Heap × Buffer :=
  (updBytes (detachB h b).1 (detachB h b).2.sid
    ((storeOf (detachB h b).1 (detachB h b).2).bytes.set j v),
   (detachB h b).2)

inductive Mutation
  | resize (size : Int)
  | append (str : Option (List Nat)) (len : Int)
  | prepend (str : Option (List Nat)) (len : Nat)
  | insert (pos : Int) (arr : Option (List Nat)) (len : Int)
  | insertCount (i count : Int) (ch : Nat)
  | remove (pos len : Int)
  | replace (pos len : Int) (after : Option (List Nat)) (alen : Int)
  | fill (ch : Nat) (size : Int)
  | poke (j v : Nat)

def applyMutation (h : Heap) (b : Buffer) : Mutation → Heap × Buffer
  | .resize n => resizeB h b n
  | .append str len => appendB h b str len
  | .prepend str len => prependB h b str len
  | .insert pos arr len => insertB h b pos arr len
  | .insertCount i count ch => insertCountB h b i count ch
  | .remove pos len => removeB h b pos len
  | .replace pos len after alen => replaceB h b pos len after alen
  | .fill ch size => fillB h b ch size
  | .poke j v => pokeB h b j v

def PresB (i : Nat) (h : Heap) (r : Heap × Buffer) : Prop :=
  h.length ≤ r.1.length ∧ (i < h.length → (storeAt r.1 i).bytes = (storeAt h i).bytes)

def Keeps (i : Nat) (h : Heap) (r : Heap × Buffer) : Prop :=
  (storeAt r.1 i).bytes = (storeAt h i).bytes ∧ h.length ≤ r.1.length ∧ r.2.sid ≠ i

def demoHeap : Heap := [⟨[97, 98, 99, 0], 4, true, 1⟩]

def demoBuf : Buffer := ⟨0, 3⟩

/-- C1 witness: on the heap holding "abc", appending "x" to a copy leaves
the original readable as "abc" and unshares the storage. -/

def WfBuf (h : Heap) (b : Buffer) : Prop :=
  b.sid < h.length ∧ 1 ≤ (storeOf h b).refcnt ∧
    (if (storeOf h b).isMut then
      (storeOf h b).bytes.length = (storeOf h b).alloc ∧
      b.size + 1 ≤ (storeOf h b).alloc ∧
      (storeOf h b).bytes.getD b.size 0 = 0
    else (storeOf h b).alloc = 0 ∧ b.size ≤ (storeOf h b).bytes.length)

def MidWf (h : Heap) (b : Buffer) (alloc : Nat) : Prop :=
  b.sid < h.length ∧ 1 ≤ (storeOf h b).refcnt ∧ (storeOf h b).isMut = true ∧
    (storeOf h b).bytes.length = alloc ∧ (storeOf h b).alloc = alloc ∧ 1 ≤ alloc

instance wfBufDecidable (h : Heap) (b : Buffer) : Decidable (WfBuf h b) := by
  unfold WfBuf
  infer_instance

/-- C2 witness: the demo heap is well-formed and stays so after an append,
with terminator and capacity facts holding for the mutable result. -/

def matchAt (s pat : List Nat) (i : Nat) : Bool :=
  decide (i + pat.length ≤ s.length) && decide ((s.drop i).take pat.length = pat)

/-- Linear scan for the first match position at or after `i`; the fuel is the
number of positions left to try. -/

def idxGo (s pat : List Nat) : Nat → Nat → Option Nat
  | 0, _ => none
  | fuel + 1, i => if matchAt s pat i then some i else idxGo s pat fuel (i + 1)

/-- Modelled from the spec: the matcher's `indexIn(*this, index)` — leftmost
match position at or after `start`, `none` for "not found" (-1). -/

def indexOfFrom (s pat : List Nat) (start : Nat) : Option Nat :=
  idxGo s pat (s.length + 1 - start) start

/-- The grow-path collection loop of `QByteArray::replace`
(qbytearray.cpp:2189, `while(pos < 4095)`): gather match positions into the
staging buffer while room remains, stepping past each match (`index += bsize`,
plus one more for an empty pattern).  Returns the collected positions and
`some index` when the room was exhausted with the search still live, `none`
when the matcher reported no further match. -/

def collectGo (s pat : List Nat) (bsize : Nat) : Nat → Nat → List Nat × Option Nat
  | 0, index => ([], some index)
  | room + 1, index =>
    match indexOfFrom s pat index with
    | none => ([], none)
    | some i =>
      match collectGo s pat bsize room (i + bsize + if bsize = 0 then 1 else 0) with
      | (rest, idx2) => (i :: rest, idx2)

/-- One iteration of the batch rewrite loop (qbytearray.cpp:2215): memmove the
slice `[idx+bsize, moveend)` up to its final position, then memcpy the
replacement at its insert position; the new `moveend` is `movestart - bsize`.
`memmove` is modelled as read-then-write (`readBytes` then `writeRange`). -/

def batchStep (d a : List Nat) (asize bsize : Nat) (idx pos moveend : Nat) :
    List Nat × Nat :=
  (if asize ≠ 0 then
      writeRange
        (writeRange d (idx + pos * (asize - bsize) + asize)
          (readBytes (d.drop (idx + bsize)) (moveend - (idx + bsize))))
        (idx + pos * (asize - bsize)) (readBytes a asize)
    else
      writeRange d (idx + pos * (asize - bsize) + asize)
        (readBytes (d.drop (idx + bsize)) (moveend - (idx + bsize))),
   idx)

/-- The `while(pos)` loop (qbytearray.cpp:2215): process the collected indices
from the last to the first, with their array positions. -/

def batchLoop (a : List Nat) (asize bsize : Nat) :
    List (Nat × Nat) → List Nat → Nat → List Nat
  | [], d, _ => d
  | (idx, pos) :: rest, d, moveend =>
    batchLoop a asize bsize rest (batchStep d a asize bsize idx pos moveend).1
      (batchStep d a asize bsize idx pos moveend).2

/-- One pass of the grow path after collection (qbytearray.cpp:2203-2224):
a single consolidated resize to `len + pos*(asize-bsize)` followed by the
batch rewrite loop over the collected indices (highest position first). -/

def growPassApply (a : List Nat) (bsize asize : Nat) (d : List Nat) (len : Nat)
    (indices : List Nat) : List Nat :=
  batchLoop a asize bsize ((indices.zip (List.range indices.length)).reverse)
    (if len < len + indices.length * (asize - bsize) then
      readBytes d (len + indices.length * (asize - bsize))
    else d) len

/-- The outer `while (index != -1)` loop of the grow path
(qbytearray.cpp:2186): collect up to 4095 match positions, stop if none,
otherwise run one consolidated resize-and-rewrite pass and continue from the
adjusted index.  The fuel bounds the number of passes; each pass consumes at
least one match, so `s.length + 1` passes always suffice. -/

def replaceGrowLoop (pat a : List Nat) (bsize asize : Nat) :
    Nat → List Nat → Nat → Option Nat → List Nat
  | _, d, _, none => d
  | 0, d, _, some _ => d
  | fuel + 1, d, len, some index =>
    match collectGo d pat bsize 4095 index with
    | (indices, idxOpt) =>
      if indices.length = 0 then d
      else
        replaceGrowLoop pat a bsize asize fuel
          (growPassApply a bsize asize d len indices)
          (len + indices.length * (asize - bsize))
          (idxOpt.map (fun j => j + indices.length * (asize - bsize)))

/-- `QByteArray::replace(before, bsize, after, asize)` restricted to the grow
path `asize > bsize` (qbytearray.cpp:2183-2226), acting on the byte list. -/

def replaceGrow (s pat a : List Nat) : List Nat :=
  replaceGrowLoop pat a pat.length a.length (s.length + 1) s s.length (some 0)

/-- The list of match positions found left to right, each search resuming
`bsize` past the previous match (non-overlapping leftmost matches). -/

def matchListGo (s pat : List Nat) (bsize : Nat) : Nat → Nat → List Nat
  | 0, _ => []
  | fuel + 1, i =>
    match indexOfFrom s pat i with
    | none => []
    | some j => j :: matchListGo s pat bsize fuel (j + bsize)

/-- The segment `[e0, e)` of `d` with the listed occurrences replaced by `a`:
keeps the bytes between matches, substitutes `a` for each match. -/

def builtSeg (d a : List Nat) (bsize : Nat) : Nat → Nat → List Nat → List Nat
  | e0, e, [] => (d.drop e0).take (e - e0)
  | e0, e, j :: rest => (d.drop e0).take (j - e0) ++ a ++ builtSeg d a bsize (j + bsize) e rest

/-- Follows the spec's words: the buffer with every non-overlapping occurrence
of the pattern, found left to right, replaced by `a`. -/

def replaceAllSpec (s pat a : List Nat) : List Nat :=
  builtSeg s a pat.length 0 s.length (matchListGo s pat pat.length (s.length + 1) 0)

/-- Well-formed match-position chain: ascending with gaps of at least `bsize`,
every match fitting below `len`. -/

def ChainOK (bsize len : Nat) : Nat → List Nat → Prop
  | _, [] => True
  | lo, i :: rest => lo ≤ i ∧ i + bsize ≤ len ∧ ChainOK bsize len (i + bsize) rest

def chainEnd (bsize : Nat) : Nat → List Nat → Nat
  | lo, [] => lo
  | _, i :: rest => chainEnd bsize (i + bsize) rest

theorem qstrnicmp4_null_vs_empty_counterexample :
    qstrnicmp4 none 0 (some []) 0 = 0 ∧
      ¬ qstrnicmp4 none 0 (some []) 0 < 0 := by decide

/-- C8 (amended): two null inputs compare equal in all three functions;
`qstricmp` and the three-argument `qstrnicmp` order a null pointer strictly
below any non-null input, including a non-null empty string; the four-argument
`qstrnicmp` instead treats a null pointer as an empty sequence: it compares
equal to a non-null empty input (length 0, or NUL-terminated and empty) and
strictly below any non-null nonempty input. -/

theorem qstricmp_null_ordering :
    (qstricmp none none = 0 ∧
      (∀ len : Nat, qstrnicmp3 none none len = 0) ∧
      qstrnicmp4 none 0 none 0 = 0 ∧ qstrnicmp4 none 0 none (-1) = 0) ∧
    (∀ l : List Nat,
      qstricmp none (some l) = -1 ∧ qstricmp (some l) none = 1 ∧
      ∀ len : Nat, qstrnicmp3 none (some l) len = -1 ∧
        qstrnicmp3 (some l) none len = 1) ∧
    (∀ (l : List Nat) (len2 : Int), 0 < len2 →
      qstrnicmp4 none 0 (some l) len2 = -1) ∧
    (∀ l : List Nat, l.headD 0 ≠ 0 →
      qstrnicmp4 none 0 (some l) (-1) = -1) ∧
    (∀ (l : List Nat) (len1 : Nat), 0 < len1 →
      qstrnicmp4 (some l) len1 none 0 = 1) ∧
    (∀ l : List Nat,
      qstrnicmp4 none 0 (some l) 0 = 0 ∧ qstrnicmp4 none 0 (some []) (-1) = 0) := by
  refine ⟨⟨by decide, fun len => rfl, by decide, by decide⟩,
    fun l => ⟨rfl, rfl, fun len => ⟨rfl, rfl⟩⟩, ?_, ?_, ?_, ?_⟩
  · intro l len2 h
    simp only [qstrnicmp4, true_or, if_true]
    rw [if_neg (by omega), if_neg (by omega)]
  · intro l h
    cases l <;> simp_all [qstrnicmp4]
  · intro l len1 h
    simp [qstrnicmp4, show len1 ≠ 0 by omega]
  · intro l
    exact ⟨by simp [qstrnicmp4], by simp [qstrnicmp4]⟩

/-- C8 witness: the amended theorem applied at concrete inputs: a null pointer
orders strictly below the non-null one-byte string "f" in the four-argument
`qstrnicmp`. -/

theorem qstricmp_null_ordering_witness :
    qstrnicmp4 none 0 (some [102]) 1 = -1 :=
  qstricmp_null_ordering.2.2.1 [102] 1 (by decide)

/-! ## Hex codec lemmas -/

set_option maxRecDepth 4000 in
/-- Each encoded pair decodes back to the nibbles of the original byte. -/

theorem hexPair_facts : ∀ b < 256,
    hexDigitValue (toHexLower (b >>> 4)) = some (b >>> 4) ∧
    hexDigitValue (toHexLower (b &&& 0xf)) = some (b &&& 0xf) ∧
    ((b &&& 0xf) ||| ((b >>> 4) <<< 4)) = b := by decide

/-- Decoding a concatenation processes the left part first. -/

theorem fromHexGo_append (X Y : List Nat) (st : Bool × List Nat) :
    fromHexGo (X ++ Y) st = fromHexGo Y (fromHexGo X st) := by
  induction X generalizing st with
  | nil => rfl
  | cons ch rest ih =>
    obtain ⟨odd, acc⟩ := st
    simp only [List.cons_append, fromHexGo]
    cases h : hexDigitValue ch with
    | none => exact ih _
    | some t =>
      cases odd with
      | false => cases acc <;> simp <;> exact ih _
      | true => simp; exact ih _

/-- Decoding the reversed encoding of `s` prepends `s` to the accumulator. -/

theorem fromHexGo_toHexGo (sep : Nat) (hsep : hexDigitValue sep = none) :
    ∀ s acc, IsBytes s →
      fromHexGo ((toHexGo sep s).reverse) (true, acc) = (true, s ++ acc) := by
  intro s
  induction s with
  | nil => intro acc _; rfl
  | cons b rest ih =>
    intro acc hb
    have hb256 : b < 256 := hb b (List.mem_cons_self _ _)
    have hrest : IsBytes rest := fun x hx => hb x (List.mem_cons_of_mem _ hx)
    have facts := hexPair_facts b hb256
    by_cases hc : sep ≠ 0 ∧ rest ≠ []
    · simp only [toHexGo, if_pos hc, List.reverse_cons, List.append_assoc]
      rw [fromHexGo_append]
      rw [ih acc hrest]
      simp [fromHexGo, hsep, facts.1, facts.2.1, facts.2.2]
    · simp only [toHexGo, if_neg hc, List.reverse_cons, List.append_assoc]
      rw [fromHexGo_append]
      rw [ih acc hrest]
      simp [fromHexGo, facts.1, facts.2.1, facts.2.2]

/-- Hex round trip, pointwise form. -/

theorem fromHex_toHex (s : List Nat) (sep : Nat) (hs : IsBytes s)
    (hsep : hexDigitValue sep = none) : fromHex (toHex s sep) = s := by
  cases s with
  | nil => rfl
  | cons b rest =>
    unfold toHex fromHex
    rw [if_neg (by simp)]
    rw [fromHexGo_toHexGo sep hsep _ [] hs]
    simp

/-- The encoder emits exactly the lowercase nibble pairs of the input,
with the separator interleaved between pairs when it is nonzero. -/

theorem toHex_spec (s : List Nat) (sep : Nat) :
    toHex s sep = List.intercalate (if sep = 0 then [] else [sep])
      (s.map fun b => [toHexLower (b >>> 4), toHexLower (b &&& 0xf)]) := by
  unfold toHex
  induction s with
  | nil => simp [List.intercalate]
  | cons b rest ih =>
    cases rest with
    | nil => simp [toHexGo, List.intercalate]
    | cons c t =>
      rw [if_neg (by simp)] at ih ⊢
      simp only [toHexGo]
      by_cases hsep : sep = 0
      · subst hsep
        simp only [ne_eq, not_true_eq_false, false_and, if_false, if_pos rfl]
        simp [List.intercalate, List.intersperse] at ih ⊢
        exact ih
      · rw [if_pos ⟨hsep, by simp⟩]
        simp only [if_neg hsep] at ih ⊢
        simp [List.intercalate, List.intersperse] at ih ⊢
        exact ih

/-- Decoder restricted to the digit values: skipping of non-digit bytes made
explicit through `filterMap`. -/

theorem fromHexGo_eq_hexPairsGo (l : List Nat) (st : Bool × List Nat) :
    fromHexGo l st = hexPairsGo (l.filterMap hexDigitValue) st := by
  induction l generalizing st with
  | nil => rfl
  | cons ch rest ih =>
    obtain ⟨odd, acc⟩ := st
    cases h : hexDigitValue ch with
    | none => simp [fromHexGo, h, List.filterMap_cons, ih]
    | some t =>
      simp only [fromHexGo, h, List.filterMap_cons, hexPairsGo]
      cases odd with
      | false => cases acc <;> simp <;> exact ih _
      | true => simp; exact ih _

/-- Closed form of the digit-pairing loop from the entry state. -/

theorem hexPairsGo_closed (L : List Nat) :
    ∀ acc, hexPairsGo L (true, acc) = (decide (L.length % 2 = 0), revBytes L ++ acc) := by
  induction L using revBytes.induct with
  | case1 => intro acc; rfl
  | case2 a => intro acc; rfl
  | case3 a b rest ih =>
    intro acc
    simp only [hexPairsGo, if_pos rfl, revBytes]
    rw [ih]
    simp [Nat.add_mod_right]
    omega

/-- Length of the paired-up digit sequence. -/

theorem revBytes_length (L : List Nat) : (revBytes L).length = (L.length + 1) / 2 := by
  induction L using revBytes.induct with
  | case1 => rfl
  | case2 a => simp [revBytes]
  | case3 a b rest ih => simp [revBytes, ih]; omega

/-- Pairing a nonempty sequence yields a nonempty result. -/

theorem revBytes_ne_nil (L : List Nat) (h : L ≠ []) : revBytes L ≠ [] := by
  intro hc
  have hl := revBytes_length L
  rw [hc] at hl
  cases L with
  | nil => exact h rfl
  | cons x xs => simp at hl; omega

/-- With an odd number of digits, the first output byte is the last digit
processed (the leftmost digit of the forward input). -/

theorem revBytes_head (L : List Nat) (h : L.length % 2 = 1) :
    (revBytes L).head? = L.getLast? := by
  induction L using revBytes.induct with
  | case1 => simp at h
  | case2 a => rfl
  | case3 a b rest ih =>
    have hr : rest.length % 2 = 1 := by simp at h; omega
    have hne : rest ≠ [] := by intro he; rw [he] at hr; simp at hr
    obtain ⟨r, rs, rfl⟩ : ∃ r rs, rest = r :: rs := by
      cases rest with
      | nil => exact absurd rfl hne
      | cons r rs => exact ⟨r, rs, rfl⟩
    simp only [revBytes, List.getLast?_cons_cons]
    cases hx : revBytes (r :: rs) with
    | nil => exact absurd hx (revBytes_ne_nil _ (by simp))
    | cons y ys =>
      rw [hx] at ih
      simp at ih ⊢
      exact ih hr

/-- Every hex digit value is a nibble. -/

theorem hexDigitValue_lt (c t : Nat) (h : hexDigitValue c = some t) : t < 16 := by
  simp only [hexDigitValue] at h
  split_ifs at h <;> simp at h <;> omega

/-- The decoded value is the right-to-left pairing of the input's digits. -/

theorem fromHex_eq_revBytes (input : List Nat) :
    fromHex input = revBytes ((input.filterMap hexDigitValue).reverse) := by
  unfold fromHex
  rw [fromHexGo_eq_hexPairsGo, List.filterMap_reverse, hexPairsGo_closed]
  simp

/-! ## C4 and C10: hex codec claims -/

/-- C4: hex round trip.  For every byte sequence `s` and every separator byte
that is not itself an ASCII hex digit (including the default separator 0,
which suppresses separators), `fromHex (toHex s sep) = s`; moreover `toHex`
emits exactly the lowercase nibble pairs of its input, with the separator
inserted between pairs when it is nonzero. -/

theorem fromHex_toHex_roundtrip :
    (∀ (s : List Nat) (sep : Nat), IsBytes s → hexDigitValue sep = none →
      fromHex (toHex s sep) = s) ∧
    (∀ (s : List Nat) (sep : Nat),
      toHex s sep = List.intercalate (if sep = 0 then [] else [sep])
        (s.map fun b => [toHexLower (b >>> 4), toHexLower (b &&& 0xf)])) :=
  ⟨fun s sep hs hsep => fromHex_toHex s sep hs hsep, fun s sep => toHex_spec s sep⟩

/-- C4 witness: `toHex "Qt" 45 = "51-74"` and decoding it restores "Qt". -/

theorem fromHex_toHex_roundtrip_witness :
    toHex [81, 116] 45 = [53, 49, 45, 55, 52] ∧
      fromHex [53, 49, 45, 55, 52] = [81, 116] := by
  refine ⟨by decide, ?_⟩
  have h := fromHex_toHex_roundtrip.1 [81, 116] 45 (by decide) (by decide)
  rwa [show toHex [81, 116] 45 = [53, 49, 45, 55, 52] by decide] at h

/-- C10: when the input to `fromHex` holds an odd number `k` of valid hex
digits, the output has `(k+1)/2` bytes and its first byte is exactly the value
of the lone leading digit (a nibble, so its high four bits are zero). -/

theorem fromHex_odd_digit_count (input : List Nat)
    (hodd : (input.filterMap hexDigitValue).length % 2 = 1) :
    (fromHex input).length = ((input.filterMap hexDigitValue).length + 1) / 2 ∧
    (fromHex input).head? = (input.filterMap hexDigitValue).head? ∧
    ∀ t, (input.filterMap hexDigitValue).head? = some t → t < 16 := by
  refine ⟨?_, ?_, ?_⟩
  · rw [fromHex_eq_revBytes, revBytes_length]
    simp
  · rw [fromHex_eq_revBytes, revBytes_head _ (by simpa using hodd), List.getLast?_reverse]
  · intro t ht
    have hmem : t ∈ input.filterMap hexDigitValue := by
      cases hl : input.filterMap hexDigitValue with
      | nil => rw [hl] at ht; simp at ht
      | cons y ys => rw [hl] at ht; simp at ht; simp [hl, ht]
    obtain ⟨c, _, hc⟩ := List.mem_filterMap.mp hmem
    exact hexDigitValue_lt c t hc

/-- C10 witness: `fromHex "161"` is the two bytes 0x01, 0x61, of length 2 as
the theorem predicts. -/

theorem fromHex_odd_digit_count_witness :
    fromHex [49, 54, 49] = [1, 97] ∧ (fromHex [49, 54, 49]).length = 2 :=
  ⟨by decide, ((fromHex_odd_digit_count [49, 54, 49] (by decide)).1).trans (by decide)⟩

/-! ## Base64 codec (qbytearray.cpp `toBase64` lines 3798-3850,
`fromBase64_helper` lines 4226-4292, `fromBase64` lines 4373-4378) -/

/-- Bits of `a` shifted left never overlap a value below the shift width. -/

theorem shiftLeft_or_eq_add {b : Nat} (a n : Nat) (h : b < 2 ^ n) :
    (a <<< n) ||| b = a * 2 ^ n + b := by
  apply Nat.eq_of_testBit_eq
  intro i
  rw [Nat.testBit_or, Nat.testBit_shiftLeft, Nat.mul_comm a, Nat.testBit_mul_pow_two_add a h]
  by_cases hi : n ≤ i
  · have hb : b.testBit i = false :=
      Nat.testBit_lt_two_pow (lt_of_lt_of_le h (Nat.pow_le_pow_right (by norm_num) hi))
    simp [hi, hb, Nat.not_lt.mpr hi]
  · simp [hi, Nat.lt_of_not_le hi]

theorem and_shifted_mask (x m k : Nat) :
    (x &&& (m <<< k)) >>> k = (x >>> k) &&& m := by
  apply Nat.eq_of_testBit_eq
  intro i
  simp only [Nat.testBit_shiftRight, Nat.testBit_and, Nat.testBit_shiftLeft]
  by_cases h : k ≤ k + i
  · simp [h, Nat.add_sub_cancel_left]
  · omega

theorem b64Digit_b64Char : ∀ (url : Bool), ∀ d < 64, b64Digit url (b64Char url d) = some d := by
  decide

theorem b64Digit_pad (url : Bool) : b64Digit url 61 = none := by cases url <;> decide

theorem or_eq_add_of_mod (a b n : Nat) (ha : a % 2 ^ n = 0) (hb : b < 2 ^ n) :
    a ||| b = a + b := by
  conv_lhs => rw [show a = (a / 2 ^ n) <<< n by
    rw [Nat.shiftLeft_eq, Nat.div_mul_cancel (Nat.dvd_of_mod_eq_zero ha)]]
  rw [shiftLeft_or_eq_add _ _ hb, Nat.div_mul_cancel (Nat.dvd_of_mod_eq_zero ha)]

theorem mask6 (c k : Nat) : (c &&& (63 <<< k)) >>> k = c / 2 ^ k % 64 := by
  rw [and_shifted_mask, Nat.shiftRight_eq_div_pow]
  exact Nat.and_pow_two_sub_one_eq_mod _ 6

theorem go_step_skip (url : Bool) (t i buf nbits : Nat) (acc : List Nat) (ch : Nat)
    (hd : b64Digit url ch = none) (rest : List Nat) :
    fromBase64Go url false t (ch :: rest) i buf nbits acc =
      fromBase64Go url false t rest (i + 1) buf nbits acc := by
  cases rest <;> simp [fromBase64Go, hd]

theorem go_step_low (url : Bool) (t i buf : Nat) (acc : List Nat) (ch d : Nat)
    (hd : b64Digit url ch = some d) (hdlt : d < 64) (rest : List Nat) :
    fromBase64Go url false t (ch :: rest) i buf 0 acc =
      fromBase64Go url false t rest (i + 1) (buf * 64 + d) 6 acc := by
  have hor : (buf <<< 6) ||| d = buf * 64 + d := by
    rw [shiftLeft_or_eq_add buf 6 (by omega)]
    norm_num
  cases rest <;>
    (simp only [fromBase64Go, hd]
     rw [if_neg (by omega)]
     try simp only [hor, Nat.zero_add, fromBase64Go])

theorem go_step8 (url : Bool) (t i buf nbits : Nat) (acc : List Nat) (ch d : Nat)
    (hd : b64Digit url ch = some d) (hdlt : d < 64) (hn : 2 ≤ nbits) (rest : List Nat) :
    fromBase64Go url false t (ch :: rest) i buf nbits acc =
      fromBase64Go url false t rest (i + 1) ((buf * 64 + d) % 2 ^ (nbits - 2))
        (nbits + 6 - 8) (acc ++ [(buf * 64 + d) / 2 ^ (nbits - 2)]) := by
  have hsh : nbits + 6 - 8 = nbits - 2 := by omega
  have hor : (buf <<< 6) ||| d = buf * 64 + d := by
    rw [shiftLeft_or_eq_add buf 6 (by omega)]
    norm_num
  have hbuf : (buf * 64 + d) &&& ((1 <<< (nbits - 2)) - 1) =
      (buf * 64 + d) % 2 ^ (nbits - 2) := by
    rw [show (1 : Nat) <<< (nbits - 2) - 1 = 2 ^ (nbits - 2) - 1 by
      rw [Nat.shiftLeft_eq, Nat.one_mul]]
    exact Nat.and_pow_two_sub_one_eq_mod _ _
  have hout : (buf * 64 + d) >>> (nbits - 2) = (buf * 64 + d) / 2 ^ (nbits - 2) :=
    Nat.shiftRight_eq_div_pow _ _
  cases rest <;>
    (simp only [fromBase64Go, hd]
     rw [if_pos (by omega)]
     try simp only [hor, hsh, hbuf, hout, fromBase64Go])

theorem fromBase64Go_digits4 (url : Bool) (c : Nat) (hc : c < 2 ^ 24)
    (rest : List Nat) (t i : Nat) (acc : List Nat) :
    fromBase64Go url false t
      (b64Char url ((c &&& 0xfc0000) >>> 18) :: b64Char url ((c &&& 0x3f000) >>> 12) ::
       b64Char url ((c &&& 0xfc0) >>> 6) :: b64Char url (c &&& 0x3f) :: rest) i 0 0 acc =
      fromBase64Go url false t rest (i + 4) 0 0 (acc ++ [c / 65536, c / 256 % 256, c % 256]) := by
  have e18 : (c &&& 0xfc0000) >>> 18 = c / 2 ^ 18 % 64 := mask6 c 18
  have e12 : (c &&& 0x3f000) >>> 12 = c / 2 ^ 12 % 64 := mask6 c 12
  have e6 : (c &&& 0xfc0) >>> 6 = c / 2 ^ 6 % 64 := mask6 c 6
  have e0 : c &&& 0x3f = c % 64 := Nat.and_pow_two_sub_one_eq_mod c 6
  rw [e18, e12, e6, e0]
  rw [go_step_low url t i 0 acc _ _ (b64Digit_b64Char url _ (Nat.mod_lt _ (by norm_num)))
    (Nat.mod_lt _ (by norm_num))]
  rw [go_step8 url t _ _ 6 acc _ _ (b64Digit_b64Char url _ (Nat.mod_lt _ (by norm_num)))
    (Nat.mod_lt _ (by norm_num)) (by omega)]
  rw [go_step8 url t _ _ 4 _ _ _ (b64Digit_b64Char url _ (Nat.mod_lt _ (by norm_num)))
    (Nat.mod_lt _ (by norm_num)) (by omega)]
  rw [go_step8 url t _ _ 2 _ _ _ (b64Digit_b64Char url _ (Nat.mod_lt _ (by norm_num)))
    (Nat.mod_lt _ (by norm_num)) (by omega)]
  have h1 : i + 1 + 1 + 1 + 1 = i + 4 := by omega
  have hbuf0 : ((((0 * 64 + c / 2 ^ 18 % 64) * 64 + c / 2 ^ 12 % 64) % 2 ^ (6 - 2) * 64 +
      c / 2 ^ 6 % 64) % 2 ^ (4 - 2) * 64 + c % 64) % 2 ^ (2 - 2) = 0 := by
    norm_num [Nat.mod_one]
  have hx1 : ((0 * 64 + c / 2 ^ 18 % 64) * 64 + c / 2 ^ 12 % 64) / 2 ^ (6 - 2) = c / 65536 := by
    norm_num
    omega
  have hx2 : (((0 * 64 + c / 2 ^ 18 % 64) * 64 + c / 2 ^ 12 % 64) % 2 ^ (6 - 2) * 64 +
      c / 2 ^ 6 % 64) / 2 ^ (4 - 2) = c / 256 % 256 := by
    norm_num
    omega
  have hx3 : ((((0 * 64 + c / 2 ^ 18 % 64) * 64 + c / 2 ^ 12 % 64) % 2 ^ (6 - 2) * 64 +
      c / 2 ^ 6 % 64) % 2 ^ (4 - 2) * 64 + c % 64) / 2 ^ (2 - 2) = c % 256 := by
    norm_num
    omega
  rw [h1, hbuf0, hx1, hx2, hx3, show (2 + 6 - 8 : Nat) = 0 from rfl]
  simp

theorem fromBase64Go_tail1 (url omitEq : Bool) (b1 : Nat) (h1 : b1 < 256)
    (t i : Nat) (acc : List Nat) :
    fromBase64Go url false t
      (b64Char url (((b1 <<< 16) &&& 0xfc0000) >>> 18) ::
       b64Char url (((b1 <<< 16) &&& 0x3f000) >>> 12) :: (if omitEq then [] else [61, 61]))
      i 0 0 acc = (B64Status.Ok, acc ++ [b1]) := by
  have e18 : ((b1 <<< 16) &&& 0xfc0000) >>> 18 = (b1 <<< 16) / 2 ^ 18 % 64 := mask6 _ 18
  have e12 : ((b1 <<< 16) &&& 0x3f000) >>> 12 = (b1 <<< 16) / 2 ^ 12 % 64 := mask6 _ 12
  rw [e18, e12]
  rw [go_step_low url t i 0 acc _ _ (b64Digit_b64Char url _ (Nat.mod_lt _ (by norm_num)))
    (Nat.mod_lt _ (by norm_num))]
  rw [go_step8 url t _ _ 6 acc _ _ (b64Digit_b64Char url _ (Nat.mod_lt _ (by norm_num)))
    (Nat.mod_lt _ (by norm_num)) (by omega)]
  have hx : ((0 * 64 + (b1 <<< 16) / 2 ^ 18 % 64) * 64 + (b1 <<< 16) / 2 ^ 12 % 64) /
      2 ^ (6 - 2) = b1 := by
    rw [Nat.shiftLeft_eq]
    norm_num
    omega
  rw [hx]
  cases omitEq with
  | false =>
    rw [show (if (false : Bool) then ([] : List Nat) else [61, 61]) = [61, 61] from rfl]
    rw [go_step_skip url t _ _ _ _ _ (b64Digit_pad url),
      go_step_skip url t _ _ _ _ _ (b64Digit_pad url)]
    rfl
  | true => rfl

theorem fromBase64Go_tail2 (url omitEq : Bool) (b1 b2 : Nat) (h1 : b1 < 256) (h2 : b2 < 256)
    (t i : Nat) (acc : List Nat) :
    fromBase64Go url false t
      (b64Char url ((((b1 <<< 16) ||| (b2 <<< 8)) &&& 0xfc0000) >>> 18) ::
       b64Char url ((((b1 <<< 16) ||| (b2 <<< 8)) &&& 0x3f000) >>> 12) ::
       b64Char url ((((b1 <<< 16) ||| (b2 <<< 8)) &&& 0xfc0) >>> 6) ::
        (if omitEq then [] else [61]))
      i 0 0 acc = (B64Status.Ok, acc ++ [b1, b2]) := by
  have hc : (b1 <<< 16) ||| (b2 <<< 8) = b1 * 65536 + b2 * 256 := by
    rw [shiftLeft_or_eq_add b1 16 (by rw [Nat.shiftLeft_eq]; omega)]
    rw [Nat.shiftLeft_eq]
    norm_num
  simp only [hc]
  have e18 : ((b1 * 65536 + b2 * 256) &&& 0xfc0000) >>> 18 =
      (b1 * 65536 + b2 * 256) / 2 ^ 18 % 64 := mask6 _ 18
  have e12 : ((b1 * 65536 + b2 * 256) &&& 0x3f000) >>> 12 =
      (b1 * 65536 + b2 * 256) / 2 ^ 12 % 64 := mask6 _ 12
  have e6 : ((b1 * 65536 + b2 * 256) &&& 0xfc0) >>> 6 =
      (b1 * 65536 + b2 * 256) / 2 ^ 6 % 64 := mask6 _ 6
  rw [e18, e12, e6]
  rw [go_step_low url t i 0 acc _ _ (b64Digit_b64Char url _ (Nat.mod_lt _ (by norm_num)))
    (Nat.mod_lt _ (by norm_num))]
  rw [go_step8 url t _ _ 6 acc _ _ (b64Digit_b64Char url _ (Nat.mod_lt _ (by norm_num)))
    (Nat.mod_lt _ (by norm_num)) (by omega)]
  rw [go_step8 url t _ _ 4 _ _ _ (b64Digit_b64Char url _ (Nat.mod_lt _ (by norm_num)))
    (Nat.mod_lt _ (by norm_num)) (by omega)]
  have hx1 : ((0 * 64 + (b1 * 65536 + b2 * 256) / 2 ^ 18 % 64) * 64 +
      (b1 * 65536 + b2 * 256) / 2 ^ 12 % 64) / 2 ^ (6 - 2) = b1 := by
    norm_num
    omega
  have hx2 : (((0 * 64 + (b1 * 65536 + b2 * 256) / 2 ^ 18 % 64) * 64 +
      (b1 * 65536 + b2 * 256) / 2 ^ 12 % 64) % 2 ^ (6 - 2) * 64 +
      (b1 * 65536 + b2 * 256) / 2 ^ 6 % 64) / 2 ^ (4 - 2) = b2 := by
    norm_num
    omega
  rw [hx1, hx2]
  cases omitEq with
  | false =>
    rw [show (if (false : Bool) then ([] : List Nat) else [61]) = [61] from rfl]
    rw [go_step_skip url t _ _ _ _ _ (b64Digit_pad url)]
    simp [fromBase64Go]
  | true => simp [fromBase64Go]

theorem chunk3_eq (b1 b2 b3 : Nat) (h1 : b1 < 256) (h2 : b2 < 256) (h3 : b3 < 256) :
    (b1 <<< 16) ||| (b2 <<< 8) ||| b3 = b1 * 65536 + b2 * 256 + b3 := by
  have hc : (b1 <<< 16) ||| (b2 <<< 8) = b1 * 65536 + b2 * 256 := by
    rw [shiftLeft_or_eq_add b1 16 (by rw [Nat.shiftLeft_eq]; omega)]
    rw [Nat.shiftLeft_eq]
    norm_num
  rw [hc, or_eq_add_of_mod _ _ 8 (by omega) (by omega)]

theorem fromBase64Go_toBase64Go (url omitEq : Bool) :
    ∀ (n : Nat) (s : List Nat), s.length ≤ n → IsBytes s → ∀ t i acc,
      fromBase64Go url false t (toBase64Go url omitEq s) i 0 0 acc =
        (B64Status.Ok, acc ++ s) := by
  intro n
  induction n with
  | zero =>
    intro s hlen _ t i acc
    have hnil : s = [] := List.eq_nil_of_length_eq_zero (by omega)
    subst hnil
    simp [toBase64Go, fromBase64Go]
  | succ n ih =>
    intro s hlen hs t i acc
    match s with
    | [] => simp [toBase64Go, fromBase64Go]
    | [b1] =>
      have h1 : b1 < 256 := hs b1 (by simp)
      simpa [toBase64Go] using fromBase64Go_tail1 url omitEq b1 h1 t i acc
    | [b1, b2] =>
      have h1 : b1 < 256 := hs b1 (by simp)
      have h2 : b2 < 256 := hs b2 (by simp)
      simpa [toBase64Go] using fromBase64Go_tail2 url omitEq b1 b2 h1 h2 t i acc
    | b1 :: b2 :: b3 :: rest =>
      have h1 : b1 < 256 := hs b1 (by simp)
      have h2 : b2 < 256 := hs b2 (by simp)
      have h3 : b3 < 256 := hs b3 (by simp)
      have hc := chunk3_eq b1 b2 b3 h1 h2 h3
      have hrest : IsBytes rest := fun x hx => hs x (by simp [hx])
      have hlen2 : rest.length ≤ n := by simp at hlen; omega
      simp only [toBase64Go, hc]
      rw [fromBase64Go_digits4 url _ (by omega) _ t i acc]
      rw [show (b1 * 65536 + b2 * 256 + b3) / 65536 = b1 by omega]
      rw [show (b1 * 65536 + b2 * 256 + b3) / 256 % 256 = b2 by omega]
      rw [show (b1 * 65536 + b2 * 256 + b3) % 256 = b3 by omega]
      rw [ih rest hlen2 hrest t (i + 4) (acc ++ [b1, b2, b3])]
      simp

theorem fromBase64_toBase64 (url omitEq : Bool) (s : List Nat) (hs : IsBytes s) :
    fromBase64 url false (toBase64 url omitEq s) = s := by
  unfold fromBase64 toBase64
  rw [fromBase64Go_toBase64Go url omitEq s.length s le_rfl hs]
  simp

/-! ## C3: Base64 round trip -/

/-- C3: for every byte sequence and every option combination (standard or
URL-safe alphabet, padding kept or omitted), decoding the encoding with
matching options restores the input exactly. -/

theorem toBase64_fromBase64_roundtrip :
    ∀ (url omitEquals : Bool) (s : List Nat), IsBytes s →
      fromBase64 url false (toBase64 url omitEquals s) = s :=
  fun url omitEq s hs => fromBase64_toBase64 url omitEq s hs

/-- C3 witness: `toBase64 "f" = "Zg=="`, with `OmitTrailingEquals` `"Zg"`, and
decoding `"Zg=="` (via the round-trip theorem at the concrete input) gives
back `"f"`. -/

theorem toBase64_fromBase64_roundtrip_witness :
    toBase64 false false [102] = [90, 103, 61, 61] ∧
    toBase64 false true [102] = [90, 103] ∧
    fromBase64 false false [90, 103, 61, 61] = [102] := by
  refine ⟨by decide, by decide, ?_⟩
  have h := toBase64_fromBase64_roundtrip false false [102] (by decide)
  rwa [show toBase64 false false [102] = [90, 103, 61, 61] by decide] at h

/-! ## Compression (qbytearray.cpp `qCompress` lines 540-578,
`qUncompress` lines 618-678) -/

/-- Byte extraction through a shifted 0xff mask. -/

theorem mask8 (c k : Nat) : (c &&& (255 <<< k)) >>> k = c / 2 ^ k % 256 := by
  rw [and_shifted_mask, Nat.shiftRight_eq_div_pow]
  exact Nat.and_pow_two_sub_one_eq_mod _ 8

/-- Modelled from the spec: the zlib deflate payload transform.  zlib lives
under src/3rdparty, outside `src/`; the spec constrains it only through its
contract (lossless, `uncompress ∘ compress = id`, buffer-too-small reported as
an error and retried).  It is modelled as the identity stream, a valid
deflate instance (zlib stored blocks) satisfying exactly that contract. -/

theorem bytes4_or (a0 a1 a2 a3 : Nat) (h0 : a0 < 256) (h1 : a1 < 256) (h2 : a2 < 256)
    (h3 : a3 < 256) :
    (a0 <<< 24) ||| (a1 <<< 16) ||| (a2 <<< 8) ||| a3 =
      a0 * 2 ^ 24 + a1 * 2 ^ 16 + a2 * 2 ^ 8 + a3 := by
  have e1 : (a0 <<< 24) ||| (a1 <<< 16) = a0 * 2 ^ 24 + a1 * 2 ^ 16 := by
    rw [shiftLeft_or_eq_add a0 24 (by rw [Nat.shiftLeft_eq]; omega), Nat.shiftLeft_eq]
  have e2 : a0 * 2 ^ 24 + a1 * 2 ^ 16 ||| (a2 <<< 8) =
      a0 * 2 ^ 24 + a1 * 2 ^ 16 + a2 * 2 ^ 8 := by
    rw [or_eq_add_of_mod _ _ 16 (by omega) (by rw [Nat.shiftLeft_eq]; omega), Nat.shiftLeft_eq]
  have e3 : a0 * 2 ^ 24 + a1 * 2 ^ 16 + a2 * 2 ^ 8 ||| a3 =
      a0 * 2 ^ 24 + a1 * 2 ^ 16 + a2 * 2 ^ 8 + a3 :=
    or_eq_add_of_mod _ _ 8 (by omega) (by omega)
  rw [e1, e2, e3]

/-- Reading back the length header restores the original length. -/

theorem lengthHeader_append_decode (n : Nat) (s : List Nat) (hn : n < 2 ^ 32) :
    ((lengthHeader n ++ s).getD 0 0 <<< 24) ||| ((lengthHeader n ++ s).getD 1 0 <<< 16) |||
      ((lengthHeader n ++ s).getD 2 0 <<< 8) ||| (lengthHeader n ++ s).getD 3 0 = n := by
  have e24 : (n &&& 0xff000000) >>> 24 = n / 2 ^ 24 % 256 := mask8 n 24
  have e16 : (n &&& 0xff0000) >>> 16 = n / 2 ^ 16 % 256 := mask8 n 16
  have e8 : (n &&& 0xff00) >>> 8 = n / 2 ^ 8 % 256 := mask8 n 8
  have e0 : n &&& 0xff = n % 256 := Nat.and_pow_two_sub_one_eq_mod n 8
  simp [lengthHeader, e24, e16, e8, e0]
  rw [bytes4_or _ _ _ _ (Nat.mod_lt _ (by norm_num)) (Nat.mod_lt _ (by norm_num))
    (Nat.mod_lt _ (by norm_num)) (Nat.mod_lt _ (by norm_num))]
  omega

/-- Compression round trip, pointwise form. -/

theorem qUncompress_qCompress (s : List Nat) (hlen : s.length < 2 ^ 31) :
    qUncompress (some (qCompress (some s) s.length)) (qCompress (some s) s.length).length
      = s := by
  cases s with
  | nil => decide
  | cons b rest =>
    set s := b :: rest with hs
    have hn0 : s.length ≠ 0 := by simp [hs]
    have hn1 : 1 ≤ s.length := by simp [hs]
    have hcomp : qCompress (some s) s.length = lengthHeader s.length ++ s := by
      unfold qCompress
      rw [if_neg hn0]
      unfold qCompressLoop
      rw [show compress2Model (s.length + s.length / 100 + 13) s = some s by
        unfold compress2Model deflateModel
        rw [if_pos (by omega)]]
    rw [hcomp]
    have hlen4 : (lengthHeader s.length ++ s).length = 4 + s.length := by
      simp [lengthHeader]
      omega
    rw [hlen4]
    simp only [qUncompress]
    rw [if_neg (by omega)]
    simp only [lengthHeader_append_decode s.length s (by omega)]
    rw [Nat.max_eq_left hn1]
    rw [if_neg (show ¬ maxPossibleSize ≤ s.length by unfold maxPossibleSize; omega)]
    have hdrop : (lengthHeader s.length ++ s).drop 4 = s := by simp [lengthHeader]
    rw [hdrop, show 4 + s.length - 4 = s.length by omega, List.take_length]
    unfold qUncompressLoop
    rw [show uncompressModel s.length s = (ZRes.ok, s) by
      unfold uncompressModel deflateModel
      rw [if_pos (by omega)]]

/-! ## C5: compression round trip -/

/-- C5: `qUncompress (qCompress s) = s` for every byte sequence whose length
fits the `int` interface (including the empty sequence and incompressible
data, which the modelled codec carries verbatim); `qCompress` of an empty
input is exactly the 4-byte all-zero header, and `qUncompress` of that header
is the empty buffer. -/

theorem qCompress_qUncompress_roundtrip :
    (∀ s : List Nat, s.length < 2 ^ 31 →
      qUncompress (some (qCompress (some s) s.length))
        (qCompress (some s) s.length).length = s) ∧
    qCompress (some []) 0 = [0, 0, 0, 0] ∧
    qUncompress (some [0, 0, 0, 0]) 4 = [] :=
  ⟨fun s hlen => qUncompress_qCompress s hlen, rfl, rfl⟩

/-- C5 witness: the round trip at the concrete three-byte input 7, 0, 255. -/

theorem qCompress_qUncompress_roundtrip_witness :
    qUncompress (some (qCompress (some [7, 0, 255]) 3))
      (qCompress (some [7, 0, 255]) 3).length = [7, 0, 255] :=
  qCompress_qUncompress_roundtrip.1 [7, 0, 255] (by decide)

/-! ## Integral conversions (qbytearray.cpp `toIntegral_helper` lines
3460-3496 and the `toInt`/`toShort`/`toLongLong` family) -/

/-- Modelled from the spec: digit classification for bases up to 36
(`0-9`, then `a`-`z` or `A`-`Z` for ten and beyond). -/

theorem bytearrayToLongLong_fail (s : List Nat) (base : Nat)
    (h : (bytearrayToLongLong s base).1 = false) : (bytearrayToLongLong s base).2 = 0 := by
  unfold bytearrayToLongLong at h ⊢
  split at h <;> simp_all <;> split_ifs at h ⊢ <;> simp_all

/-- The modelled unsigned parse never fails with a nonzero value. -/

theorem bytearrayToUnsLongLong_fail (s : List Nat) (base : Nat)
    (h : (bytearrayToUnsLongLong s base).1 = false) : (bytearrayToUnsLongLong s base).2 = 0 := by
  unfold bytearrayToUnsLongLong at h ⊢
  split at h <;> simp_all <;> split_ifs at h ⊢ <;> simp_all

/-- C9: for every integral conversion width (signed and unsigned), a parsed
value that does not fit the requested width makes the conversion report
failure with result exactly (false, 0); and on every failure path (null
data, parse error, overflow) the returned value is exactly 0. -/

theorem toIntegral_failure (w : Nat) (data : Option (List Nat)) (base : Nat) :
    ((toIntegral_helper_signed w data base).1 = false →
      (toIntegral_helper_signed w data base).2 = 0) ∧
    (∀ s v, data = some s → bytearrayToLongLong s base = (true, v) →
      ¬(-(2 ^ (w - 1) : Int) ≤ v ∧ v < 2 ^ (w - 1)) →
      toIntegral_helper_signed w data base = (false, 0)) ∧
    ((toIntegral_helper_unsigned w data base).1 = false →
      (toIntegral_helper_unsigned w data base).2 = 0) ∧
    (∀ s v, data = some s → bytearrayToUnsLongLong s base = (true, v) →
      ¬(v < 2 ^ w) → toIntegral_helper_unsigned w data base = (false, 0)) := by
  refine ⟨?_, ?_, ?_, ?_⟩
  · intro h
    unfold toIntegral_helper_signed at h ⊢
    match data with
    | none => rfl
    | some s =>
      simp only at h ⊢
      split_ifs at h ⊢ with hr
      · exact bytearrayToLongLong_fail s base h
      · rfl
  · intro s v hd hv hrange
    subst hd
    unfold toIntegral_helper_signed
    simp only [hv]
    rw [if_neg hrange]
  · intro h
    unfold toIntegral_helper_unsigned at h ⊢
    match data with
    | none => rfl
    | some s =>
      simp only at h ⊢
      split_ifs at h ⊢ with hr
      · exact bytearrayToUnsLongLong_fail s base h
      · rfl
  · intro s v hd hv hrange
    subst hd
    unfold toIntegral_helper_unsigned
    simp only [hv]
    rw [if_neg hrange]


/-- C9 witness: `toShort` (width 16) on "99999" overflows and yields
`(false, 0)`; the theorem applied at that input confirms it. -/

theorem toIntegral_failure_witness :
    toIntegral_helper_signed 16 (some [57, 57, 57, 57, 57]) 10 = (false, 0) :=
  (toIntegral_failure 16 (some [57, 57, 57, 57, 57]) 10).2.1 [57, 57, 57, 57, 57]
    99999 rfl (by decide) (by decide)

theorem storeAt_set_self (h : Heap) (i : Nat) (st : Store) (hi : i < h.length) :
    storeAt (h.set i st) i = st := by
  simp [storeAt, List.getD, List.getElem?_set_self, hi]

theorem storeAt_set_ne (h : Heap) (i j : Nat) (st : Store) (hne : j ≠ i) :
    storeAt (h.set j st) i = storeAt h i := by
  simp [storeAt, List.getD, List.getElem?_set_ne hne]

theorem storeAt_append_lt (h : Heap) (l : Heap) (i : Nat) (hi : i < h.length) :
    storeAt (h ++ l) i = storeAt h i := by
  simp [storeAt, List.getD, List.getElem?_append, hi]

theorem length_updBytes (h : Heap) (s : Nat) (nb : List Nat) :
    (updBytes h s nb).length = h.length := by
  simp [updBytes]

theorem length_increfH (h : Heap) (s : Nat) : (increfH h s).length = h.length := by
  simp [increfH]

theorem length_decrefH (h : Heap) (s : Nat) : (decrefH h s).length = h.length := by
  simp [decrefH]

theorem storeAt_decrefH_bytes (h : Heap) (s i : Nat) :
    (storeAt (decrefH h s) i).bytes = (storeAt h i).bytes := by
  by_cases hne : s = i
  · subst hne
    by_cases hs : s < h.length
    · rw [decrefH, storeAt_set_self _ _ _ hs]
    · rw [decrefH, List.set_eq_of_length_le (by omega)]
  · rw [decrefH, storeAt_set_ne _ _ _ _ hne]

theorem storeAt_increfH_bytes (h : Heap) (s i : Nat) :
    (storeAt (increfH h s) i).bytes = (storeAt h i).bytes := by
  by_cases hne : s = i
  · subst hne
    by_cases hs : s < h.length
    · rw [increfH, storeAt_set_self _ _ _ hs]
    · rw [increfH, List.set_eq_of_length_le (by omega)]
  · rw [increfH, storeAt_set_ne _ _ _ _ hne]

theorem presB_trans (i : Nat) (h : Heap) (r1 : Heap × Buffer) (r2 : Heap × Buffer)
    (h1 : PresB i h r1) (h2 : PresB i r1.1 r2) : PresB i h r2 := by
  obtain ⟨hl1, hb1⟩ := h1
  obtain ⟨hl2, hb2⟩ := h2
  exact ⟨le_trans hl1 hl2, fun hi => (hb2 (by omega)).trans (hb1 hi)⟩

theorem presB_updBytes (i : Nat) (h : Heap) (s : Nat) (nb : List Nat) (b : Buffer)
    (hne : s ≠ i) : PresB i h (updBytes h s nb, b) := by
  refine ⟨by simp [length_updBytes], fun hi => ?_⟩
  rw [updBytes, storeAt_set_ne _ _ _ _ hne]

theorem reallocData_other (i : Nat) (h : Heap) (b : Buffer) (alloc : Nat)
    (hne : b.sid ≠ i) :
    PresB i h (reallocData h b alloc) ∧
      (i < h.length → (reallocData h b alloc).2.sid ≠ i) := by
  unfold reallocData
  split
  · refine ⟨⟨by simp [length_decrefH], fun hi => ?_⟩, fun hi => by simp; omega⟩
    rw [storeAt_append_lt _ _ _ (by rw [length_decrefH]; omega), storeAt_decrefH_bytes]
  · exact ⟨⟨by simp, fun hi => by rw [storeAt_set_ne _ _ _ _ hne]⟩, fun hi => hne⟩

theorem reallocData_shared (h : Heap) (b : Buffer) (alloc : Nat)
    (hdet : needsDetach (storeOf h b) = true) :
    PresB b.sid h (reallocData h b alloc) ∧
      (b.sid < h.length → (reallocData h b alloc).2.sid ≠ b.sid) := by
  unfold reallocData
  rw [if_pos hdet]
  refine ⟨⟨by simp [length_decrefH], fun hi => ?_⟩, fun hi => by simp; omega⟩
  rw [storeAt_append_lt _ _ _ (by rw [length_decrefH]; omega), storeAt_decrefH_bytes]

theorem keeps_id (i : Nat) (h : Heap) (b : Buffer) (hne : b.sid ≠ i) :
    Keeps i h (h, b) := ⟨rfl, le_rfl, hne⟩

theorem keeps_trans (i : Nat) (h : Heap) (r1 r2 : Heap × Buffer)
    (h1 : Keeps i h r1) (h2 : Keeps i r1.1 r2) : Keeps i h r2 :=
  ⟨h2.1.trans h1.1, le_trans h1.2.1 h2.2.1, h2.2.2⟩

theorem keeps_realloc (i : Nat) (h : Heap) (b : Buffer) (alloc : Nat)
    (hi : i < h.length) (hne : b.sid ≠ i) : Keeps i h (reallocData h b alloc) := by
  unfold reallocData
  split
  · refine ⟨?_, by simp [length_decrefH], by simp; omega⟩
    rw [storeAt_append_lt _ _ _ (by rw [length_decrefH]; omega), storeAt_decrefH_bytes]
  · exact ⟨by rw [storeAt_set_ne _ _ _ _ hne], by simp, hne⟩

theorem realloc_shared (h : Heap) (b : Buffer) (alloc : Nat)
    (hdet : needsDetach (storeOf h b) = true) (hb : b.sid < h.length) :
    Keeps b.sid h (reallocData h b alloc) := by
  unfold reallocData
  rw [if_pos hdet]
  refine ⟨?_, by simp [length_decrefH], by simp; omega⟩
  rw [storeAt_append_lt _ _ _ (by rw [length_decrefH]; omega), storeAt_decrefH_bytes]

theorem keeps_terminate (i : Nat) (h : Heap) (b : Buffer) (sz : Nat)
    (hne : b.sid ≠ i) : Keeps i h (terminate (h, b) sz) := by
  unfold terminate
  split
  · exact ⟨by rw [updBytes, storeAt_set_ne _ _ _ _ hne], by simp [length_updBytes], hne⟩
  · exact ⟨rfl, le_rfl, hne⟩

theorem keeps_appendFinish (i : Nat) (h : Heap) (b : Buffer) (sdata : List Nat) (l : Nat)
    (hne : b.sid ≠ i) : Keeps i h (appendFinish (h, b) sdata l) := by
  unfold appendFinish
  exact ⟨by rw [updBytes, storeAt_set_ne _ _ _ _ hne], by simp [length_updBytes], hne⟩

theorem keeps_prependFinish (i : Nat) (h : Heap) (b : Buffer) (sdata : List Nat) (l : Nat)
    (hne : b.sid ≠ i) : Keeps i h (prependFinish (h, b) sdata l) := by
  unfold prependFinish
  exact ⟨by rw [updBytes, storeAt_set_ne _ _ _ _ hne], by simp [length_updBytes], hne⟩

theorem keeps_insertFinish (i : Nat) (h : Heap) (b : Buffer) (oldsize p : Nat)
    (arr : List Nat) (l : Nat) (hne : b.sid ≠ i) :
    Keeps i h (insertFinish (h, b) oldsize p arr l) := by
  unfold insertFinish
  exact ⟨by rw [updBytes, storeAt_set_ne _ _ _ _ hne], by simp [length_updBytes], hne⟩

theorem keeps_insertCountFinish (i : Nat) (h : Heap) (b : Buffer) (oldsize p count ch : Nat)
    (hne : b.sid ≠ i) : Keeps i h (insertCountFinish (h, b) oldsize p count ch) := by
  unfold insertCountFinish
  exact ⟨by rw [updBytes, storeAt_set_ne _ _ _ _ hne], by simp [length_updBytes], hne⟩

theorem keeps_removeShift (i : Nat) (h : Heap) (b : Buffer) (p l : Nat)
    (hne : b.sid ≠ i) : Keeps i h (removeShift (h, b) p l) := by
  unfold removeShift
  exact ⟨by rw [updBytes, storeAt_set_ne _ _ _ _ hne], by simp [length_updBytes], hne⟩

theorem detachB_other (i : Nat) (h : Heap) (b : Buffer)
    (hi : i < h.length) (hne : b.sid ≠ i) : Keeps i h (detachB h b) := by
  unfold detachB
  split
  · exact keeps_realloc i h b (b.size + 1) hi hne
  · exact keeps_id i h b hne

theorem detachB_shared (h : Heap) (b : Buffer)
    (hdet : needsDetach (storeOf h b) = true) (hb : b.sid < h.length) :
    Keeps b.sid h (detachB h b) := by
  unfold detachB
  rw [if_pos hdet]
  exact realloc_shared h b (b.size + 1) hdet hb

theorem resizeB_other (i : Nat) (h : Heap) (b : Buffer) (n : Int)
    (hi : i < h.length) (hne : b.sid ≠ i) : Keeps i h (resizeB h b n) := by
  unfold resizeB
  split
  · rcases hrr : reallocData h b (sizeClamp n + 1) with ⟨h1, b1⟩
    have hk : Keeps i h (h1, b1) := hrr ▸ keeps_realloc i h b (sizeClamp n + 1) hi hne
    exact keeps_trans i h (h1, b1) _ hk (keeps_terminate i h1 b1 (sizeClamp n) hk.2.2)
  · exact keeps_terminate i h b (sizeClamp n) hne

theorem resizeB_shared (h : Heap) (b : Buffer) (n : Int)
    (hdet : needsDetach (storeOf h b) = true) (hb : b.sid < h.length) :
    Keeps b.sid h (resizeB h b n) := by
  unfold resizeB
  rw [if_pos (Or.inl (by simp [hdet]))]
  rcases hrr : reallocData h b (sizeClamp n + 1) with ⟨h1, b1⟩
  have hk : Keeps b.sid h (h1, b1) := hrr ▸ realloc_shared h b (sizeClamp n + 1) hdet hb
  exact keeps_trans _ h (h1, b1) _ hk (keeps_terminate _ h1 b1 (sizeClamp n) hk.2.2)

theorem appendB2_other (i : Nat) (h : Heap) (b : Buffer) (str : Option (List Nat)) (l : Nat)
    (hi : i < h.length) (hne : b.sid ≠ i) : Keeps i h (appendB2 h b str l) := by
  cases str with
  | none => exact keeps_id i h b hne
  | some sdata =>
    simp only [appendB2]
    split
    · exact keeps_id i h b hne
    · split
      · rcases hrr : reallocData h b (b.size + l + 1) with ⟨h1, b1⟩
        have hk : Keeps i h (h1, b1) := hrr ▸ keeps_realloc i h b _ hi hne
        exact keeps_trans i h (h1, b1) _ hk (keeps_appendFinish i h1 b1 _ _ hk.2.2)
      · exact keeps_appendFinish i h b _ _ hne

theorem appendB_other (i : Nat) (h : Heap) (b : Buffer) (str : Option (List Nat)) (len : Int)
    (hi : i < h.length) (hne : b.sid ≠ i) : Keeps i h (appendB h b str len) :=
  appendB2_other i h b str _ hi hne

theorem appendB2_shared (h : Heap) (b : Buffer) (str : Option (List Nat)) (l : Nat)
    (hdet : needsDetach (storeOf h b) = true) (hb : b.sid < h.length) :
    (storeAt (appendB2 h b str l).1 b.sid).bytes = (storeAt h b.sid).bytes ∧
    h.length ≤ (appendB2 h b str l).1.length ∧
    (appendB2 h b str l = (h, b) ∨ (appendB2 h b str l).2.sid ≠ b.sid) := by
  cases str with
  | none => exact ⟨rfl, le_rfl, Or.inl rfl⟩
  | some sdata =>
    simp only [appendB2]
    split
    · exact ⟨rfl, le_rfl, Or.inl rfl⟩
    · rw [if_pos (Or.inl (by simp [hdet]))]
      rcases hrr : reallocData h b (b.size + l + 1) with ⟨h1, b1⟩
      have hk : Keeps b.sid h (h1, b1) := hrr ▸ realloc_shared h b _ hdet hb
      have hk2 := keeps_trans b.sid h (h1, b1) (appendFinish (h1, b1) sdata l) hk
        (keeps_appendFinish b.sid h1 b1 sdata l hk.2.2)
      exact ⟨hk2.1, hk2.2.1, Or.inr hk2.2.2⟩

theorem appendB_shared (h : Heap) (b : Buffer) (str : Option (List Nat)) (len : Int)
    (hdet : needsDetach (storeOf h b) = true) (hb : b.sid < h.length) :
    (storeAt (appendB h b str len).1 b.sid).bytes = (storeAt h b.sid).bytes ∧
    h.length ≤ (appendB h b str len).1.length ∧
    (appendB h b str len = (h, b) ∨ (appendB h b str len).2.sid ≠ b.sid) :=
  appendB2_shared h b str _ hdet hb

theorem prependB_other (i : Nat) (h : Heap) (b : Buffer) (str : Option (List Nat)) (len : Nat)
    (hi : i < h.length) (hne : b.sid ≠ i) : Keeps i h (prependB h b str len) := by
  cases str with
  | none => exact keeps_id i h b hne
  | some sdata =>
    simp only [prependB]
    split
    · rcases hrr : reallocData h b (b.size + len + 1) with ⟨h1, b1⟩
      have hk : Keeps i h (h1, b1) := hrr ▸ keeps_realloc i h b _ hi hne
      exact keeps_trans i h (h1, b1) _ hk (keeps_prependFinish i h1 b1 _ _ hk.2.2)
    · exact keeps_prependFinish i h b _ _ hne

theorem prependB_shared (h : Heap) (b : Buffer) (str : Option (List Nat)) (len : Nat)
    (hdet : needsDetach (storeOf h b) = true) (hb : b.sid < h.length) :
    (storeAt (prependB h b str len).1 b.sid).bytes = (storeAt h b.sid).bytes ∧
    h.length ≤ (prependB h b str len).1.length ∧
    (prependB h b str len = (h, b) ∨ (prependB h b str len).2.sid ≠ b.sid) := by
  cases str with
  | none => exact ⟨rfl, le_rfl, Or.inl rfl⟩
  | some sdata =>
    simp only [prependB]
    rw [if_pos (Or.inl (by simp [hdet]))]
    rcases hrr : reallocData h b (b.size + len + 1) with ⟨h1, b1⟩
    have hk : Keeps b.sid h (h1, b1) := hrr ▸ realloc_shared h b _ hdet hb
    have hk2 := keeps_trans b.sid h (h1, b1) (prependFinish (h1, b1) sdata len) hk
      (keeps_prependFinish b.sid h1 b1 sdata len hk.2.2)
    exact ⟨hk2.1, hk2.2.1, Or.inr hk2.2.2⟩

theorem insertB_other (i : Nat) (h : Heap) (b : Buffer) (pos : Int)
    (arr : Option (List Nat)) (len : Int) (hi : i < h.length) (hne : b.sid ≠ i) :
    Keeps i h (insertB h b pos arr len) := by
  unfold insertB
  split
  · exact keeps_id i h b hne
  · rcases hrr : resizeB h b ((max pos.toNat b.size + len.toNat : Nat) : Int) with ⟨h1, b1⟩
    have hk : Keeps i h (h1, b1) := hrr ▸ resizeB_other i h b _ hi hne
    exact keeps_trans i h (h1, b1) _ hk (keeps_insertFinish i h1 b1 _ _ _ _ hk.2.2)

theorem insertB_shared (h : Heap) (b : Buffer) (pos : Int) (arr : Option (List Nat))
    (len : Int) (hdet : needsDetach (storeOf h b) = true) (hb : b.sid < h.length) :
    (storeAt (insertB h b pos arr len).1 b.sid).bytes = (storeAt h b.sid).bytes ∧
    h.length ≤ (insertB h b pos arr len).1.length ∧
    (insertB h b pos arr len = (h, b) ∨ (insertB h b pos arr len).2.sid ≠ b.sid) := by
  unfold insertB
  split
  · exact ⟨rfl, le_rfl, Or.inl rfl⟩
  · rcases hrr : resizeB h b ((max pos.toNat b.size + len.toNat : Nat) : Int) with ⟨h1, b1⟩
    have hk : Keeps b.sid h (h1, b1) := hrr ▸ resizeB_shared h b _ hdet hb
    have hk2 := keeps_trans b.sid h (h1, b1)
      (insertFinish (h1, b1) b.size pos.toNat (arr.getD []) len.toNat) hk
      (keeps_insertFinish b.sid h1 b1 b.size pos.toNat (arr.getD []) len.toNat hk.2.2)
    exact ⟨hk2.1, hk2.2.1, Or.inr hk2.2.2⟩

theorem insertCountB_other (i : Nat) (h : Heap) (b : Buffer) (pos count : Int) (ch : Nat)
    (hi : i < h.length) (hne : b.sid ≠ i) : Keeps i h (insertCountB h b pos count ch) := by
  unfold insertCountB
  split
  · exact keeps_id i h b hne
  · rcases hrr : resizeB h b ((max pos.toNat b.size + count.toNat : Nat) : Int) with ⟨h1, b1⟩
    have hk : Keeps i h (h1, b1) := hrr ▸ resizeB_other i h b _ hi hne
    exact keeps_trans i h (h1, b1) _ hk (keeps_insertCountFinish i h1 b1 _ _ _ _ hk.2.2)

theorem insertCountB_shared (h : Heap) (b : Buffer) (pos count : Int) (ch : Nat)
    (hdet : needsDetach (storeOf h b) = true) (hb : b.sid < h.length) :
    (storeAt (insertCountB h b pos count ch).1 b.sid).bytes = (storeAt h b.sid).bytes ∧
    h.length ≤ (insertCountB h b pos count ch).1.length ∧
    (insertCountB h b pos count ch = (h, b) ∨
      (insertCountB h b pos count ch).2.sid ≠ b.sid) := by
  unfold insertCountB
  split
  · exact ⟨rfl, le_rfl, Or.inl rfl⟩
  · rcases hrr : resizeB h b ((max pos.toNat b.size + count.toNat : Nat) : Int) with ⟨h1, b1⟩
    have hk : Keeps b.sid h (h1, b1) := hrr ▸ resizeB_shared h b _ hdet hb
    have hk2 := keeps_trans b.sid h (h1, b1)
      (insertCountFinish (h1, b1) b.size pos.toNat count.toNat ch) hk
      (keeps_insertCountFinish b.sid h1 b1 b.size pos.toNat count.toNat ch hk.2.2)
    exact ⟨hk2.1, hk2.2.1, Or.inr hk2.2.2⟩

theorem removeB_other (i : Nat) (h : Heap) (b : Buffer) (pos len : Int)
    (hi : i < h.length) (hne : b.sid ≠ i) : Keeps i h (removeB h b pos len) := by
  unfold removeB
  split
  · exact keeps_id i h b hne
  · rcases hd : detachB h b with ⟨h1, b1⟩
    have hk : Keeps i h (h1, b1) := hd ▸ detachB_other i h b hi hne
    split
    · exact keeps_trans i h (h1, b1) _ hk
        (resizeB_other i h1 b1 pos (lt_of_lt_of_le hi hk.2.1) hk.2.2)
    · rcases hsh : removeShift (h1, b1) pos.toNat len.toNat with ⟨h2, b2⟩
      have hk2 : Keeps i h (h2, b2) := keeps_trans i h (h1, b1) (h2, b2) hk
        (hsh ▸ keeps_removeShift i h1 b1 pos.toNat len.toNat hk.2.2)
      exact keeps_trans i h (h2, b2) _ hk2
        (resizeB_other i h2 b2 _ (lt_of_lt_of_le hi hk2.2.1) hk2.2.2)

theorem removeB_shared (h : Heap) (b : Buffer) (pos len : Int)
    (hdet : needsDetach (storeOf h b) = true) (hb : b.sid < h.length) :
    (storeAt (removeB h b pos len).1 b.sid).bytes = (storeAt h b.sid).bytes ∧
    h.length ≤ (removeB h b pos len).1.length ∧
    (removeB h b pos len = (h, b) ∨ (removeB h b pos len).2.sid ≠ b.sid) := by
  unfold removeB
  split
  · exact ⟨rfl, le_rfl, Or.inl rfl⟩
  · rcases hd : detachB h b with ⟨h1, b1⟩
    have hk : Keeps b.sid h (h1, b1) := hd ▸ detachB_shared h b hdet hb
    split
    · have hk2 := keeps_trans b.sid h (h1, b1) (resizeB h1 b1 pos) hk
        (resizeB_other b.sid h1 b1 pos (lt_of_lt_of_le hb hk.2.1) hk.2.2)
      exact ⟨hk2.1, hk2.2.1, Or.inr hk2.2.2⟩
    · rcases hsh : removeShift (h1, b1) pos.toNat len.toNat with ⟨h2, b2⟩
      have hk2 : Keeps b.sid h (h2, b2) := keeps_trans b.sid h (h1, b1) (h2, b2) hk
        (hsh ▸ keeps_removeShift b.sid h1 b1 pos.toNat len.toNat hk.2.2)
      have hk3 := keeps_trans b.sid h (h2, b2)
        (resizeB h2 b2 ((b.size - len.toNat : Nat) : Int)) hk2
        (resizeB_other b.sid h2 b2 _ (lt_of_lt_of_le hb hk2.2.1) hk2.2.2)
      exact ⟨hk3.1, hk3.2.1, Or.inr hk3.2.2⟩

theorem replaceFastB_other (i : Nat) (h : Heap) (b : Buffer) (p l : Nat) (after : List Nat)
    (hi : i < h.length) (hne : b.sid ≠ i) : Keeps i h (replaceFastB h b p l after) := by
  unfold replaceFastB
  rcases hd : detachB h b with ⟨h1, b1⟩
  have hk : Keeps i h (h1, b1) := hd ▸ detachB_other i h b hi hne
  refine ⟨?_, ?_, hk.2.2⟩
  · simp only
    rw [updBytes, storeAt_set_ne _ _ _ _ hk.2.2]
    exact hk.1
  · simpa [length_updBytes] using hk.2.1

theorem replaceFastB_shared (h : Heap) (b : Buffer) (p l : Nat) (after : List Nat)
    (hdet : needsDetach (storeOf h b) = true) (hb : b.sid < h.length) :
    Keeps b.sid h (replaceFastB h b p l after) := by
  unfold replaceFastB
  rcases hd : detachB h b with ⟨h1, b1⟩
  have hk : Keeps b.sid h (h1, b1) := hd ▸ detachB_shared h b hdet hb
  refine ⟨?_, ?_, hk.2.2⟩
  · simp only
    rw [updBytes, storeAt_set_ne _ _ _ _ hk.2.2]
    exact hk.1
  · simpa [length_updBytes] using hk.2.1

theorem replaceB_other (i : Nat) (h : Heap) (b : Buffer) (pos len : Int)
    (after : Option (List Nat)) (alen : Int) (hi : i < h.length) (hne : b.sid ≠ i) :
    Keeps i h (replaceB h b pos len after alen) := by
  unfold replaceB
  split
  · exact replaceFastB_other i h b pos.toNat len.toNat (after.getD []) hi hne
  · rcases hr : removeB h b pos len with ⟨h1, b1⟩
    have hk : Keeps i h (h1, b1) := hr ▸ removeB_other i h b pos len hi hne
    exact keeps_trans i h (h1, b1) _ hk
      (insertB_other i h1 b1 pos after alen (lt_of_lt_of_le hi hk.2.1) hk.2.2)

theorem replaceB_shared (h : Heap) (b : Buffer) (pos len : Int)
    (after : Option (List Nat)) (alen : Int)
    (hdet : needsDetach (storeOf h b) = true) (hb : b.sid < h.length) :
    (storeAt (replaceB h b pos len after alen).1 b.sid).bytes = (storeAt h b.sid).bytes ∧
    h.length ≤ (replaceB h b pos len after alen).1.length ∧
    (replaceB h b pos len after alen = (h, b) ∨
      (replaceB h b pos len after alen).2.sid ≠ b.sid) := by
  unfold replaceB
  split
  · have hk := replaceFastB_shared h b pos.toNat len.toNat (after.getD []) hdet hb
    exact ⟨hk.1, hk.2.1, Or.inr hk.2.2⟩
  · rcases hr : removeB h b pos len with ⟨h1, b1⟩
    have hrem := removeB_shared h b pos len hdet hb
    rw [hr] at hrem
    rcases hrem.2.2 with hid | hnz
    · have hh1 : h1 = h := congrArg Prod.fst hid
      have hb1 : b1 = b := congrArg Prod.snd hid
      rw [hh1, hb1]
      have hins := insertB_shared h b pos after alen hdet hb
      exact ⟨hins.1, hins.2.1, hins.2.2⟩
    · have hk : Keeps b.sid h (h1, b1) := ⟨hrem.1, hrem.2.1, hnz⟩
      have hk2 := keeps_trans b.sid h (h1, b1) (insertB h1 b1 pos after alen) hk
        (insertB_other b.sid h1 b1 pos after alen (lt_of_lt_of_le hb hk.2.1) hnz)
      exact ⟨hk2.1, hk2.2.1, Or.inr hk2.2.2⟩

theorem fillB_other (i : Nat) (h : Heap) (b : Buffer) (ch : Nat) (size : Int)
    (hi : i < h.length) (hne : b.sid ≠ i) : Keeps i h (fillB h b ch size) := by
  unfold fillB
  rcases hres : resizeB h b (if size < 0 then (b.size : Int) else size) with ⟨h1, b1⟩
  have hk : Keeps i h (h1, b1) :=
    hres ▸ resizeB_other i h b (if size < 0 then (b.size : Int) else size) hi hne
  split
  · refine ⟨?_, ?_, hk.2.2⟩
    · simp only
      rw [updBytes, storeAt_set_ne _ _ _ _ hk.2.2]
      exact hk.1
    · simpa [length_updBytes] using hk.2.1
  · exact hk

theorem fillB_shared (h : Heap) (b : Buffer) (ch : Nat) (size : Int)
    (hdet : needsDetach (storeOf h b) = true) (hb : b.sid < h.length) :
    Keeps b.sid h (fillB h b ch size) := by
  unfold fillB
  rcases hres : resizeB h b (if size < 0 then (b.size : Int) else size) with ⟨h1, b1⟩
  have hk : Keeps b.sid h (h1, b1) :=
    hres ▸ resizeB_shared h b (if size < 0 then (b.size : Int) else size) hdet hb
  split
  · refine ⟨?_, ?_, hk.2.2⟩
    · simp only
      rw [updBytes, storeAt_set_ne _ _ _ _ hk.2.2]
      exact hk.1
    · simpa [length_updBytes] using hk.2.1
  · exact hk

theorem pokeB_other (i : Nat) (h : Heap) (b : Buffer) (j v : Nat)
    (hi : i < h.length) (hne : b.sid ≠ i) : Keeps i h (pokeB h b j v) := by
  unfold pokeB
  rcases hd : detachB h b with ⟨h1, b1⟩
  have hk : Keeps i h (h1, b1) := hd ▸ detachB_other i h b hi hne
  refine ⟨?_, ?_, hk.2.2⟩
  · simp only
    rw [updBytes, storeAt_set_ne _ _ _ _ hk.2.2]
    exact hk.1
  · simpa [length_updBytes] using hk.2.1

theorem pokeB_shared (h : Heap) (b : Buffer) (j v : Nat)
    (hdet : needsDetach (storeOf h b) = true) (hb : b.sid < h.length) :
    Keeps b.sid h (pokeB h b j v) := by
  unfold pokeB
  rcases hd : detachB h b with ⟨h1, b1⟩
  have hk : Keeps b.sid h (h1, b1) := hd ▸ detachB_shared h b hdet hb
  refine ⟨?_, ?_, hk.2.2⟩
  · simp only
    rw [updBytes, storeAt_set_ne _ _ _ _ hk.2.2]
    exact hk.1
  · simpa [length_updBytes] using hk.2.1

/-- C1 (amended): copy-on-write isolation.  Given a buffer `a` (live:
`a.sid < h.length`, refcount at least 1) and its copy `copyBuf h a`
(which shares storage and bumps the refcount, as the copy constructor
does), applying ANY mutating operation to the copy leaves the bytes
readable through `a` unchanged, and afterwards either the mutation was
a complete no-op (the copy is returned untouched and still shares) or
the copy references a different store than `a`. -/

theorem cow_isolation (h : Heap) (a : Buffer) (m : Mutation)
    (hsid : a.sid < h.length) (href : 1 ≤ (storeOf h a).refcnt) :
    readBuf (applyMutation (copyBuf h a).1 (copyBuf h a).2 m).1 a = readBuf h a ∧
    (applyMutation (copyBuf h a).1 (copyBuf h a).2 m =
        ((copyBuf h a).1, (copyBuf h a).2) ∨
      (applyMutation (copyBuf h a).1 (copyBuf h a).2 m).2.sid ≠ a.sid) := by
  have hdet : needsDetach (storeOf (increfH h a.sid) a) = true := by
    unfold storeOf increfH needsDetach
    rw [storeAt_set_self _ _ _ hsid]
    simp only [Bool.or_eq_true, decide_eq_true_eq]
    left
    unfold storeOf at href
    omega
  have hlen : a.sid < (increfH h a.sid).length := by rw [length_increfH]; exact hsid
  have hread : ∀ h2 : Heap, (storeAt h2 a.sid).bytes = (storeAt (increfH h a.sid) a.sid).bytes →
      readBuf h2 a = readBuf h a := by
    intro h2 he
    unfold readBuf storeOf
    rw [he, storeAt_increfH_bytes]
  cases m with
  | resize n =>
    have hk := resizeB_shared (increfH h a.sid) a n hdet hlen
    exact ⟨hread _ hk.1, Or.inr hk.2.2⟩
  | append str len =>
    have hk := appendB_shared (increfH h a.sid) a str len hdet hlen
    exact ⟨hread _ hk.1, hk.2.2⟩
  | prepend str len =>
    have hk := prependB_shared (increfH h a.sid) a str len hdet hlen
    exact ⟨hread _ hk.1, hk.2.2⟩
  | insert pos arr len =>
    have hk := insertB_shared (increfH h a.sid) a pos arr len hdet hlen
    exact ⟨hread _ hk.1, hk.2.2⟩
  | insertCount i count ch =>
    have hk := insertCountB_shared (increfH h a.sid) a i count ch hdet hlen
    exact ⟨hread _ hk.1, hk.2.2⟩
  | remove pos len =>
    have hk := removeB_shared (increfH h a.sid) a pos len hdet hlen
    exact ⟨hread _ hk.1, hk.2.2⟩
  | replace pos len after alen =>
    have hk := replaceB_shared (increfH h a.sid) a pos len after alen hdet hlen
    exact ⟨hread _ hk.1, hk.2.2⟩
  | fill ch size =>
    have hk := fillB_shared (increfH h a.sid) a ch size hdet hlen
    exact ⟨hread _ hk.1, Or.inr hk.2.2⟩
  | poke j v =>
    have hk := pokeB_shared (increfH h a.sid) a j v hdet hlen
    exact ⟨hread _ hk.1, Or.inr hk.2.2⟩

theorem cow_isolation_witness :
    readBuf (applyMutation (copyBuf demoHeap demoBuf).1 (copyBuf demoHeap demoBuf).2
      (Mutation.append (some [120]) 1)).1 demoBuf = readBuf demoHeap demoBuf ∧
    (applyMutation (copyBuf demoHeap demoBuf).1 (copyBuf demoHeap demoBuf).2
        (Mutation.append (some [120]) 1) =
      ((copyBuf demoHeap demoBuf).1, (copyBuf demoHeap demoBuf).2) ∨
      (applyMutation (copyBuf demoHeap demoBuf).1 (copyBuf demoHeap demoBuf).2
        (Mutation.append (some [120]) 1)).2.sid ≠ demoBuf.sid) :=
  cow_isolation demoHeap demoBuf (Mutation.append (some [120]) 1) (by decide) (by decide)

/-- C1 counterexample to the unamended claim: `remove(5, 1)` on a copy of
"abc" is a no-op (pos is past the end), and afterwards the two buffers
STILL reference the same storage, contradicting "after the mutation a and
b no longer reference the same storage" for every mutating call. -/

theorem cow_noop_keeps_sharing :
    (applyMutation (copyBuf demoHeap demoBuf).1 (copyBuf demoHeap demoBuf).2
      (Mutation.remove 5 1)).2.sid = demoBuf.sid ∧
    (applyMutation (copyBuf demoHeap demoBuf).1 (copyBuf demoHeap demoBuf).2
      (Mutation.remove 5 1)).1 = (copyBuf demoHeap demoBuf).1 := by
  decide

theorem length_readBytes (src : List Nat) (n : Nat) : (readBytes src n).length = n := by
  simp [readBytes]
  omega

theorem readBytes_of_le (src : List Nat) (n : Nat) (h : n ≤ src.length) :
    readBytes src n = src.take n := by
  simp [readBytes, Nat.sub_eq_zero_of_le h]

theorem length_writeRange (l : List Nat) (i : Nat) (vs : List Nat)
    (h : i + vs.length ≤ l.length) : (writeRange l i vs).length = l.length := by
  simp [writeRange]
  omega

theorem writeRange_take_prefix (l : List Nat) (i : Nat) (vs : List Nat) (h : i ≤ l.length) :
    (writeRange l i vs).take i = l.take i := by
  unfold writeRange
  rw [show l.take i ++ vs ++ l.drop (i + vs.length) =
    l.take i ++ (vs ++ l.drop (i + vs.length)) by simp]
  rw [List.take_append_of_le_length (by simp [Nat.min_eq_left h])]
  exact List.take_of_length_le (by simp [Nat.min_eq_left h])

theorem writeRange_take_full (l : List Nat) (i : Nat) (vs : List Nat) (h : i ≤ l.length) :
    (writeRange l i vs).take (i + vs.length) = l.take i ++ vs := by
  unfold writeRange
  rw [List.take_append_of_le_length (by simp [Nat.min_eq_left h])]
  exact List.take_of_length_le (by simp [Nat.min_eq_left h])

theorem writeRange_take_at (l : List Nat) (i : Nat) (vs : List Nat) (k : Nat)
    (hk : k = i + vs.length) (h : i ≤ l.length) :
    (writeRange l i vs).take k = l.take i ++ vs := by
  rw [hk]
  exact writeRange_take_full l i vs h

theorem writeRange_getD_right (l : List Nat) (i : Nat) (vs : List Nat) (j : Nat) (d : Nat)
    (hj : i + vs.length ≤ j) (hi : i ≤ l.length) :
    (writeRange l i vs).getD j d = l.getD j d := by
  unfold writeRange
  rw [List.getD_append_right _ _ _ _ (by simp [Nat.min_eq_left hi]; omega)]
  rw [List.getD_eq_getD_get?, List.getD_eq_getD_get?, List.get?_drop]
  congr 1
  simp [Nat.min_eq_left hi]
  congr 1
  omega

theorem take_set_of_le (l : List Nat) (j v k : Nat) (h : k ≤ j) :
    (l.set j v).take k = l.take k := by
  apply List.ext_getElem?
  intro i
  by_cases hik : i < k
  · simp [List.getElem?_take, hik, List.getElem?_set_ne (by omega : j ≠ i)]
  · rw [List.getElem?_take_eq_none (by omega), List.getElem?_take_eq_none (by omega)]

theorem getD_set_self (l : List Nat) (j v d : Nat) (h : j < l.length) :
    (l.set j v).getD j d = v := by
  simp [List.getD, List.getElem?_set_self, h]

theorem getD_set_ne (l : List Nat) (j v k d : Nat) (h : j ≠ k) :
    (l.set j v).getD k d = l.getD k d := by
  simp [List.getD, List.getElem?_set_ne h]

theorem storeAt_append_self (h : Heap) (st : Store) : storeAt (h ++ [st]) h.length = st := by
  simp [storeAt, List.getD]

theorem wf_size_le_bytes (h : Heap) (b : Buffer) (hwf : WfBuf h b) :
    b.size ≤ (storeOf h b).bytes.length := by
  obtain ⟨-, -, hcase⟩ := hwf
  split at hcase
  · omega
  · omega

theorem realloc_mid (h : Heap) (b : Buffer) (alloc : Nat) (hwf : WfBuf h b)
    (ha : 1 ≤ alloc) (hcall : b.size + 1 ≤ alloc ∨ needsDetach (storeOf h b) = true) :
    MidWf (reallocData h b alloc).1 (reallocData h b alloc).2 alloc ∧
    (reallocData h b alloc).2.size = min (alloc - 1) b.size ∧
    (storeOf (reallocData h b alloc).1 (reallocData h b alloc).2).bytes.take
        (min (alloc - 1) b.size) =
      (storeOf h b).bytes.take (min (alloc - 1) b.size) := by
  have hsz := wf_size_le_bytes h b hwf
  unfold reallocData
  split
  case isTrue hdet =>
    have hs : storeOf (decrefH h b.sid ++
        [⟨(readBytes (storeOf h b).bytes (min (alloc - 1) b.size) ++
            List.replicate (alloc - min (alloc - 1) b.size) junkByte).set
              (min (alloc - 1) b.size) 0, alloc, true, 1⟩])
        ⟨h.length, min (alloc - 1) b.size⟩ =
        ⟨(readBytes (storeOf h b).bytes (min (alloc - 1) b.size) ++
            List.replicate (alloc - min (alloc - 1) b.size) junkByte).set
              (min (alloc - 1) b.size) 0, alloc, true, 1⟩ := by
      unfold storeOf
      rw [show (⟨h.length, min (alloc - 1) b.size⟩ : Buffer).sid = (decrefH h b.sid).length by
        simp [length_decrefH]]
      exact storeAt_append_self _ _
    refine ⟨⟨?_, ?_, ?_, ?_, ?_, ha⟩, rfl, ?_⟩
    · simp [length_decrefH]
    · rw [hs]
    · rw [hs]
    · rw [hs]
      simp only [List.length_set, List.length_append, length_readBytes,
        List.length_replicate]
      omega
    · rw [hs]
    · rw [hs]
      simp only
      rw [take_set_of_le _ _ _ _ le_rfl]
      rw [List.take_append_of_le_length (by rw [length_readBytes])]
      rw [readBytes_of_le _ _ (by omega)]
      simp
  case isFalse hdet =>
    have hmut : (storeOf h b).isMut = true := by
      unfold needsDetach at hdet
      simp at hdet
      exact hdet.2
    have hle : b.size + 1 ≤ alloc := by
      rcases hcall with hc | hc
      · exact hc
      · rw [hc] at hdet; simp at hdet
    have hsz2 : b.size + 1 ≤ (storeOf h b).alloc := by
      obtain ⟨-, -, hcase⟩ := hwf
      rw [hmut] at hcase
      simp at hcase
      omega
    have hset : storeOf (h.set b.sid
        { storeOf h b with bytes := readBytes (storeOf h b).bytes alloc, alloc := alloc }) b =
        { storeOf h b with bytes := readBytes (storeOf h b).bytes alloc, alloc := alloc } := by
      unfold storeOf
      exact storeAt_set_self _ _ _ hwf.1
    refine ⟨⟨by simpa using hwf.1, ?_, ?_, ?_, ?_, ha⟩, by simp; omega, ?_⟩
    · rw [hset]
      exact hwf.2.1
    · rw [hset]
      exact hmut
    · rw [hset]
      exact length_readBytes _ _
    · rw [hset]
    · rw [hset]
      simp only
      rw [show min (alloc - 1) b.size = b.size by omega]
      unfold readBytes
      rw [List.take_append_of_le_length (by simp; omega), List.take_take,
        Nat.min_eq_left (by omega)]

theorem terminate_wf (h : Heap) (b : Buffer) (alloc sz : Nat)
    (hm : MidWf h b alloc) (hsz : sz + 1 ≤ alloc) :
    WfBuf (terminate (h, b) sz).1 (terminate (h, b) sz).2 ∧
    (terminate (h, b) sz).2 = ⟨b.sid, sz⟩ ∧
    storeOf (terminate (h, b) sz).1 (terminate (h, b) sz).2 =
      { storeOf h b with bytes := (storeOf h b).bytes.set sz 0 } := by
  obtain ⟨hsid, hrc, hmut, hblen, halloc, ha1⟩ := hm
  unfold terminate
  rw [if_pos (show (storeOf (h, b).1 (h, b).2).alloc ≠ 0 by simp only; omega)]
  have hst : storeOf (updBytes h b.sid ((storeOf (h, b).1 (h, b).2).bytes.set sz 0))
      ⟨b.sid, sz⟩ = { storeOf h b with bytes := (storeOf h b).bytes.set sz 0 } := by
    unfold storeOf updBytes
    exact storeAt_set_self _ _ _ hsid
  refine ⟨⟨by simpa [length_updBytes] using hsid, ?_, ?_⟩, rfl, hst⟩
  · rw [show storeOf (updBytes h b.sid ((storeOf (h, b).1 (h, b).2).bytes.set sz 0), 
        (⟨b.sid, sz⟩ : Buffer)).1 (updBytes h b.sid ((storeOf (h, b).1 (h, b).2).bytes.set sz 0),
        (⟨b.sid, sz⟩ : Buffer)).2 = { storeOf h b with bytes := (storeOf h b).bytes.set sz 0 }
      from hst]
    exact hrc
  · rw [show storeOf (updBytes h b.sid ((storeOf (h, b).1 (h, b).2).bytes.set sz 0),
        (⟨b.sid, sz⟩ : Buffer)).1 (updBytes h b.sid ((storeOf (h, b).1 (h, b).2).bytes.set sz 0),
        (⟨b.sid, sz⟩ : Buffer)).2 = { storeOf h b with bytes := (storeOf h b).bytes.set sz 0 }
      from hst]
    rw [hmut]
    simp only [if_true]
    refine ⟨?_, ?_, ?_⟩
    · show ((storeOf h b).bytes.set sz 0).length = (storeOf h b).alloc
      simp [List.length_set]
      omega
    · show sz + 1 ≤ (storeOf h b).alloc
      omega
    · exact getD_set_self _ _ _ _ (by omega)

theorem resizeB_spec (h : Heap) (b : Buffer) (n : Int) (hwf : WfBuf h b) :
    WfBuf (resizeB h b n).1 (resizeB h b n).2 ∧
    (resizeB h b n).2.size = sizeClamp n ∧
    (storeOf (resizeB h b n).1 (resizeB h b n).2).bytes.take (min b.size (sizeClamp n)) =
      (storeOf h b).bytes.take (min b.size (sizeClamp n)) := by
  unfold resizeB
  split
  case isTrue hcond =>
    have hcall : b.size + 1 ≤ sizeClamp n + 1 ∨ needsDetach (storeOf h b) = true := by
      by_cases hd : needsDetach (storeOf h b) = true
      · exact Or.inr hd
      · left
        have hmut : (storeOf h b).isMut = true := by
          unfold needsDetach at hd
          simp at hd
          exact hd.2
        have hcap : capacityB h b < sizeClamp n := by
          rcases hcond with hc | hc
          · exact absurd hc hd
          · exact hc
        obtain ⟨-, -, hcase⟩ := hwf
        rw [hmut] at hcase
        simp at hcase
        unfold capacityB at hcap
        omega
    rcases hrr : reallocData h b (sizeClamp n + 1) with ⟨h1, b1⟩
    have hmid := realloc_mid h b (sizeClamp n + 1) hwf (by omega) hcall
    rw [hrr] at hmid
    simp only [Nat.add_sub_cancel] at hmid
    have hb1 : b1 = ⟨b1.sid, min (sizeClamp n) b.size⟩ := by
      cases b1
      simp at hmid ⊢
      exact hmid.2.1
    have hterm := terminate_wf h1 b1 (sizeClamp n + 1) (sizeClamp n) hmid.1 (by omega)
    refine ⟨hterm.1, by rw [hterm.2.1], ?_⟩
    rw [hterm.2.2]
    simp only
    rw [take_set_of_le _ _ _ _ (by omega : min b.size (sizeClamp n) ≤ sizeClamp n)]
    rw [show min b.size (sizeClamp n) = min (sizeClamp n) b.size from Nat.min_comm _ _]
    have hpre := hmid.2.2
    rw [hb1] at hpre ⊢
    exact hpre
  case isFalse hcond =>
    have hmut : (storeOf h b).isMut = true := by
      by_contra hm
      apply hcond
      left
      unfold needsDetach
      simp
      exact Or.inr ((Bool.not_eq_true _).mp hm)
    have hcase : (storeOf h b).bytes.length = (storeOf h b).alloc ∧
        b.size + 1 ≤ (storeOf h b).alloc ∧ (storeOf h b).bytes.getD b.size 0 = 0 := by
      obtain ⟨-, -, hc⟩ := hwf
      rw [hmut] at hc
      simpa using hc
    have hcap : sizeClamp n ≤ capacityB h b := by
      by_contra hc
      exact hcond (Or.inr (by omega))
    have hmid : MidWf h b (storeOf h b).alloc :=
      ⟨hwf.1, hwf.2.1, hmut, hcase.1, rfl, by omega⟩
    have hterm := terminate_wf h b (storeOf h b).alloc (sizeClamp n) hmid
      (by unfold capacityB at hcap; omega)
    refine ⟨hterm.1, by rw [hterm.2.1], ?_⟩
    rw [hterm.2.2]
    simp only
    rw [take_set_of_le _ _ _ _ (by omega : min b.size (sizeClamp n) ≤ sizeClamp n)]

theorem updBytes_wf (h : Heap) (b : Buffer) (nb : List Nat) (hwf : WfBuf h b)
    (hmut : (storeOf h b).isMut = true)
    (hlen : nb.length = (storeOf h b).bytes.length)
    (hterm : nb.getD b.size 0 = 0) :
    WfBuf (updBytes h b.sid nb) b := by
  obtain ⟨hsid, hrc, hcase⟩ := hwf
  rw [hmut] at hcase
  simp only [if_true] at hcase
  have hst : storeOf (updBytes h b.sid nb) b = { storeOf h b with bytes := nb } := by
    unfold storeOf updBytes
    exact storeAt_set_self _ _ _ hsid
  refine ⟨by simpa [length_updBytes] using hsid, ?_, ?_⟩
  · rw [hst]
    exact hrc
  · rw [hst, show ({ storeOf h b with bytes := nb } : Store).isMut = (storeOf h b).isMut
      from rfl, hmut]
    simp only [if_true]
    refine ⟨?_, ?_, hterm⟩
    · show nb.length = (storeOf h b).alloc
      omega
    · show b.size + 1 ≤ (storeOf h b).alloc
      omega

theorem wf_mut_of_not_detach (h : Heap) (b : Buffer)
    (hd : ¬ needsDetach (storeOf h b) = true) : (storeOf h b).isMut = true := by
  unfold needsDetach at hd
  simp at hd
  exact hd.2

theorem wf_mut_parts (h : Heap) (b : Buffer) (hwf : WfBuf h b)
    (hmut : (storeOf h b).isMut = true) :
    (storeOf h b).bytes.length = (storeOf h b).alloc ∧
    b.size + 1 ≤ (storeOf h b).alloc ∧ (storeOf h b).bytes.getD b.size 0 = 0 := by
  obtain ⟨-, -, hcase⟩ := hwf
  rw [hmut] at hcase
  simpa using hcase

theorem realloc_detach_term (h : Heap) (b : Buffer) (alloc : Nat)
    (hdet : needsDetach (storeOf h b) = true) (ha : 1 ≤ alloc) :
    (storeOf (reallocData h b alloc).1 (reallocData h b alloc).2).bytes.getD
      (reallocData h b alloc).2.size 0 = 0 := by
  unfold reallocData
  rw [if_pos hdet]
  simp only
  have hs : storeOf (decrefH h b.sid ++
      [⟨(readBytes (storeOf h b).bytes (min (alloc - 1) b.size) ++
          List.replicate (alloc - min (alloc - 1) b.size) junkByte).set
            (min (alloc - 1) b.size) 0, alloc, true, 1⟩])
      ⟨h.length, min (alloc - 1) b.size⟩ =
      ⟨(readBytes (storeOf h b).bytes (min (alloc - 1) b.size) ++
          List.replicate (alloc - min (alloc - 1) b.size) junkByte).set
            (min (alloc - 1) b.size) 0, alloc, true, 1⟩ := by
    unfold storeOf
    rw [show (⟨h.length, min (alloc - 1) b.size⟩ : Buffer).sid = (decrefH h b.sid).length by
      simp [length_decrefH]]
    exact storeAt_append_self _ _
  rw [hs]
  apply getD_set_self
  simp [length_readBytes]
  omega

theorem detachB_wf (h : Heap) (b : Buffer) (hwf : WfBuf h b) :
    WfBuf (detachB h b).1 (detachB h b).2 ∧ (detachB h b).2.size = b.size ∧
    (storeOf (detachB h b).1 (detachB h b).2).bytes.take b.size =
      (storeOf h b).bytes.take b.size ∧
    (storeOf (detachB h b).1 (detachB h b).2).isMut = true := by
  unfold detachB
  split
  case isTrue hdet =>
    have hmid := realloc_mid h b (b.size + 1) hwf (by omega) (Or.inr hdet)
    have hterm := realloc_detach_term h b (b.size + 1) hdet (by omega)
    simp only [Nat.add_sub_cancel, Nat.min_self] at hmid
    obtain ⟨⟨hsid, hrc, hmut, hblen, halloc, -⟩, hsz, hpre⟩ := hmid
    refine ⟨⟨hsid, hrc, ?_⟩, hsz, ?_, hmut⟩
    · rw [hmut]
      simp only [if_true]
      exact ⟨by omega, by omega, by rw [← hsz] at hterm ⊢; exact hterm⟩
    · rw [show b.size = min b.size b.size by simp] at hpre ⊢
      exact hpre
  case isFalse hdet =>
    have hmut := wf_mut_of_not_detach h b hdet
    exact ⟨hwf, rfl, rfl, hmut⟩

theorem updBytes_wf2 (h : Heap) (b : Buffer) (alloc : Nat) (nb : List Nat) (s2 : Nat)
    (hm : MidWf h b alloc) (hlen : nb.length = alloc)
    (hterm : nb.getD s2 0 = 0) (hs2 : s2 + 1 ≤ alloc) :
    WfBuf (updBytes h b.sid nb) ⟨b.sid, s2⟩ := by
  obtain ⟨hsid, hrc, hmut, hblen, halloc, ha1⟩ := hm
  have hst : storeOf (updBytes h b.sid nb) (⟨b.sid, s2⟩ : Buffer) =
      { storeOf h b with bytes := nb } := by
    unfold storeOf updBytes
    exact storeAt_set_self _ _ _ hsid
  refine ⟨by simpa [length_updBytes] using hsid, ?_, ?_⟩
  · rw [hst]
    exact hrc
  · rw [hst, show ({ storeOf h b with bytes := nb } : Store).isMut = (storeOf h b).isMut
      from rfl, hmut]
    simp only [if_true]
    refine ⟨?_, ?_, hterm⟩
    · show nb.length = (storeOf h b).alloc
      omega
    · show s2 + 1 ≤ (storeOf h b).alloc
      omega

theorem appendFinish_wf (h : Heap) (b : Buffer) (alloc : Nat) (sdata : List Nat) (l : Nat)
    (hm : MidWf h b alloc) (hfit : b.size + l + 1 ≤ alloc) :
    WfBuf (appendFinish (h, b) sdata l).1 (appendFinish (h, b) sdata l).2 := by
  have hblen := hm.2.2.2.1
  have hblen2 : (storeOf (h, b).1 (h, b).2).bytes.length = alloc := hblen
  have hsz2 : (h, b).2.size = b.size := rfl
  apply updBytes_wf2 h b alloc _ _ hm
  · rw [List.length_set, length_writeRange]
    · exact hblen
    · rw [length_readBytes]
      omega
  · apply getD_set_self
    rw [length_writeRange]
    · omega
    · rw [length_readBytes]
      omega
  · omega

theorem prependFinish_wf (h : Heap) (b : Buffer) (alloc : Nat) (sdata : List Nat) (l : Nat)
    (hm : MidWf h b alloc) (hfit : b.size + l + 1 ≤ alloc) :
    WfBuf (prependFinish (h, b) sdata l).1 (prependFinish (h, b) sdata l).2 := by
  have hblen := hm.2.2.2.1
  have hblen2 : (storeOf (h, b).1 (h, b).2).bytes.length = alloc := hblen
  have hsz2 : (h, b).2.size = b.size := rfl
  have hlen1 : (writeRange (storeOf h b).bytes l (readBytes (storeOf h b).bytes b.size)).length
      = alloc := by
    rw [length_writeRange]
    · exact hblen
    · rw [length_readBytes]
      omega
  have hlen1b : (writeRange (storeOf (h, b).1 (h, b).2).bytes l
      (readBytes (storeOf (h, b).1 (h, b).2).bytes (h, b).2.size)).length = alloc := hlen1
  apply updBytes_wf2 h b alloc _ _ hm
  · rw [List.length_set, length_writeRange]
    · exact hlen1
    · rw [length_readBytes]
      omega
  · apply getD_set_self
    rw [length_writeRange]
    · omega
    · rw [length_readBytes]
      omega
  · omega

theorem appendB2_wf (h : Heap) (b : Buffer) (str : Option (List Nat)) (l : Nat)
    (hwf : WfBuf h b) : WfBuf (appendB2 h b str l).1 (appendB2 h b str l).2 := by
  cases str with
  | none => exact hwf
  | some sdata =>
    simp only [appendB2]
    split
    · exact hwf
    · split
      case isTrue hcond =>
        have hmid := realloc_mid h b (b.size + l + 1) hwf (by omega) (Or.inl (by omega))
        obtain ⟨hm, hsz, -⟩ := hmid
        have hszb : (reallocData h b (b.size + l + 1)).2.size = b.size := by
          omega
        have hfin := appendFinish_wf (reallocData h b (b.size + l + 1)).1
          (reallocData h b (b.size + l + 1)).2 (b.size + l + 1) sdata l hm (by omega)
        exact hfin
      case isFalse hcond =>
        push_neg at hcond
        obtain ⟨hnd, hcap⟩ := hcond
        have hmut := wf_mut_of_not_detach h b (by simpa using hnd)
        have hparts := wf_mut_parts h b hwf hmut
        have hcap2 : b.size + l ≤ capacityB h b := by omega
        have ha : capacityB h b = (storeOf h b).alloc - 1 := rfl
        refine appendFinish_wf h b (storeOf h b).alloc sdata l
          ⟨hwf.1, hwf.2.1, hmut, hparts.1, rfl, by omega⟩ (by omega)

theorem appendB_wf (h : Heap) (b : Buffer) (str : Option (List Nat)) (len : Int)
    (hwf : WfBuf h b) : WfBuf (appendB h b str len).1 (appendB h b str len).2 :=
  appendB2_wf h b str _ hwf

theorem prependB_wf (h : Heap) (b : Buffer) (str : Option (List Nat)) (len : Nat)
    (hwf : WfBuf h b) : WfBuf (prependB h b str len).1 (prependB h b str len).2 := by
  cases str with
  | none => exact hwf
  | some sdata =>
    simp only [prependB]
    split
    case isTrue hcond =>
      have hmid := realloc_mid h b (b.size + len + 1) hwf (by omega) (Or.inl (by omega))
      obtain ⟨hm, hsz, -⟩ := hmid
      have hszb : (reallocData h b (b.size + len + 1)).2.size = b.size := by
        omega
      exact prependFinish_wf (reallocData h b (b.size + len + 1)).1
        (reallocData h b (b.size + len + 1)).2 (b.size + len + 1) sdata len hm (by omega)
    case isFalse hcond =>
      push_neg at hcond
      obtain ⟨hnd, hcap⟩ := hcond
      have hmut := wf_mut_of_not_detach h b (by simpa using hnd)
      have hparts := wf_mut_parts h b hwf hmut
      have hcap2 : b.size + len ≤ capacityB h b := by omega
      have ha : capacityB h b = (storeOf h b).alloc - 1 := rfl
      exact prependFinish_wf h b (storeOf h b).alloc sdata len
        ⟨hwf.1, hwf.2.1, hmut, hparts.1, rfl, by omega⟩ (by omega)

theorem insertFinish_wf (h : Heap) (b : Buffer) (oldsize p : Nat) (arr : List Nat) (l : Nat)
    (hwf : WfBuf h b) (hmut : (storeOf h b).isMut = true)
    (hsz : b.size = max p oldsize + l) :
    WfBuf (insertFinish (h, b) oldsize p arr l).1 (insertFinish (h, b) oldsize p arr l).2 := by
  have hparts := wf_mut_parts h b hwf hmut
  have hbl : b.size ≤ (storeOf h b).bytes.length := by omega
  simp only [insertFinish]
  by_cases hb : oldsize < p
  · rw [if_pos hb]
    have hinlen : (writeRange (storeOf h b).bytes oldsize
        (List.replicate (p - oldsize) 0x20)).length = (storeOf h b).bytes.length := by
      rw [length_writeRange]
      simp only [List.length_replicate]
      omega
    apply updBytes_wf h b _ hwf hmut
    · rw [length_writeRange, hinlen]
      rw [hinlen, length_readBytes]
      omega
    · rw [writeRange_getD_right, writeRange_getD_right]
      · exact hparts.2.2
      · simp only [List.length_replicate]
        omega
      · omega
      · rw [length_readBytes]
        omega
      · omega
  · rw [if_neg hb]
    have hinlen : (writeRange (storeOf h b).bytes (p + l)
        (readBytes ((storeOf h b).bytes.drop p) (oldsize - p))).length =
        (storeOf h b).bytes.length := by
      rw [length_writeRange]
      rw [length_readBytes]
      omega
    apply updBytes_wf h b _ hwf hmut
    · rw [length_writeRange, hinlen]
      rw [hinlen, length_readBytes]
      omega
    · rw [writeRange_getD_right, writeRange_getD_right]
      · exact hparts.2.2
      · rw [length_readBytes]
        omega
      · omega
      · rw [length_readBytes]
        omega
      · omega

theorem resizeB_mut (h : Heap) (b : Buffer) (n : Int) (hwf : WfBuf h b) :
    (storeOf (resizeB h b n).1 (resizeB h b n).2).isMut = true := by
  unfold resizeB
  split
  case isTrue hcond =>
    have hcall : b.size + 1 ≤ sizeClamp n + 1 ∨ needsDetach (storeOf h b) = true := by
      by_cases hd : needsDetach (storeOf h b) = true
      · exact Or.inr hd
      · left
        have hmut : (storeOf h b).isMut = true := wf_mut_of_not_detach h b hd
        have hcap : capacityB h b < sizeClamp n := by
          rcases hcond with hc | hc
          · exact absurd hc hd
          · exact hc
        have hparts := wf_mut_parts h b hwf hmut
        unfold capacityB at hcap
        omega
    rcases hrr : reallocData h b (sizeClamp n + 1) with ⟨h1, b1⟩
    have hmid := realloc_mid h b (sizeClamp n + 1) hwf (by omega) hcall
    rw [hrr] at hmid
    have hterm := terminate_wf h1 b1 (sizeClamp n + 1) (sizeClamp n) hmid.1 (by omega)
    rw [hterm.2.2]
    exact hmid.1.2.2.1
  case isFalse hcond =>
    have hmut : (storeOf h b).isMut = true := by
      by_contra hm
      apply hcond
      left
      unfold needsDetach
      simp
      exact Or.inr ((Bool.not_eq_true _).mp hm)
    have hparts := wf_mut_parts h b hwf hmut
    have hcap : sizeClamp n ≤ capacityB h b := by
      by_contra hc
      exact hcond (Or.inr (by omega))
    have hmid : MidWf h b (storeOf h b).alloc :=
      ⟨hwf.1, hwf.2.1, hmut, hparts.1, rfl, by omega⟩
    have hterm := terminate_wf h b (storeOf h b).alloc (sizeClamp n) hmid
      (by unfold capacityB at hcap; omega)
    rw [hterm.2.2]
    exact hmut

theorem sizeClamp_coe (m : Nat) : sizeClamp (m : Int) = m := by
  simp [sizeClamp]

theorem insertB_wf (h : Heap) (b : Buffer) (pos : Int) (arr : Option (List Nat)) (len : Int)
    (hwf : WfBuf h b) : WfBuf (insertB h b pos arr len).1 (insertB h b pos arr len).2 := by
  unfold insertB
  split
  · exact hwf
  · have hspec := resizeB_spec h b ((max pos.toNat b.size + len.toNat : Nat) : Int) hwf
    have hmut := resizeB_mut h b ((max pos.toNat b.size + len.toNat : Nat) : Int) hwf
    exact insertFinish_wf (resizeB h b ((max pos.toNat b.size + len.toNat : Nat) : Int)).1
      (resizeB h b ((max pos.toNat b.size + len.toNat : Nat) : Int)).2
      b.size pos.toNat (arr.getD []) len.toNat hspec.1 hmut
      (by rw [hspec.2.1, sizeClamp_coe])

theorem insertCountFinish_wf (h : Heap) (b : Buffer) (oldsize p count ch : Nat)
    (hwf : WfBuf h b) (hmut : (storeOf h b).isMut = true)
    (hsz : b.size = max p oldsize + count) :
    WfBuf (insertCountFinish (h, b) oldsize p count ch).1
      (insertCountFinish (h, b) oldsize p count ch).2 := by
  have hparts := wf_mut_parts h b hwf hmut
  have hbl : b.size ≤ (storeOf h b).bytes.length := by omega
  simp only [insertCountFinish]
  by_cases hb : oldsize < p
  · rw [if_pos hb]
    have hinlen : (writeRange (storeOf h b).bytes oldsize
        (List.replicate (p - oldsize) 0x20)).length = (storeOf h b).bytes.length := by
      rw [length_writeRange]
      simp only [List.length_replicate]
      omega
    apply updBytes_wf h b _ hwf hmut
    · rw [length_writeRange, hinlen]
      rw [hinlen]
      simp only [List.length_replicate]
      omega
    · rw [writeRange_getD_right, writeRange_getD_right]
      · exact hparts.2.2
      · simp only [List.length_replicate]
        omega
      · omega
      · simp only [List.length_replicate]
        omega
      · omega
  · rw [if_neg hb]
    by_cases hb2 : p < oldsize
    · rw [if_pos hb2]
      have hinlen : (writeRange (storeOf h b).bytes (p + count)
          (readBytes ((storeOf h b).bytes.drop p) (oldsize - p))).length =
          (storeOf h b).bytes.length := by
        rw [length_writeRange]
        rw [length_readBytes]
        omega
      apply updBytes_wf h b _ hwf hmut
      · rw [length_writeRange, hinlen]
        rw [hinlen]
        simp only [List.length_replicate]
        omega
      · rw [writeRange_getD_right, writeRange_getD_right]
        · exact hparts.2.2
        · rw [length_readBytes]
          omega
        · omega
        · simp only [List.length_replicate]
          omega
        · omega
    · rw [if_neg hb2]
      apply updBytes_wf h b _ hwf hmut
      · rw [length_writeRange]
        simp only [List.length_replicate]
        omega
      · rw [writeRange_getD_right]
        · exact hparts.2.2
        · simp only [List.length_replicate]
          omega
        · omega

theorem insertCountB_wf (h : Heap) (b : Buffer) (i count : Int) (ch : Nat)
    (hwf : WfBuf h b) : WfBuf (insertCountB h b i count ch).1 (insertCountB h b i count ch).2 := by
  unfold insertCountB
  split
  · exact hwf
  · have hspec := resizeB_spec h b ((max i.toNat b.size + count.toNat : Nat) : Int) hwf
    have hmut := resizeB_mut h b ((max i.toNat b.size + count.toNat : Nat) : Int) hwf
    exact insertCountFinish_wf (resizeB h b ((max i.toNat b.size + count.toNat : Nat) : Int)).1
      (resizeB h b ((max i.toNat b.size + count.toNat : Nat) : Int)).2
      b.size i.toNat count.toNat ch hspec.1 hmut
      (by rw [hspec.2.1, sizeClamp_coe])

theorem removeShift_wf (h : Heap) (b : Buffer) (p l : Nat) (hwf : WfBuf h b)
    (hmut : (storeOf h b).isMut = true) (hpl : p + l ≤ b.size) :
    WfBuf (removeShift (h, b) p l).1 (removeShift (h, b) p l).2 := by
  have hparts := wf_mut_parts h b hwf hmut
  have hbl : b.size ≤ (storeOf h b).bytes.length := by omega
  simp only [removeShift]
  apply updBytes_wf h b _ hwf hmut
  · rw [length_writeRange]
    rw [length_readBytes]
    omega
  · rw [writeRange_getD_right]
    · exact hparts.2.2
    · rw [length_readBytes]
      omega
    · omega

theorem removeB_wf (h : Heap) (b : Buffer) (pos len : Int) (hwf : WfBuf h b) :
    WfBuf (removeB h b pos len).1 (removeB h b pos len).2 := by
  unfold removeB
  split
  · exact hwf
  case isFalse hc1 =>
    have hd := detachB_wf h b hwf
    split
    · exact (resizeB_spec (detachB h b).1 (detachB h b).2 pos hd.1).1
    case isFalse hc2 =>
      push_neg at hc1 hc2
      have hpl : pos.toNat + len.toNat ≤ (detachB h b).2.size := by
        rw [hd.2.1]
        omega
      have hrs := removeShift_wf (detachB h b).1 (detachB h b).2 pos.toNat len.toNat
        hd.1 hd.2.2.2 hpl
      exact (resizeB_spec _ _ _ hrs).1

theorem readBytes_zero (src : List Nat) : readBytes src 0 = [] := by
  simp [readBytes]

theorem writeRange_nil (l : List Nat) (i : Nat) : writeRange l i [] = l := by
  simp [writeRange]

theorem replaceFastB_wf (h : Heap) (b : Buffer) (p l : Nat) (after : List Nat)
    (hwf : WfBuf h b) (hpl : p + l ≤ b.size ∨ l = 0) :
    WfBuf (replaceFastB h b p l after).1 (replaceFastB h b p l after).2 := by
  have hd := detachB_wf h b hwf
  have hmut := hd.2.2.2
  have hparts := wf_mut_parts _ _ hd.1 hmut
  have hsz := hd.2.1
  simp only [replaceFastB]
  rcases hpl with hpl | hpl
  · apply updBytes_wf (detachB h b).1 (detachB h b).2 _ hd.1 hmut
    · rw [length_writeRange]
      rw [length_readBytes]
      omega
    · rw [writeRange_getD_right]
      · exact hparts.2.2
      · rw [length_readBytes]
        omega
      · omega
  · subst hpl
    rw [readBytes_zero, writeRange_nil]
    apply updBytes_wf (detachB h b).1 (detachB h b).2 _ hd.1 hmut rfl hparts.2.2

theorem replaceB_wf (h : Heap) (b : Buffer) (pos len : Int) (after : Option (List Nat))
    (alen : Int) (hwf : WfBuf h b) :
    WfBuf (replaceB h b pos len after alen).1 (replaceB h b pos len after alen).2 := by
  unfold replaceB
  split
  case isTrue hc =>
    apply replaceFastB_wf h b pos.toNat len.toNat (after.getD []) hwf
    by_cases hl : len.toNat = 0
    · exact Or.inr hl
    · left
      omega
  case isFalse hc =>
    exact insertB_wf _ _ pos after alen (removeB_wf h b pos len hwf)

theorem fillB_wf (h : Heap) (b : Buffer) (ch : Nat) (size : Int) (hwf : WfBuf h b) :
    WfBuf (fillB h b ch size).1 (fillB h b ch size).2 := by
  unfold fillB
  generalize (if size < 0 then ((b.size : Nat) : Int) else size) = n
  have hspec := resizeB_spec h b n hwf
  have hmut := resizeB_mut h b n hwf
  have hparts := wf_mut_parts _ _ hspec.1 hmut
  split
  · apply updBytes_wf _ _ _ hspec.1 hmut
    · rw [length_writeRange]
      simp only [List.length_replicate]
      omega
    · rw [writeRange_getD_right]
      · exact hparts.2.2
      · simp only [List.length_replicate]
        omega
      · omega
  · exact hspec.1

theorem pokeB_wf (h : Heap) (b : Buffer) (j v : Nat) (hwf : WfBuf h b)
    (hj : j < b.size) : WfBuf (pokeB h b j v).1 (pokeB h b j v).2 := by
  have hd := detachB_wf h b hwf
  have hmut := hd.2.2.2
  have hparts := wf_mut_parts _ _ hd.1 hmut
  simp only [pokeB]
  apply updBytes_wf (detachB h b).1 (detachB h b).2 _ hd.1 hmut
  · exact List.length_set _ _ _
  · rw [getD_set_ne]
    · exact hparts.2.2
    · omega

theorem applyMutation_wf (h : Heap) (b : Buffer) (m : Mutation) (hwf : WfBuf h b)
    (hpoke : ∀ j v, m = Mutation.poke j v → j < b.size) :
    WfBuf (applyMutation h b m).1 (applyMutation h b m).2 := by
  cases m with
  | resize n => exact (resizeB_spec h b n hwf).1
  | append str len => exact appendB_wf h b str len hwf
  | prepend str len => exact prependB_wf h b str len hwf
  | insert pos arr len => exact insertB_wf h b pos arr len hwf
  | insertCount i count ch => exact insertCountB_wf h b i count ch hwf
  | remove pos len => exact removeB_wf h b pos len hwf
  | replace pos len after alen => exact replaceB_wf h b pos len after alen hwf
  | fill ch size => exact fillB_wf h b ch size hwf
  | poke j v => exact pokeB_wf h b j v hwf (hpoke j v rfl)

/-- C2: terminator invariant.  Starting from a well-formed buffer (mutable
stores carry `bytes.length = alloc`, `size + 1 ≤ alloc` and a 0 byte at
offset `size`; raw stores have `alloc = 0`), every mutating operation
re-establishes well-formedness, and whenever the resulting store is
mutable the capacity is at least `size + 1` and the byte at offset
`size` is 0.  Writing through `data()` (`poke`) is covered for indices
below `size`. -/

theorem terminator_invariant (h : Heap) (b : Buffer) (m : Mutation) (hwf : WfBuf h b)
    (hpoke : ∀ j v, m = Mutation.poke j v → j < b.size) :
    WfBuf (applyMutation h b m).1 (applyMutation h b m).2 ∧
    ((storeOf (applyMutation h b m).1 (applyMutation h b m).2).isMut = true →
      (applyMutation h b m).2.size + 1 ≤
        (storeOf (applyMutation h b m).1 (applyMutation h b m).2).alloc ∧
      (storeOf (applyMutation h b m).1 (applyMutation h b m).2).bytes.getD
        (applyMutation h b m).2.size 0 = 0) := by
  have hwb := applyMutation_wf h b m hwf hpoke
  exact ⟨hwb, fun hm => (wf_mut_parts _ _ hwb hm).2⟩

theorem terminator_invariant_witness :
    WfBuf demoHeap demoBuf ∧
    (WfBuf (applyMutation demoHeap demoBuf (Mutation.append (some [120]) 1)).1
        (applyMutation demoHeap demoBuf (Mutation.append (some [120]) 1)).2 ∧
      ((storeOf (applyMutation demoHeap demoBuf (Mutation.append (some [120]) 1)).1
            (applyMutation demoHeap demoBuf (Mutation.append (some [120]) 1)).2).isMut = true →
        (applyMutation demoHeap demoBuf (Mutation.append (some [120]) 1)).2.size + 1 ≤
          (storeOf (applyMutation demoHeap demoBuf (Mutation.append (some [120]) 1)).1
            (applyMutation demoHeap demoBuf (Mutation.append (some [120]) 1)).2).alloc ∧
        (storeOf (applyMutation demoHeap demoBuf (Mutation.append (some [120]) 1)).1
            (applyMutation demoHeap demoBuf (Mutation.append (some [120]) 1)).2).bytes.getD
          (applyMutation demoHeap demoBuf (Mutation.append (some [120]) 1)).2.size 0 = 0)) :=
  ⟨by decide, terminator_invariant demoHeap demoBuf (Mutation.append (some [120]) 1)
    (by decide) (fun j v hc => nomatch hc)⟩

theorem insertB_gap (h : Heap) (b : Buffer) (pos : Int) (data : List Nat) (len : Int)
    (hwf : WfBuf h b) (hlen0 : 0 < len) (hpos : (b.size : Int) < pos)
    (hdata : len.toNat ≤ data.length) :
    readBuf (insertB h b pos (some data) len).1 (insertB h b pos (some data) len).2 =
      readBuf h b ++ List.replicate (pos.toNat - b.size) 0x20 ++ data.take len.toNat ∧
    (insertB h b pos (some data) len).2.size = pos.toNat + len.toNat := by
  have hp : b.size < pos.toNat := by omega
  have hl : 0 < len.toNat := by omega
  have hno : ¬(pos < 0 ∨ len ≤ 0 ∨ (some data : Option (List Nat)) = none) := by
    push_neg
    refine ⟨by omega, by omega, by simp⟩
  unfold insertB
  rw [if_neg hno]
  have hspec := resizeB_spec h b ((max pos.toNat b.size + len.toNat : Nat) : Int) hwf
  have hmut := resizeB_mut h b ((max pos.toNat b.size + len.toNat : Nat) : Int) hwf
  have hparts := wf_mut_parts _ _ hspec.1 hmut
  have hrsz : (resizeB h b ((max pos.toNat b.size + len.toNat : Nat) : Int)).2.size =
      pos.toNat + len.toNat := by
    rw [hspec.2.1, sizeClamp_coe]
    omega
  have hpre : (storeOf (resizeB h b ((max pos.toNat b.size + len.toNat : Nat) : Int)).1
        (resizeB h b ((max pos.toNat b.size + len.toNat : Nat) : Int)).2).bytes.take b.size =
      (storeOf h b).bytes.take b.size := by
    have hmin : min b.size (sizeClamp ((max pos.toNat b.size + len.toNat : Nat) : Int)) =
        b.size := by
      rw [sizeClamp_coe]
      omega
    have := hspec.2.2
    rw [hmin] at this
    exact this
  have hblen : pos.toNat + len.toNat ≤
      (storeOf (resizeB h b ((max pos.toNat b.size + len.toNat : Nat) : Int)).1
        (resizeB h b ((max pos.toNat b.size + len.toNat : Nat) : Int)).2).bytes.length := by
    omega
  simp only [insertFinish, Option.getD]
  rw [if_pos hp]
  refine ⟨?_, hrsz⟩
  unfold readBuf
  have hsid := hspec.1.1
  have hst : storeOf (updBytes
      (resizeB h b ((max pos.toNat b.size + len.toNat : Nat) : Int)).1
      (resizeB h b ((max pos.toNat b.size + len.toNat : Nat) : Int)).2.sid
      (writeRange
        (writeRange (storeOf (resizeB h b ((max pos.toNat b.size + len.toNat : Nat) : Int)).1
            (resizeB h b ((max pos.toNat b.size + len.toNat : Nat) : Int)).2).bytes
          b.size (List.replicate (pos.toNat - b.size) 0x20))
        pos.toNat (readBytes data len.toNat)))
      (resizeB h b ((max pos.toNat b.size + len.toNat : Nat) : Int)).2 =
      { storeOf (resizeB h b ((max pos.toNat b.size + len.toNat : Nat) : Int)).1
          (resizeB h b ((max pos.toNat b.size + len.toNat : Nat) : Int)).2 with
        bytes := writeRange
          (writeRange (storeOf (resizeB h b ((max pos.toNat b.size + len.toNat : Nat) : Int)).1
              (resizeB h b ((max pos.toNat b.size + len.toNat : Nat) : Int)).2).bytes
            b.size (List.replicate (pos.toNat - b.size) 0x20))
          pos.toNat (readBytes data len.toNat) } := by
    unfold storeOf updBytes
    exact storeAt_set_self _ _ _ hsid
  rw [hst]
  simp only
  rw [hrsz]
  rw [readBytes_of_le data len.toNat hdata]
  have hxlen : (writeRange (storeOf (resizeB h b
        ((max pos.toNat b.size + len.toNat : Nat) : Int)).1
        (resizeB h b ((max pos.toNat b.size + len.toNat : Nat) : Int)).2).bytes
      b.size (List.replicate (pos.toNat - b.size) 0x20)).length =
      (storeOf (resizeB h b ((max pos.toNat b.size + len.toNat : Nat) : Int)).1
        (resizeB h b ((max pos.toNat b.size + len.toNat : Nat) : Int)).2).bytes.length := by
    rw [length_writeRange]
    simp only [List.length_replicate]
    omega
  have htl : (data.take len.toNat).length = len.toNat := by
    rw [List.length_take]
    omega
  rw [writeRange_take_at _ _ _ _ (by rw [htl]) (by omega)]
  rw [writeRange_take_at _ _ _ _ (by simp only [List.length_replicate]; omega) (by omega)]
  rw [hpre]

theorem insertCountB_gap (h : Heap) (b : Buffer) (i count : Int) (ch : Nat)
    (hwf : WfBuf h b) (hcount0 : 0 < count) (hpos : (b.size : Int) < i) :
    readBuf (insertCountB h b i count ch).1 (insertCountB h b i count ch).2 =
      readBuf h b ++ List.replicate (i.toNat - b.size) 0x20 ++
        List.replicate count.toNat ch ∧
    (insertCountB h b i count ch).2.size = i.toNat + count.toNat := by
  have hp : b.size < i.toNat := by omega
  have hno : ¬(i < 0 ∨ count ≤ 0) := by
    push_neg
    omega
  unfold insertCountB
  rw [if_neg hno]
  have hspec := resizeB_spec h b ((max i.toNat b.size + count.toNat : Nat) : Int) hwf
  have hmut := resizeB_mut h b ((max i.toNat b.size + count.toNat : Nat) : Int) hwf
  have hparts := wf_mut_parts _ _ hspec.1 hmut
  have hrsz : (resizeB h b ((max i.toNat b.size + count.toNat : Nat) : Int)).2.size =
      i.toNat + count.toNat := by
    rw [hspec.2.1, sizeClamp_coe]
    omega
  have hpre : (storeOf (resizeB h b ((max i.toNat b.size + count.toNat : Nat) : Int)).1
        (resizeB h b ((max i.toNat b.size + count.toNat : Nat) : Int)).2).bytes.take b.size =
      (storeOf h b).bytes.take b.size := by
    have hmin : min b.size (sizeClamp ((max i.toNat b.size + count.toNat : Nat) : Int)) =
        b.size := by
      rw [sizeClamp_coe]
      omega
    have := hspec.2.2
    rw [hmin] at this
    exact this
  have hblen : i.toNat + count.toNat ≤
      (storeOf (resizeB h b ((max i.toNat b.size + count.toNat : Nat) : Int)).1
        (resizeB h b ((max i.toNat b.size + count.toNat : Nat) : Int)).2).bytes.length := by
    omega
  simp only [insertCountFinish]
  rw [if_pos hp]
  refine ⟨?_, hrsz⟩
  unfold readBuf
  have hsid := hspec.1.1
  have hst : storeOf (updBytes
      (resizeB h b ((max i.toNat b.size + count.toNat : Nat) : Int)).1
      (resizeB h b ((max i.toNat b.size + count.toNat : Nat) : Int)).2.sid
      (writeRange
        (writeRange (storeOf (resizeB h b ((max i.toNat b.size + count.toNat : Nat) : Int)).1
            (resizeB h b ((max i.toNat b.size + count.toNat : Nat) : Int)).2).bytes
          b.size (List.replicate (i.toNat - b.size) 0x20))
        i.toNat (List.replicate count.toNat ch)))
      (resizeB h b ((max i.toNat b.size + count.toNat : Nat) : Int)).2 =
      { storeOf (resizeB h b ((max i.toNat b.size + count.toNat : Nat) : Int)).1
          (resizeB h b ((max i.toNat b.size + count.toNat : Nat) : Int)).2 with
        bytes := writeRange
          (writeRange (storeOf (resizeB h b ((max i.toNat b.size + count.toNat : Nat) : Int)).1
              (resizeB h b ((max i.toNat b.size + count.toNat : Nat) : Int)).2).bytes
            b.size (List.replicate (i.toNat - b.size) 0x20))
          i.toNat (List.replicate count.toNat ch) } := by
    unfold storeOf updBytes
    exact storeAt_set_self _ _ _ hsid
  rw [hst]
  simp only
  rw [hrsz]
  have hxlen : (writeRange (storeOf (resizeB h b
        ((max i.toNat b.size + count.toNat : Nat) : Int)).1
        (resizeB h b ((max i.toNat b.size + count.toNat : Nat) : Int)).2).bytes
      b.size (List.replicate (i.toNat - b.size) 0x20)).length =
      (storeOf (resizeB h b ((max i.toNat b.size + count.toNat : Nat) : Int)).1
        (resizeB h b ((max i.toNat b.size + count.toNat : Nat) : Int)).2).bytes.length := by
    rw [length_writeRange]
    simp only [List.length_replicate]
    omega
  rw [writeRange_take_at _ _ _ _ (by simp only [List.length_replicate]) (by omega)]
  rw [writeRange_take_at _ _ _ _ (by simp only [List.length_replicate]; omega) (by omega)]
  rw [hpre]

/-- C6: insert semantics.  Calls with a negative position, a non-positive
length/count, or a null pointer leave the pair `(h, b)` exactly unchanged;
when the position lies beyond the current size, the result reads as the
old contents, then `pos - size` space bytes (0x20), then the inserted
bytes, with the new size `pos + len` — both for `insert(i, data, len)`
(`insertB`) and `insert(i, count, ch)` (`insertCountB`). -/

theorem insert_semantics (h : Heap) (b : Buffer) (pos : Int) (data : List Nat) (len : Int)
    (count : Int) (ch : Nat) (pos2 : Int) (arr2 : Option (List Nat)) (len2 : Int)
    (i2 count2 : Int) (ch2 : Nat)
    (hwf : WfBuf h b) (hpos : (b.size : Int) < pos) (hlen0 : 0 < len)
    (hdata : len.toNat ≤ data.length) (hcount0 : 0 < count)
    (hno1 : pos2 < 0 ∨ len2 ≤ 0 ∨ arr2 = none) (hno2 : i2 < 0 ∨ count2 ≤ 0) :
    insertB h b pos2 arr2 len2 = (h, b) ∧
    insertCountB h b i2 count2 ch2 = (h, b) ∧
    readBuf (insertB h b pos (some data) len).1 (insertB h b pos (some data) len).2 =
      readBuf h b ++ List.replicate (pos.toNat - b.size) 0x20 ++ data.take len.toNat ∧
    (insertB h b pos (some data) len).2.size = pos.toNat + len.toNat ∧
    readBuf (insertCountB h b pos count ch).1 (insertCountB h b pos count ch).2 =
      readBuf h b ++ List.replicate (pos.toNat - b.size) 0x20 ++
        List.replicate count.toNat ch ∧
    (insertCountB h b pos count ch).2.size = pos.toNat + count.toNat := by
  refine ⟨?_, ?_, (insertB_gap h b pos data len hwf hlen0 hpos hdata).1,
    (insertB_gap h b pos data len hwf hlen0 hpos hdata).2,
    (insertCountB_gap h b pos count ch hwf hcount0 hpos).1,
    (insertCountB_gap h b pos count ch hwf hcount0 hpos).2⟩
  · unfold insertB
    rw [if_pos hno1]
  · unfold insertCountB
    rw [if_pos hno2]

/-- C6 witness: inserting "xy" at position 5 of "abc" gives "abc  xy"
(two 0x20 gap bytes), and the no-op conditions return the input pair. -/

theorem insert_semantics_witness :
    insertB demoHeap demoBuf (-1) (some [1]) 1 = (demoHeap, demoBuf) ∧
    insertCountB demoHeap demoBuf (-1) 1 46 = (demoHeap, demoBuf) ∧
    readBuf (insertB demoHeap demoBuf 5 (some [120, 121]) 2).1
        (insertB demoHeap demoBuf 5 (some [120, 121]) 2).2 =
      readBuf demoHeap demoBuf ++ List.replicate 2 0x20 ++ [120, 121] ∧
    (insertB demoHeap demoBuf 5 (some [120, 121]) 2).2.size = 7 ∧
    readBuf (insertCountB demoHeap demoBuf 5 2 46).1
        (insertCountB demoHeap demoBuf 5 2 46).2 =
      readBuf demoHeap demoBuf ++ List.replicate 2 0x20 ++ List.replicate 2 46 ∧
    (insertCountB demoHeap demoBuf 5 2 46).2.size = 7 :=
  insert_semantics demoHeap demoBuf 5 [120, 121] 2 2 46 (-1) (some [1]) 1 (-1) 1 46
    (by decide) (by decide) (by decide) (by decide) (by decide)
    (Or.inl (by decide)) (Or.inl (by decide))

theorem readBytes_self (src : List Nat) : readBytes src src.length = src := by
  rw [readBytes_of_le _ _ (le_refl _)]
  simp

theorem readBytes_append (src : List Nat) (n : Nat) (h : src.length ≤ n) :
    readBytes src n = src ++ List.replicate (n - src.length) junkByte := by
  rw [readBytes, List.take_of_length_le h]

theorem writeRange_eq_parts (l : List Nat) (i : Nat) (vs : List Nat)
    (h : i + vs.length ≤ l.length) :
    writeRange l i vs = l.take i ++ vs ++ l.drop (i + vs.length) := rfl

theorem writeRange_append_exact (A B vs : List Nat) (i : Nat) (hi : i + vs.length = A.length) :
    writeRange (A ++ B) i vs = A.take i ++ vs ++ B := by
  unfold writeRange
  rw [List.take_append_of_le_length (by omega)]
  rw [hi, List.drop_left]

theorem batchStep_spec (d a X T : List Nat) (bsize k e j : Nat)
    (hba : bsize < a.length) (hb : 0 < bsize)
    (hj : j + bsize ≤ e) (he : e ≤ d.length)
    (hX : X.length = (k + 1) * (a.length - bsize)) :
    batchStep (d.take e ++ X ++ T) a a.length bsize j k e =
      (d.take j ++ ((d.take e ++ X).drop j).take (k * (a.length - bsize)) ++ a ++
        ((d.drop (j + bsize)).take (e - (j + bsize)) ++ T), j) := by
  have hte : (d.take e).length = e := by
    rw [List.length_take]
    omega
  have hmul : (k + 1) * (a.length - bsize) = k * (a.length - bsize) + (a.length - bsize) :=
    Nat.succ_mul k (a.length - bsize)
  have hS : readBytes ((d.take e ++ X ++ T).drop (j + bsize)) (e - (j + bsize)) =
      (d.drop (j + bsize)).take (e - (j + bsize)) := by
    rw [show d.take e ++ X ++ T = d.take e ++ (X ++ T) by simp]
    rw [List.drop_append_of_le_length (by omega)]
    rw [readBytes_of_le _ _ (by
      rw [List.length_append, List.length_drop, hte]
      omega)]
    rw [List.take_append_of_le_length (by rw [List.length_drop, hte])]
    rw [List.drop_take, List.take_take, Nat.min_self]
  unfold batchStep
  rw [if_pos (by omega)]
  rw [hS]
  have hSlen : ((d.drop (j + bsize)).take (e - (j + bsize))).length = e - (j + bsize) := by
    rw [List.length_take, List.length_drop]
    omega
  have hmove : writeRange (d.take e ++ X ++ T) (j + k * (a.length - bsize) + a.length)
      ((d.drop (j + bsize)).take (e - (j + bsize))) =
      (d.take e ++ X).take (j + k * (a.length - bsize) + a.length) ++
        ((d.drop (j + bsize)).take (e - (j + bsize)) ++ T) := by
    rw [show d.take e ++ X ++ T = (d.take e ++ X) ++ T by simp]
    rw [writeRange_append_exact (d.take e ++ X) T _ _ (by
      rw [List.length_append, hte, hSlen]
      omega)]
    simp [List.append_assoc]
  rw [hmove]
  have hPlen : ((d.take e ++ X).take (j + k * (a.length - bsize) + a.length)).length =
      j + k * (a.length - bsize) + a.length := by
    rw [List.length_take, List.length_append, hte]
    omega
  rw [readBytes_self]
  rw [writeRange_append_exact _ _ _ _ (by rw [hPlen])]
  rw [List.take_take]
  rw [Nat.min_eq_left (by omega)]
  rw [List.take_add]
  rw [List.take_append_of_le_length (by omega)]
  rw [List.take_take, Nat.min_eq_left (by omega)]

theorem chainEnd_le (bsize len : Nat) (J : List Nat) :
    ∀ lo, ChainOK bsize len lo J → lo ≤ chainEnd bsize lo J := by
  induction J with
  | nil =>
    intro lo _
    exact le_refl _
  | cons i rest ih =>
    intro lo hc
    obtain ⟨h1, h2, h3⟩ := hc
    have := ih (i + bsize) h3
    calc lo ≤ i + bsize := by omega
      _ ≤ chainEnd bsize (i + bsize) rest := this
      _ = chainEnd bsize lo (i :: rest) := rfl

theorem chainOK_append_last (bsize len : Nat) (J : List Nat) (j : Nat) :
    ∀ lo, ChainOK bsize len lo (J ++ [j]) →
      ChainOK bsize j lo J ∧ j + bsize ≤ len ∧ chainEnd bsize lo J ≤ j := by
  induction J with
  | nil =>
    intro lo hc
    obtain ⟨h1, h2, -⟩ := hc
    exact ⟨trivial, h2, h1⟩
  | cons i rest ih =>
    intro lo hc
    obtain ⟨h1, h2, h3⟩ := hc
    obtain ⟨hc1, hc2, hc3⟩ := ih (i + bsize) h3
    have hend := chainEnd_le bsize j rest (i + bsize) hc1
    exact ⟨⟨h1, by omega, hc1⟩, hc2, hc3⟩

theorem headD_append_last (J : List Nat) (j e : Nat) :
    (J ++ [j]).headD e = J.headD j := by
  cases J <;> rfl

theorem builtSeg_append_last (d a : List Nat) (bsize : Nat) (J : List Nat) (j : Nat) :
    ∀ e0 e, builtSeg d a bsize e0 e (J ++ [j]) =
      builtSeg d a bsize e0 j J ++ a ++ (d.drop (j + bsize)).take (e - (j + bsize)) := by
  induction J with
  | nil =>
    intro e0 e
    simp [builtSeg, List.append_assoc]
  | cons i rest ih =>
    intro e0 e
    simp only [List.cons_append, builtSeg, List.append_eq]
    rw [ih]
    simp [List.append_assoc]

theorem revEnum_append_last (J : List Nat) (j : Nat) :
    (((J ++ [j]).zip (List.range (J.length + 1))).reverse) =
      (j, J.length) :: ((J.zip (List.range J.length)).reverse) := by
  rw [List.range_succ]
  rw [List.zip_append (by simp)]
  rw [List.reverse_append]
  simp

theorem batchLoop_spec (d a : List Nat) (bsize : Nat) (hba : bsize < a.length)
    (hb : 0 < bsize) (J : List Nat) :
    ∀ (X T : List Nat) (e lo : Nat), ChainOK bsize e lo J → e ≤ d.length →
      X.length = J.length * (a.length - bsize) →
      batchLoop a a.length bsize ((J.zip (List.range J.length)).reverse)
        (d.take e ++ X ++ T) e =
      d.take (J.headD e) ++ builtSeg d a bsize (J.headD e) e J ++ T := by
  induction J using List.reverseRecOn with
  | nil =>
    intro X T e lo hc he hX
    have hX0 : X = [] := List.eq_nil_of_length_eq_zero (by simpa using hX)
    subst hX0
    simp [batchLoop, builtSeg]
  | append_singleton J j ih =>
    intro X T e lo hc he hX
    obtain ⟨hcJ, hjb, hend⟩ := chainOK_append_last bsize e J j lo hc
    rw [show (J ++ [j]).length = J.length + 1 by simp]
    rw [revEnum_append_last]
    simp only [batchLoop]
    rw [batchStep_spec d a X T bsize J.length e j hba hb hjb he (by simpa using hX)]
    have hmul : (J.length + 1) * (a.length - bsize) =
        J.length * (a.length - bsize) + (a.length - bsize) :=
      Nat.succ_mul J.length (a.length - bsize)
    have hXl : X.length = J.length * (a.length - bsize) + (a.length - bsize) := by
      rw [List.length_append, List.length_singleton] at hX
      omega
    have hXlen : (((d.take e ++ X).drop j).take (J.length * (a.length - bsize))).length =
        J.length * (a.length - bsize) := by
      rw [List.length_take, List.length_drop, List.length_append, List.length_take,
        Nat.min_eq_left he]
      omega
    have hcJ2 : ChainOK bsize j lo J := hcJ
    have := ih (((d.take e ++ X).drop j).take (J.length * (a.length - bsize)))
      (a ++ ((d.drop (j + bsize)).take (e - (j + bsize)) ++ T)) j lo hcJ2 (by omega) hXlen
    rw [show d.take j ++ ((d.take e ++ X).drop j).take (J.length * (a.length - bsize)) ++ a ++
        ((d.drop (j + bsize)).take (e - (j + bsize)) ++ T) =
        d.take j ++ ((d.take e ++ X).drop j).take (J.length * (a.length - bsize)) ++
          (a ++ ((d.drop (j + bsize)).take (e - (j + bsize)) ++ T)) by
      simp [List.append_assoc]]
    rw [this]
    rw [headD_append_last]
    rw [builtSeg_append_last]
    simp [List.append_assoc]

theorem growPass_spec (d a : List Nat) (bsize : Nat) (I : List Nat) (lo : Nat)
    (hba : bsize < a.length) (hb : 0 < bsize) (hI : I ≠ [])
    (hc : ChainOK bsize d.length lo I) :
    growPassApply a bsize a.length d d.length I =
      d.take (I.headD d.length) ++ builtSeg d a bsize (I.headD d.length) d.length I := by
  unfold growPassApply
  rw [if_pos (by
    have h1 : 0 < I.length := List.length_pos.mpr hI
    have h2 : 0 < a.length - bsize := by omega
    have := Nat.mul_pos h1 h2
    omega)]
  rw [readBytes_append d _ (by omega)]
  rw [show d.length + I.length * (a.length - bsize) - d.length =
    I.length * (a.length - bsize) by omega]
  have hbl := batchLoop_spec d a bsize hba hb I
    (List.replicate (I.length * (a.length - bsize)) junkByte) [] d.length lo hc
    (le_refl _) (by simp)
  rw [show d ++ List.replicate (I.length * (a.length - bsize)) junkByte =
    d.take d.length ++ List.replicate (I.length * (a.length - bsize)) junkByte ++ [] by
    simp]
  rw [hbl]
  simp

theorem idxGo_some (s pat : List Nat) :
    ∀ fuel i j, idxGo s pat fuel i = some j →
      i ≤ j ∧ j < i + fuel ∧ matchAt s pat j = true := by
  intro fuel
  induction fuel with
  | zero =>
    intro i j h
    simp [idxGo] at h
  | succ f ih =>
    intro i j h
    simp only [idxGo] at h
    split at h
    · cases h
      exact ⟨le_refl _, by omega, by assumption⟩
    · obtain ⟨h1, h2, h3⟩ := ih (i + 1) j h
      exact ⟨by omega, by omega, h3⟩

theorem matchAt_bound (s pat : List Nat) (j : Nat) (h : matchAt s pat j = true) :
    j + pat.length ≤ s.length := by
  unfold matchAt at h
  simp at h
  exact h.1

theorem indexOfFrom_some (s pat : List Nat) (start j : Nat)
    (h : indexOfFrom s pat start = some j) :
    start ≤ j ∧ matchAt s pat j = true ∧ j + pat.length ≤ s.length := by
  obtain ⟨h1, h2, h3⟩ := idxGo_some s pat _ _ _ h
  exact ⟨h1, h3, matchAt_bound s pat j h3⟩

theorem indexOfFrom_high (s pat : List Nat) (start : Nat) (h : s.length < start) :
    indexOfFrom s pat start = none := by
  unfold indexOfFrom
  rw [show s.length + 1 - start = 0 by omega]
  rfl

theorem matchListGo_high (s pat : List Nat) (bsize : Nat) (start : Nat)
    (h : s.length < start) : ∀ F, matchListGo s pat bsize F start = [] := by
  intro F
  cases F with
  | zero => rfl
  | succ f =>
    simp only [matchListGo]
    rw [indexOfFrom_high s pat start h]

theorem matchListGo_fuel (s pat : List Nat) (bsize : Nat) (hb : 0 < bsize) :
    ∀ F F' index, s.length + 1 - index ≤ F → s.length + 1 - index ≤ F' →
      matchListGo s pat bsize F index = matchListGo s pat bsize F' index := by
  intro F
  induction F with
  | zero =>
    intro F' index h1 h2
    have hidx : s.length < index := by omega
    rw [matchListGo_high s pat bsize index hidx, matchListGo_high s pat bsize index hidx]
  | succ f ih =>
    intro F' index h1 h2
    by_cases hidx : s.length < index
    · rw [matchListGo_high s pat bsize index hidx, matchListGo_high s pat bsize index hidx]
    · push_neg at hidx
      cases F' with
      | zero => omega
      | succ f2 =>
        simp only [matchListGo]
        cases hio : indexOfFrom s pat index with
        | none => simp only [hio]
        | some j =>
          obtain ⟨hj1, -, -⟩ := indexOfFrom_some s pat index j hio
          have hrec := ih f2 (j + bsize) (by omega) (by omega)
          simp only [hio]
          rw [hrec]

theorem matchListGo_chain (s pat : List Nat) (hb : 0 < pat.length) :
    ∀ F index, ChainOK pat.length s.length index
      (matchListGo s pat pat.length F index) := by
  intro F
  induction F with
  | zero =>
    intro index
    trivial
  | succ f ih =>
    intro index
    simp only [matchListGo]
    cases hio : indexOfFrom s pat index with
    | none =>
      simp only [hio]
      trivial
    | some j =>
      obtain ⟨hj1, -, hj3⟩ := indexOfFrom_some s pat index j hio
      simp only [hio]
      exact ⟨hj1, hj3, ih (j + pat.length)⟩

theorem collectGo_spec (s pat : List Nat) (hb : 0 < pat.length) :
    ∀ room index,
      (collectGo s pat pat.length room index).1.length ≤ room ∧
      ChainOK pat.length s.length index (collectGo s pat pat.length room index).1 ∧
      ((collectGo s pat pat.length room index).2 = none →
        matchListGo s pat pat.length (s.length + 1) index =
          (collectGo s pat pat.length room index).1) ∧
      (∀ nxt, (collectGo s pat pat.length room index).2 = some nxt →
        (collectGo s pat pat.length room index).1.length = room ∧
        index ≤ nxt ∧
        nxt = chainEnd pat.length index (collectGo s pat pat.length room index).1 ∧
        matchListGo s pat pat.length (s.length + 1) index =
          (collectGo s pat pat.length room index).1 ++
            matchListGo s pat pat.length (s.length + 1) nxt) := by
  intro room
  induction room with
  | zero =>
    intro index
    refine ⟨le_refl _, trivial, ?_, ?_⟩
    · intro h
      cases h
    · intro nxt hn
      simp only [collectGo] at hn ⊢
      cases hn
      exact ⟨rfl, le_refl _, rfl, by simp⟩
  | succ r ih =>
    intro index
    cases hio : indexOfFrom s pat index with
    | none =>
      have hcol : collectGo s pat pat.length (r + 1) index = ([], none) := by
        simp only [collectGo, hio]
      rw [hcol]
      refine ⟨by simp, trivial, ?_, ?_⟩
      · intro _
        simp only [matchListGo, hio]
      · intro nxt hn
        cases hn
    | some j =>
      obtain ⟨hj1, hj2, hj3⟩ := indexOfFrom_some s pat index j hio
      have hifz : (j + pat.length + if pat.length = 0 then 1 else 0) = j + pat.length := by
        rw [if_neg (by omega)]
        omega
      rcases hcg : collectGo s pat pat.length r (j + pat.length) with ⟨rest, idx2⟩
      have hcol : collectGo s pat pat.length (r + 1) index = (j :: rest, idx2) := by
        simp only [collectGo, hio, hifz, hcg]
      obtain ⟨ih1, ih2, ih3, ih4⟩ := ih (j + pat.length)
      rw [hcg] at ih1 ih2 ih3 ih4
      simp only at ih1 ih2 ih3 ih4
      have hfuel : matchListGo s pat pat.length s.length (j + pat.length) =
          matchListGo s pat pat.length (s.length + 1) (j + pat.length) :=
        matchListGo_fuel s pat pat.length hb s.length (s.length + 1) (j + pat.length)
          (by omega) (by omega)
      have hml : matchListGo s pat pat.length (s.length + 1) index =
          j :: matchListGo s pat pat.length (s.length + 1) (j + pat.length) := by
        rw [matchListGo, hio]
        exact congrArg (fun t => j :: t) hfuel
      rw [hcol]
      refine ⟨by simp; omega, ⟨hj1, hj3, ih2⟩, ?_, ?_⟩
      · intro hn
        simp only at hn
        rw [hml, ih3 hn]
      · intro nxt hn
        simp only at hn
        obtain ⟨g1, g2, g3, g4⟩ := ih4 nxt hn
        refine ⟨by simp [g1], by omega, ?_, ?_⟩
        · show nxt = chainEnd pat.length (j + pat.length) rest
          exact g3
        · rw [hml, g4]
          simp

theorem chainOK_cap (bsize len : Nat) (I : List Nat) :
    ∀ lo, ChainOK bsize len lo I → ChainOK bsize (chainEnd bsize lo I) lo I := by
  induction I with
  | nil =>
    intro lo _
    trivial
  | cons i rest ih =>
    intro lo hc
    obtain ⟨h1, h2, h3⟩ := hc
    have hend := chainEnd_le bsize len rest (i + bsize) h3
    exact ⟨h1, by
      show i + bsize ≤ chainEnd bsize (i + bsize) rest
      omega, ih (i + bsize) h3⟩

theorem builtSeg_split (d a : List Nat) (bsize : Nat) (I M : List Nat) :
    ∀ e0 e, builtSeg d a bsize e0 e (I ++ M) =
      builtSeg d a bsize e0 (chainEnd bsize e0 I) I ++
        builtSeg d a bsize (chainEnd bsize e0 I) e M := by
  induction I with
  | nil =>
    intro e0 e
    simp [builtSeg, chainEnd]
  | cons i rest ih =>
    intro e0 e
    simp only [List.cons_append, builtSeg, chainEnd, List.append_eq]
    rw [ih]
    simp [List.append_assoc]

theorem builtSeg_length (d a : List Nat) (bsize : Nat) (hba : bsize < a.length)
    (I : List Nat) :
    ∀ e0 e, ChainOK bsize e e0 I → e0 ≤ e → e ≤ d.length →
      (builtSeg d a bsize e0 e I).length = (e - e0) + I.length * (a.length - bsize) := by
  induction I with
  | nil =>
    intro e0 e _ h1 h2
    simp only [builtSeg, List.length_take, List.length_drop, List.length_nil, Nat.zero_mul]
    omega
  | cons i rest ih =>
    intro e0 e hc h1 h2
    obtain ⟨hc1, hc2, hc3⟩ := hc
    simp only [builtSeg, List.length_append, List.length_take, List.length_drop]
    rw [ih (i + bsize) e hc3 (by omega) h2]
    have hmul : (rest.length + 1) * (a.length - bsize) =
        rest.length * (a.length - bsize) + (a.length - bsize) :=
      Nat.succ_mul rest.length (a.length - bsize)
    simp only [List.length_cons]
    omega

theorem drop_shift (A B : List Nat) (c adj : Nat) (hdrop : B.drop (c + adj) = A.drop c)
    (q : Nat) (hq : c ≤ q) : B.drop (q + adj) = A.drop q := by
  have h1 : B.drop (q + adj) = (B.drop (c + adj)).drop (q - c) := by
    rw [List.drop_drop]
    congr 1
    omega
  rw [h1, hdrop, List.drop_drop]
  congr 1
  omega

theorem matchAt_shift (A B pat : List Nat) (c adj : Nat)
    (hdrop : B.drop (c + adj) = A.drop c) (hlen : B.length = A.length + adj)
    (q : Nat) (hq : c ≤ q) : matchAt B pat (q + adj) = matchAt A pat q := by
  unfold matchAt
  rw [drop_shift A B c adj hdrop q hq, hlen]
  congr 1
  exact decide_eq_decide.mpr ⟨fun h => by omega, fun h => by omega⟩

theorem idxGo_shift (A B pat : List Nat) (c adj : Nat)
    (hdrop : B.drop (c + adj) = A.drop c) (hlen : B.length = A.length + adj) :
    ∀ fuel q, c ≤ q →
      idxGo B pat fuel (q + adj) = (idxGo A pat fuel q).map (fun t => t + adj) := by
  intro fuel
  induction fuel with
  | zero =>
    intro q hq
    rfl
  | succ f ih =>
    intro q hq
    simp only [idxGo]
    rw [matchAt_shift A B pat c adj hdrop hlen q hq]
    by_cases hm : matchAt A pat q = true
    · rw [if_pos hm, if_pos hm]
      rfl
    · rw [if_neg hm, if_neg hm]
      rw [show q + adj + 1 = (q + 1) + adj by omega]
      exact ih (q + 1) (by omega)

theorem indexOfFrom_shift (A B pat : List Nat) (c adj : Nat)
    (hdrop : B.drop (c + adj) = A.drop c) (hlen : B.length = A.length + adj)
    (q : Nat) (hq : c ≤ q) :
    indexOfFrom B pat (q + adj) = (indexOfFrom A pat q).map (fun t => t + adj) := by
  unfold indexOfFrom
  rw [hlen, show A.length + adj + 1 - (q + adj) = A.length + 1 - q by omega]
  exact idxGo_shift A B pat c adj hdrop hlen _ q hq

theorem matchListGo_shift (A B pat : List Nat) (bsize c adj : Nat)
    (hdrop : B.drop (c + adj) = A.drop c) (hlen : B.length = A.length + adj) :
    ∀ F q, c ≤ q →
      matchListGo B pat bsize F (q + adj) =
        (matchListGo A pat bsize F q).map (fun t => t + adj) := by
  intro F
  induction F with
  | zero =>
    intro q hq
    rfl
  | succ f ih =>
    intro q hq
    simp only [matchListGo]
    rw [indexOfFrom_shift A B pat c adj hdrop hlen q hq]
    cases hio : indexOfFrom A pat q with
    | none => rfl
    | some j =>
      obtain ⟨hj1, -, -⟩ := indexOfFrom_some A pat q j hio
      rw [show Option.map (fun t => t + adj) (some j) = some (j + adj) from rfl]
      simp only
      rw [show j + adj + bsize = (j + bsize) + adj by omega]
      rw [ih (j + bsize) (by omega)]
      rfl

theorem builtSeg_shift (A B a : List Nat) (bsize c adj L : Nat)
    (hdrop : B.drop (c + adj) = A.drop c) (M : List Nat) :
    ∀ e0 e, c ≤ e0 → ChainOK bsize L e0 M →
      builtSeg B a bsize (e0 + adj) (e + adj) (M.map (fun t => t + adj)) =
        builtSeg A a bsize e0 e M := by
  induction M with
  | nil =>
    intro e0 e he0 _
    simp only [List.map_nil, builtSeg]
    rw [drop_shift A B c adj hdrop e0 he0]
    congr 1
    omega
  | cons j rest ih =>
    intro e0 e he0 hc
    obtain ⟨hc1, hc2, hc3⟩ := hc
    simp only [List.map_cons, builtSeg]
    rw [drop_shift A B c adj hdrop e0 he0]
    rw [show j + adj - (e0 + adj) = j - e0 by omega]
    rw [show j + adj + bsize = (j + bsize) + adj by omega]
    rw [ih (j + bsize) e (by omega) hc3]

theorem take_merge (d : List Nat) (index i0 : Nat) (h : index ≤ i0) :
    d.take index ++ (d.drop index).take (i0 - index) = d.take i0 := by
  conv_rhs => rw [show i0 = index + (i0 - index) by omega, List.take_add]

theorem chainEnd_le_cap (bsize L : Nat) (I : List Nat) :
    ∀ lo, ChainOK bsize L lo I → I ≠ [] → chainEnd bsize lo I ≤ L := by
  induction I with
  | nil =>
    intro lo _ h
    exact absurd rfl h
  | cons i rest ih =>
    intro lo hc _
    obtain ⟨h1, h2, h3⟩ := hc
    cases rest with
    | nil =>
      show chainEnd bsize (i + bsize) [] ≤ L
      simpa [chainEnd] using h2
    | cons r rs =>
      show chainEnd bsize (i + bsize) (r :: rs) ≤ L
      exact ih (i + bsize) h3 (by simp)

theorem builtSeg_prefix_merge (d a : List Nat) (bsize : Nat) (index e i0 : Nat)
    (I2 : List Nat) (h : index ≤ i0) :
    d.take index ++ builtSeg d a bsize index e (i0 :: I2) =
      d.take i0 ++ builtSeg d a bsize i0 e (i0 :: I2) := by
  simp only [builtSeg]
  rw [Nat.sub_self, List.take_zero]
  rw [show d.take index ++ ((d.drop index).take (i0 - index) ++ a ++
      builtSeg d a bsize (i0 + bsize) e I2) =
    (d.take index ++ (d.drop index).take (i0 - index)) ++ a ++
      builtSeg d a bsize (i0 + bsize) e I2 by simp [List.append_assoc]]
  rw [take_merge d index i0 h]
  simp [List.append_assoc]

theorem growLoop_eq (pat a : List Nat) (hb : 0 < pat.length) (hba : pat.length < a.length) :
    ∀ fuel (d : List Nat) (index : Nat),
      (matchListGo d pat pat.length (d.length + 1) index).length ≤ 4095 * fuel →
      replaceGrowLoop pat a pat.length a.length fuel d d.length (some index) =
        d.take index ++
          builtSeg d a pat.length index d.length
            (matchListGo d pat pat.length (d.length + 1) index) := by
  intro fuel
  induction fuel with
  | zero =>
    intro d index hML
    have hnil : matchListGo d pat pat.length (d.length + 1) index = [] :=
      List.eq_nil_of_length_eq_zero (by omega)
    rw [hnil]
    simp only [replaceGrowLoop, builtSeg]
    rw [show (d.drop index).take (d.length - index) = d.drop index from
      List.take_of_length_le (by rw [List.length_drop])]
    rw [List.take_append_drop]
  | succ f ih =>
    intro d index hML
    rcases hcg : collectGo d pat pat.length 4095 index with ⟨I, o⟩
    obtain ⟨cg1, cg2, cg3, cg4⟩ := collectGo_spec d pat hb 4095 index
    rw [hcg] at cg1 cg2 cg3 cg4
    simp only at cg1 cg2 cg3 cg4
    have hunf : replaceGrowLoop pat a pat.length a.length (f + 1) d d.length (some index) =
        if I.length = 0 then d
        else
          replaceGrowLoop pat a pat.length a.length f
            (growPassApply a pat.length a.length d d.length I)
            (d.length + I.length * (a.length - pat.length))
            (o.map (fun j => j + I.length * (a.length - pat.length))) := by
      simp only [replaceGrowLoop, hcg]
    by_cases hI : I.length = 0
    · have hInil : I = [] := List.eq_nil_of_length_eq_zero hI
      subst hInil
      have honone : o = none := by
        cases ho : o with
        | none => rfl
        | some nxt =>
          obtain ⟨g1, -, -, -⟩ := cg4 nxt ho
          simp at g1
      subst honone
      rw [hunf, if_pos hI]
      rw [cg3 rfl]
      simp only [builtSeg]
      rw [show (d.drop index).take (d.length - index) = d.drop index from
        List.take_of_length_le (by rw [List.length_drop])]
      rw [List.take_append_drop]
    · rcases hIc : I with _ | ⟨i0, I2⟩
      · subst hIc
        exact absurd rfl hI
      subst hIc
      have hi0 : index ≤ i0 := cg2.1
      have hpass := growPass_spec d a pat.length (i0 :: I2) index hba hb (by simp) cg2
      rw [hunf, if_neg hI]
      cases ho : o with
      | none =>
        rw [show Option.map (fun j => j + (i0 :: I2).length * (a.length - pat.length))
            (none : Option Nat) = (none : Option Nat) from rfl]
        rw [show replaceGrowLoop pat a pat.length a.length f
            (growPassApply a pat.length a.length d d.length (i0 :: I2))
            (d.length + (i0 :: I2).length * (a.length - pat.length)) none =
          growPassApply a pat.length a.length d d.length (i0 :: I2) by
            cases f <;> rfl]
        rw [hpass]
        rw [cg3 ho]
        simp only [List.headD]
        rw [builtSeg_prefix_merge d a pat.length index d.length i0 I2 hi0]
      | some nxt =>
        obtain ⟨g1, g2, g3, g4⟩ := cg4 nxt ho
        have hnxtle : nxt ≤ d.length := by
          rw [g3]
          exact chainEnd_le_cap pat.length d.length (i0 :: I2) index cg2 (by simp)
        have hcap : ChainOK pat.length nxt index (i0 :: I2) := by
          rw [g3]
          exact chainOK_cap pat.length d.length (i0 :: I2) index cg2
        have hcapi0 : ChainOK pat.length nxt i0 (i0 :: I2) :=
          ⟨le_refl _, hcap.2.1, hcap.2.2⟩
        have hEndIrrel : chainEnd pat.length i0 (i0 :: I2) =
            chainEnd pat.length index (i0 :: I2) := rfl
        have hi0nxt : i0 ≤ nxt := by
          rw [g3, ← hEndIrrel]
          exact chainEnd_le pat.length nxt (i0 :: I2) i0 hcapi0
        have hi0d : i0 ≤ d.length := le_trans hi0nxt hnxtle
        have hsplit1 : builtSeg d a pat.length i0 d.length (i0 :: I2) =
            builtSeg d a pat.length i0 nxt (i0 :: I2) ++
              (d.drop nxt).take (d.length - nxt) := by
          have hs := builtSeg_split d a pat.length (i0 :: I2) [] i0 d.length
          rw [List.append_nil] at hs
          rw [hs, hEndIrrel, ← g3]
          rfl
        have htail : (d.drop nxt).take (d.length - nxt) = d.drop nxt :=
          List.take_of_length_le (by rw [List.length_drop])
        have hPlen : (d.take i0 ++ builtSeg d a pat.length i0 nxt (i0 :: I2)).length =
            nxt + (i0 :: I2).length * (a.length - pat.length) := by
          rw [List.length_append, List.length_take,
            builtSeg_length d a pat.length hba (i0 :: I2) i0 nxt hcapi0 hi0nxt hnxtle,
            Nat.min_eq_left hi0d]
          omega
        have hd2 : growPassApply a pat.length a.length d d.length (i0 :: I2) =
            (d.take i0 ++ builtSeg d a pat.length i0 nxt (i0 :: I2)) ++ d.drop nxt := by
          rw [hpass]
          simp only [List.headD]
          rw [hsplit1, htail]
          simp [List.append_assoc]
        have hlen2 : ((d.take i0 ++ builtSeg d a pat.length i0 nxt (i0 :: I2)) ++
            d.drop nxt).length =
            d.length + (i0 :: I2).length * (a.length - pat.length) := by
          rw [List.length_append, hPlen, List.length_drop]
          omega
        have hdrop2 : ((d.take i0 ++ builtSeg d a pat.length i0 nxt (i0 :: I2)) ++
            d.drop nxt).drop (nxt + (i0 :: I2).length * (a.length - pat.length)) =
            d.drop nxt := by
          rw [← hPlen]
          exact List.drop_left _ _
        have htake2 : ((d.take i0 ++ builtSeg d a pat.length i0 nxt (i0 :: I2)) ++
            d.drop nxt).take (nxt + (i0 :: I2).length * (a.length - pat.length)) =
            d.take i0 ++ builtSeg d a pat.length i0 nxt (i0 :: I2) := by
          rw [← hPlen]
          exact List.take_left _ _
        have hshift := matchListGo_shift d
          ((d.take i0 ++ builtSeg d a pat.length i0 nxt (i0 :: I2)) ++ d.drop nxt)
          pat pat.length nxt ((i0 :: I2).length * (a.length - pat.length)) hdrop2
          (by rw [hlen2])
          (((d.take i0 ++ builtSeg d a pat.length i0 nxt (i0 :: I2)) ++
            d.drop nxt).length + 1) nxt (le_refl _)
        have hfuel2 : matchListGo d pat pat.length
            (((d.take i0 ++ builtSeg d a pat.length i0 nxt (i0 :: I2)) ++
              d.drop nxt).length + 1) nxt =
            matchListGo d pat pat.length (d.length + 1) nxt :=
          matchListGo_fuel d pat pat.length hb _ _ nxt (by rw [hlen2]; omega) (by omega)
        have hMLn : (matchListGo d pat pat.length (d.length + 1) nxt).length ≤ 4095 * f := by
          rw [g4, List.length_append, g1] at hML
          omega
        have hML2 : (matchListGo
            ((d.take i0 ++ builtSeg d a pat.length i0 nxt (i0 :: I2)) ++ d.drop nxt)
            pat pat.length
            (((d.take i0 ++ builtSeg d a pat.length i0 nxt (i0 :: I2)) ++
              d.drop nxt).length + 1)
            (nxt + (i0 :: I2).length * (a.length - pat.length))).length ≤ 4095 * f := by
          rw [hshift, hfuel2, List.length_map]
          exact hMLn
        rw [hd2]
        rw [show Option.map (fun j => j + (i0 :: I2).length * (a.length - pat.length))
            (some nxt) = some (nxt + (i0 :: I2).length * (a.length - pat.length)) from rfl]
        rw [show d.length + (i0 :: I2).length * (a.length - pat.length) =
          ((d.take i0 ++ builtSeg d a pat.length i0 nxt (i0 :: I2)) ++ d.drop nxt).length
          from hlen2.symm]
        rw [ih ((d.take i0 ++ builtSeg d a pat.length i0 nxt (i0 :: I2)) ++ d.drop nxt)
          (nxt + (i0 :: I2).length * (a.length - pat.length)) hML2]
        rw [htake2, hshift, hfuel2]
        have hbs := builtSeg_shift d
          ((d.take i0 ++ builtSeg d a pat.length i0 nxt (i0 :: I2)) ++ d.drop nxt)
          a pat.length nxt ((i0 :: I2).length * (a.length - pat.length)) d.length hdrop2
          (matchListGo d pat pat.length (d.length + 1) nxt) nxt d.length (le_refl _)
          (matchListGo_chain d pat hb (d.length + 1) nxt)
        rw [hlen2]
        rw [hbs]
        have hsplit2 : builtSeg d a pat.length i0 d.length
            ((i0 :: I2) ++ matchListGo d pat pat.length (d.length + 1) nxt) =
            builtSeg d a pat.length i0 nxt (i0 :: I2) ++
              builtSeg d a pat.length nxt d.length
                (matchListGo d pat pat.length (d.length + 1) nxt) := by
          have hs := builtSeg_split d a pat.length (i0 :: I2)
            (matchListGo d pat pat.length (d.length + 1) nxt) i0 d.length
          rw [hs, hEndIrrel, ← g3]
        rw [show d.take i0 ++ builtSeg d a pat.length i0 nxt (i0 :: I2) ++
            builtSeg d a pat.length nxt d.length
              (matchListGo d pat pat.length (d.length + 1) nxt) =
          d.take i0 ++ (builtSeg d a pat.length i0 nxt (i0 :: I2) ++
            builtSeg d a pat.length nxt d.length
              (matchListGo d pat pat.length (d.length + 1) nxt)) by
          simp [List.append_assoc]]
        rw [← hsplit2]
        rw [show (i0 :: I2) ++ matchListGo d pat pat.length (d.length + 1) nxt =
          i0 :: (I2 ++ matchListGo d pat pat.length (d.length + 1) nxt) from rfl]
        rw [← builtSeg_prefix_merge d a pat.length index d.length i0
          (I2 ++ matchListGo d pat pat.length (d.length + 1) nxt) hi0]
        rw [g4]
        rfl

theorem matchListGo_len_le (s pat : List Nat) (bsize : Nat) :
    ∀ F i, (matchListGo s pat bsize F i).length ≤ F := by
  intro F
  induction F with
  | zero =>
    intro i
    exact le_refl _
  | succ f ih =>
    intro i
    simp only [matchListGo]
    cases hio : indexOfFrom s pat i with
    | none => simp
    | some j =>
      simp only [List.length_cons]
      have := ih (j + bsize)
      omega

theorem collectGo_len_le (s pat : List Nat) (bsize : Nat) :
    ∀ room i, (collectGo s pat bsize room i).1.length ≤ room := by
  intro room
  induction room with
  | zero =>
    intro i
    exact le_refl _
  | succ r ih =>
    intro i
    simp only [collectGo]
    cases hio : indexOfFrom s pat i with
    | none => simp [hio]
    | some j =>
      rcases hcg : collectGo s pat bsize r (j + bsize + if bsize = 0 then 1 else 0)
        with ⟨rest, idx2⟩
      simp only [hio, hcg]
      simp only [List.length_cons]
      have := ih (j + bsize + if bsize = 0 then 1 else 0)
      rw [hcg] at this
      simp only at this
      omega

theorem replaceGrow_eq_spec (s pat a : List Nat) (hb : 0 < pat.length)
    (hba : pat.length < a.length) : replaceGrow s pat a = replaceAllSpec s pat a := by
  unfold replaceGrow replaceAllSpec
  rw [growLoop_eq pat a hb hba (s.length + 1) s 0 (by
    have := matchListGo_len_le s pat pat.length (s.length + 1) 0
    omega)]
  simp

theorem matchAt_replicate (n c i : Nat) :
    matchAt (List.replicate n c) [c] i = decide (i < n) := by
  unfold matchAt
  simp only [List.length_singleton, List.length_replicate, List.drop_replicate,
    List.take_replicate]
  by_cases hi : i < n
  · rw [decide_eq_true hi, decide_eq_true (show i + 1 ≤ n by omega),
      Nat.min_eq_left (by omega)]
    simp
  · rw [decide_eq_false hi, decide_eq_false (show ¬(i + 1 ≤ n) by omega)]
    simp

theorem idxGo_replicate_none (n c : Nat) :
    ∀ fuel i, n ≤ i → idxGo (List.replicate n c) [c] fuel i = none := by
  intro fuel
  induction fuel with
  | zero =>
    intro i _
    rfl
  | succ f ih =>
    intro i hi
    simp only [idxGo]
    rw [matchAt_replicate, decide_eq_false (by omega)]
    simp only [Bool.false_eq_true, if_false]
    exact ih (i + 1) (by omega)

theorem indexOfFrom_replicate (n c i : Nat) :
    indexOfFrom (List.replicate n c) [c] i = if i < n then some i else none := by
  by_cases hi : i < n
  · rw [if_pos hi]
    unfold indexOfFrom
    rw [List.length_replicate]
    rw [show n + 1 - i = (n - i) + 1 by omega]
    simp only [idxGo]
    rw [matchAt_replicate, decide_eq_true hi]
    rfl
  · rw [if_neg hi]
    unfold indexOfFrom
    exact idxGo_replicate_none n c _ i (by omega)

theorem collectGo_replicate (n c : Nat) :
    ∀ room i, i + room ≤ n →
      collectGo (List.replicate n c) [c] 1 room i = (List.range' i room, some (i + room)) := by
  intro room
  induction room with
  | zero =>
    intro i _
    simp [collectGo]
  | succ r ih =>
    intro i hi
    simp only [collectGo]
    rw [indexOfFrom_replicate, if_pos (by omega)]
    have hif : (i + 1 + if (1 : Nat) = 0 then 1 else 0) = i + 1 := by norm_num
    simp only [hif]
    rw [ih (i + 1) (by omega)]
    rw [List.range'_succ]
    rw [show i + (r + 1) = i + 1 + r by omega]

/-- C7 counterexample to the unamended claim: on 4096 consecutive matches the
collection loop of a single pass stores only 4095 positions and stops with
the search still live (a 4096th match remains at position 4095), because the
loop guard is `pos < 4095` even though the staging array has 4096 slots. -/

theorem replace_grow_4096_counterexample :
    (collectGo (List.replicate 4096 97) [97] 1 4095 0).1.length = 4095 ∧
    (collectGo (List.replicate 4096 97) [97] 1 4095 0).2 = some 4095 ∧
    indexOfFrom (List.replicate 4096 97) [97] 4095 = some 4095 := by
  have hc := collectGo_replicate 4096 97 4095 0 (by norm_num)
  rw [hc]
  refine ⟨by simp, by norm_num, ?_⟩
  rw [indexOfFrom_replicate, if_pos (by norm_num)]

/-- C7 (amended): the grow path of `replace` collects at most 4095 match
positions per pass into its 4096-slot staging buffer, performs a single
consolidated resize per batch, and for a nonempty pattern shorter than its
replacement the overall result equals the buffer with every non-overlapping
occurrence (found left to right) replaced. -/

theorem replace_grow_batching (s pat a d0 : List Nat) (idx0 : Nat)
    (hb : 0 < pat.length) (hba : pat.length < a.length) :
    (collectGo d0 pat pat.length 4095 idx0).1.length ≤ 4095 ∧
    replaceGrow s pat a = replaceAllSpec s pat a :=
  ⟨collectGo_len_le d0 pat pat.length 4095 idx0, replaceGrow_eq_spec s pat a hb hba⟩

/-- C7 witness: replacing byte 1 with bytes 7,8 in the three-byte buffer
1,2,1 through the batched grow path gives exactly the naive left-to-right
replacement. -/

theorem replace_grow_batching_witness :
    (collectGo [] [1] 1 4095 0).1.length ≤ 4095 ∧
    replaceGrow [1, 2, 1] [1] [7, 8] = replaceAllSpec [1, 2, 1] [1] [7, 8] :=
  replace_grow_batching [1, 2, 1] [1] [7, 8] [] 0 (by decide) (by decide)
